import Mathlib

/-!
Verification of the batched bitfield load/store module (`src/field.rs`).

The storage element register `T::Mem` has width `W` bits and the transfer
register `M` has width `MW` bits; both are modelled as natural numbers with
explicit reduction modulo `2 ^ W` / `2 ^ MW` where the machine registers
truncate.  A bit slice is modelled by its head index `h` (distance of the
first live bit from the zero logical position of the first element), its tail
index `t` (one past the last live logical position in the last element) and
the list `mem` of the storage elements it spans, in address order.  Rust
shifts fail when the shift amount reaches the register width, so every shift
is guarded and the operations return `Option`, with `none` marking a panic.
-/

set_option linter.unusedVariables false

namespace BitvecField

/-- Register resize (field.rs `resize` / `resize_inner`, lines 899-953): a raw
byte copy of the smaller register width into a zeroed destination, which
zero-extends or truncates.  For a source value below `2 ^ WT` the copied bytes
are exactly the value reduced modulo `2 ^ (min WT WU)`. -/
def resize (WT WU x : ℕ) : ℕ := x % 2 ^ min WT WU

/-- Width check (field.rs `check`, lines 751-761): every operation panics with
the range-width violation unless `1 ≤ len` and `len ≤ M::BITS`. -/
def check (MW len : ℕ) : Bool := decide (1 ≤ len ∧ len ≤ MW)

/-- Guarded left shift on an `M` register: Rust `<<` fails for shift amounts
at or above the register width, and the result keeps `MW` bits. -/
def shlM (MW x s : ℕ) : Option ℕ :=
  if s < MW then some ((x <<< s) % 2 ^ MW) else none

/-- Guarded right shift on an `M` register. -/
def shrM (MW x s : ℕ) : Option ℕ :=
  if s < MW then some (x >>> s) else none

/-- Masked extract (field.rs `get`, lines 805-818):
`resize((*elem & mask) >> shamt)`.  The shift acts on a `T::Mem` register of
width `W`, so it requires `shamt < W`. -/
def get (W MW elem mask shamt : ℕ) : Option ℕ :=
  if shamt < W then some (resize W MW ((elem &&& mask) >>> shamt)) else none

/-- Masked insert (field.rs `set`, lines 859-878):
`*elem := (elem & !mask) | ((resize(value) << shamt) & mask)`.  The complement
of a mask on a `W`-bit register is `2 ^ W - 1 - mask`, and the left shift is a
`T::Mem` shift keeping `W` bits. -/
def set (W MW elem value mask shamt : ℕ) : Option ℕ :=
  if shamt < W then
    some ((elem &&& (2 ^ W - 1 - mask)) |||
      (((resize MW W value <<< shamt) % 2 ^ W) &&& mask))
  else none

/-- Modelled from the spec: the ordering-policy collaborator (`Lsb0::mask`) is
not under src.  Per section 4.3, the ascending policy's live window runs from
the head marker (default 0) up to the tail marker (default `W`), counted from
the least significant edge, so the element mask selects physical bits `[h, t)`. -/
def lsbMask (W : ℕ) (oh ot : Option ℕ) : ℕ :=
  2 ^ ot.getD W - 2 ^ oh.getD 0

/-- Modelled from the spec: the ordering-policy collaborator (`Msb0::mask`) is
not under src.  Per sections 3 and 4.3, the descending policy maps logical
position `i` to physical bit `W - 1 - i`, so the logical window `[h, t)` is
the physical window `[W - t, W - h)`. -/
def msbMask (W : ℕ) (oh ot : Option ℕ) : ℕ :=
  2 ^ (W - oh.getD 0) - 2 ^ (W - ot.getD W)

/-- Decomposition of a bit range over its storage elements (spec section 3):
either the whole range lies in one element (`enclave`) or it spans two or more
elements (`region`), with optional leading/trailing partial elements around the
fully covered interior. -/
inductive Dom where
  | enclave (head : ℕ) (elem : ℕ) (tail : ℕ)
  | region (head : Option (ℕ × ℕ)) (body : List ℕ) (tail : Option (ℕ × ℕ))

/-- Modelled from the spec: the bit-range decomposition collaborator
(`BitSlice::domain`) is not under src.  Per section 3, a range lying in a
single storage element is an Enclave `(head marker, element, tail marker)`; a
range spanning two or more elements is a Region with an optional leading
partial element (present exactly when the head marker `h` is nonzero), the
address-ordered fully covered interior elements, and an optional trailing
partial element (present exactly when the tail marker `t` is below `W`). -/
def domain (W h t : ℕ) (mem : List ℕ) : Dom :=
  match mem with
  | [] => .region none [] none
  | [e] => .enclave h e t
  | e :: e2 :: rest =>
    let lst := (e2 :: rest).getLastD 0
    let mid := (e2 :: rest).dropLast
    let hd : Option (ℕ × ℕ) := if h = 0 then none else some (h, e)
    let body : List ℕ := if h = 0 then e :: mid else mid
    if t = W then .region hd (body ++ [lst]) none
    else .region hd body (some (lst, t))

/-- Length in bits of the range with markers `(h, t)` spanning `k` storage
elements. -/
def sliceLen (W h t k : ℕ) : ℕ := if k = 0 then 0 else W * (k - 1) + t - h

/-- Body step of the load loops (field.rs lines 379-395, 424-429, 532-537,
566-571): shift the accumulator up one element width when `M` is wider than
`T::Mem`, then merge in the resized element value. -/
def loadStep (W MW a e : ℕ) : Option ℕ :=
  if W < MW then (shlM MW a W).map (fun a2 => a2 ||| resize W MW e)
  else some (a ||| resize W MW e)

/-- Body step of the store loops (field.rs lines 458-463, 488-493, 605-610,
646-651): overwrite the element with the resized low bits of the remaining
value, then shift the value down one element width when `M` is wider than
`T::Mem`.  Accumulates the written elements in traversal order. -/
def storeStep (W MW : ℕ) (acc : List ℕ × ℕ) (e : ℕ) : Option (List ℕ × ℕ) :=
  if W < MW then (shrM MW acc.2 W).map (fun v2 => (acc.1 ++ [resize MW W acc.2], v2))
  else some ((acc.1 ++ [resize MW W acc.2], acc.2))

namespace Lsb0

/-- Little-endian load through an ascending-ordered range
(field.rs `BitSlice::<Lsb0, T>::load_le`, lines 355-406). -/
def loadLe (W MW h t : ℕ) (mem : List ℕ) : Option ℕ :=
  if check MW (sliceLen W h t mem.length) then
    match domain W h t mem with
    | .enclave hd e tl => get W MW e (lsbMask W (some hd) (some tl)) hd
    | .region hd body tl =>
      (match tl with
       | none => some 0
       | some (e, tv) => get W MW e (lsbMask W none (some tv)) 0).bind fun a0 =>
      (List.foldlM (loadStep W MW) a0 body.reverse).bind fun a1 =>
      match hd with
      | none => some a1
      | some (hv, e) =>
        (shlM MW a1 (W - hv)).bind fun a2 =>
        (get W MW e (lsbMask W (some hv) none) hv).map fun g => a2 ||| g
  else none

/-- Big-endian load through an ascending-ordered range
(field.rs `BitSlice::<Lsb0, T>::load_be`, lines 408-441).  The tail shift
amount is clamped to the register mask `M::MASK = MW - 1`. -/
def loadBe (W MW h t : ℕ) (mem : List ℕ) : Option ℕ :=
  if check MW (sliceLen W h t mem.length) then
    match domain W h t mem with
    | .enclave hd e tl => get W MW e (lsbMask W (some hd) (some tl)) hd
    | .region hd body tl =>
      (match hd with
       | none => some 0
       | some (hv, e) => get W MW e (lsbMask W (some hv) none) hv).bind fun a0 =>
      (List.foldlM (loadStep W MW) a0 body).bind fun a1 =>
      match tl with
      | none => some a1
      | some (e, tv) =>
        (shlM MW a1 (tv &&& (MW - 1))).bind fun a2 =>
        (get W MW e (lsbMask W none (some tv)) 0).map fun g => a2 ||| g
  else none

/-- Little-endian store through an ascending-ordered range
(field.rs `BitSlice::<Lsb0, T>::store_le`, lines 443-470).  Returns the new
element values in address order. -/
def storeLe (W MW h t : ℕ) (mem : List ℕ) (v : ℕ) : Option (List ℕ) :=
  if check MW (sliceLen W h t mem.length) then
    match domain W h t mem with
    | .enclave hd e tl =>
      (set W MW e v (lsbMask W (some hd) (some tl)) hd).map fun e2 => [e2]
    | .region hd body tl =>
      (match hd with
       | none => some (([] : List ℕ), v)
       | some (hv, e) =>
         (set W MW e v (lsbMask W (some hv) none) hv).bind fun e2 =>
         (shrM MW v (W - hv)).map fun v2 => ([e2], v2)).bind fun hOut =>
      (List.foldlM (storeStep W MW) (([] : List ℕ), hOut.2) body).bind fun bOut =>
      (match tl with
       | none => some ([] : List ℕ)
       | some (e, tv) =>
         (set W MW e bOut.2 (lsbMask W none (some tv)) 0).map fun e2 => [e2]).map
      fun tOut => hOut.1 ++ bOut.1 ++ tOut
  else none

/-- Big-endian store through an ascending-ordered range
(field.rs `BitSlice::<Lsb0, T>::store_be`, lines 472-505).  The tail shift
amount is clamped to the register mask `M::MASK = MW - 1`; the body is walked
in reverse address order, so the written interior values are reversed before
reassembly. -/
def storeBe (W MW h t : ℕ) (mem : List ℕ) (v : ℕ) : Option (List ℕ) :=
  if check MW (sliceLen W h t mem.length) then
    match domain W h t mem with
    | .enclave hd e tl =>
      (set W MW e v (lsbMask W (some hd) (some tl)) hd).map fun e2 => [e2]
    | .region hd body tl =>
      (match tl with
       | none => some (([] : List ℕ), v)
       | some (e, tv) =>
         (set W MW e v (lsbMask W none (some tv)) 0).bind fun e2 =>
         (shrM MW v (tv &&& (MW - 1))).map fun v2 => ([e2], v2)).bind fun tOut =>
      (List.foldlM (storeStep W MW) (([] : List ℕ), tOut.2) body.reverse).bind fun bOut =>
      (match hd with
       | none => some ([] : List ℕ)
       | some (hv, e) =>
         (set W MW e bOut.2 (lsbMask W (some hv) none) hv).map fun e2 => [e2]).map
      fun hOut => hOut ++ bOut.1.reverse ++ tOut.1
  else none

/-- Endian-default load dispatch (field.rs `BitField::load`, lines 160-167):
delegates to `load_le` on little-endian hosts and `load_be` on big-endian
hosts; the host byte order is the boolean parameter. -/
def load (littleHost : Bool) (W MW h t : ℕ) (mem : List ℕ) : Option ℕ :=
  if littleHost then loadLe W MW h t mem else loadBe W MW h t mem

/-- Endian-default store dispatch (field.rs `BitField::store`, lines 210-217). -/
def store (littleHost : Bool) (W MW h t : ℕ) (mem : List ℕ) (v : ℕ) :
    Option (List ℕ) :=
  if littleHost then storeLe W MW h t mem v else storeBe W MW h t mem v

end Lsb0

namespace Msb0

/-- Little-endian load through a descending-ordered range
(field.rs `BitSlice::<Msb0, T>::load_le`, lines 511-547). -/
def loadLe (W MW h t : ℕ) (mem : List ℕ) : Option ℕ :=
  if check MW (sliceLen W h t mem.length) then
    match domain W h t mem with
    | .enclave hd e tl => get W MW e (msbMask W (some hd) (some tl)) (W - tl)
    | .region hd body tl =>
      (match tl with
       | none => some 0
       | some (e, tv) => get W MW e (msbMask W none (some tv)) (W - tv)).bind fun a0 =>
      (List.foldlM (loadStep W MW) a0 body.reverse).bind fun a1 =>
      match hd with
      | none => some a1
      | some (hv, e) =>
        (shlM MW a1 (W - hv)).bind fun a2 =>
        (get W MW e (msbMask W (some hv) none) 0).map fun g => a2 ||| g
  else none

/-- Big-endian load through a descending-ordered range
(field.rs `BitSlice::<Msb0, T>::load_be`, lines 549-586). -/
def loadBe (W MW h t : ℕ) (mem : List ℕ) : Option ℕ :=
  if check MW (sliceLen W h t mem.length) then
    match domain W h t mem with
    | .enclave hd e tl => get W MW e (msbMask W (some hd) (some tl)) (W - tl)
    | .region hd body tl =>
      (match hd with
       | none => some 0
       | some (hv, e) => get W MW e (msbMask W (some hv) none) 0).bind fun a0 =>
      (List.foldlM (loadStep W MW) a0 body).bind fun a1 =>
      match tl with
      | none => some a1
      | some (e, tv) =>
        (shlM MW a1 tv).bind fun a2 =>
        (get W MW e (msbMask W none (some tv)) (W - tv)).map fun g => a2 ||| g
  else none

/-- Little-endian store through a descending-ordered range
(field.rs `BitSlice::<Msb0, T>::store_le`, lines 588-622). -/
def storeLe (W MW h t : ℕ) (mem : List ℕ) (v : ℕ) : Option (List ℕ) :=
  if check MW (sliceLen W h t mem.length) then
    match domain W h t mem with
    | .enclave hd e tl =>
      (set W MW e v (msbMask W (some hd) (some tl)) (W - tl)).map fun e2 => [e2]
    | .region hd body tl =>
      (match hd with
       | none => some (([] : List ℕ), v)
       | some (hv, e) =>
         (set W MW e v (msbMask W (some hv) none) 0).bind fun e2 =>
         (shrM MW v (W - hv)).map fun v2 => ([e2], v2)).bind fun hOut =>
      (List.foldlM (storeStep W MW) (([] : List ℕ), hOut.2) body).bind fun bOut =>
      (match tl with
       | none => some ([] : List ℕ)
       | some (e, tv) =>
         (set W MW e bOut.2 (msbMask W none (some tv)) (W - tv)).map fun e2 => [e2]).map
      fun tOut => hOut.1 ++ bOut.1 ++ tOut
  else none

/-- Big-endian store through a descending-ordered range
(field.rs `BitSlice::<Msb0, T>::store_be`, lines 624-658). -/
def storeBe (W MW h t : ℕ) (mem : List ℕ) (v : ℕ) : Option (List ℕ) :=
  if check MW (sliceLen W h t mem.length) then
    match domain W h t mem with
    | .enclave hd e tl =>
      (set W MW e v (msbMask W (some hd) (some tl)) (W - tl)).map fun e2 => [e2]
    | .region hd body tl =>
      (match tl with
       | none => some (([] : List ℕ), v)
       | some (e, tv) =>
         (set W MW e v (msbMask W none (some tv)) (W - tv)).bind fun e2 =>
         (shrM MW v tv).map fun v2 => ([e2], v2)).bind fun tOut =>
      (List.foldlM (storeStep W MW) (([] : List ℕ), tOut.2) body.reverse).bind fun bOut =>
      (match hd with
       | none => some ([] : List ℕ)
       | some (hv, e) =>
         (set W MW e bOut.2 (msbMask W (some hv) none) 0).map fun e2 => [e2]).map
      fun hOut => hOut ++ bOut.1.reverse ++ tOut.1
  else none

/-- Endian-default load dispatch for descending-ordered ranges
(field.rs `BitField::load`, lines 160-167). -/
def load (littleHost : Bool) (W MW h t : ℕ) (mem : List ℕ) : Option ℕ :=
  if littleHost then loadLe W MW h t mem else loadBe W MW h t mem

/-- Endian-default store dispatch for descending-ordered ranges
(field.rs `BitField::store`, lines 210-217). -/
def store (littleHost : Bool) (W MW h t : ℕ) (mem : List ℕ) (v : ℕ) :
    Option (List ℕ) :=
  if littleHost then storeLe W MW h t mem v else storeBe W MW h t mem v

end Msb0

/-- Value of a list of storage elements read as one little-endian number,
each element truncated to its `W` live bits. -/
def valLE (W : ℕ) : List ℕ → ℕ
  | [] => 0
  | e :: l => e % 2 ^ W + 2 ^ W * valLE W l

/-- Element values written by the store body loop when the remaining register
value is `v` and `n` interior elements are traversed. -/
def bodyVals (W MW : ℕ) : ℕ → ℕ → List ℕ
  | _, 0 => []
  | v, n + 1 => resize MW W v :: bodyVals W MW (v / 2 ^ W) n

/-- Element value with the physical bit window `[a, b)` replaced by the low
bits of `c`, all other bits of the `W`-bit element preserved. -/
def updMid (W a b e c : ℕ) : ℕ :=
  e % 2 ^ a + c % 2 ^ (b - a) * 2 ^ a + e / 2 ^ b % 2 ^ (W - b) * 2 ^ b

/-- Interior (fully covered) elements of a multi-element range in address
order: the first element joins the body when `h = 0` and the last when `t = W`. -/
def regionBody (W h t e : ℕ) (mid : List ℕ) (lst : ℕ) : List ℕ :=
  (if h = 0 then e :: mid else mid) ++ (if t = W then [lst] else [])

/-- Width in bits of the leading partial chunk of a multi-element range. -/
def headW (W h : ℕ) : ℕ := if h = 0 then 0 else W - h

/-- Width in bits of the trailing partial chunk of a multi-element range. -/
def tailW (W t : ℕ) : ℕ := if t = W then 0 else t

/-- Value of the leading partial chunk under the ascending ordering. -/
def headChunkA (W h e : ℕ) : ℕ := if h = 0 then 0 else e / 2 ^ h % 2 ^ (W - h)

/-- Value of the trailing partial chunk under the ascending ordering. -/
def tailChunkA (W t lst : ℕ) : ℕ := if t = W then 0 else lst % 2 ^ t

/-- Value of the leading partial chunk under the descending ordering. -/
def headChunkD (W h e : ℕ) : ℕ := if h = 0 then 0 else e % 2 ^ (W - h)

/-- Value of the trailing partial chunk under the descending ordering. -/
def tailChunkD (W t lst : ℕ) : ℕ := if t = W then 0 else lst / 2 ^ (W - t) % 2 ^ t

/-- Physical bit `p` of element `i` is live for an ascending-ordered range
with markers `(h, t)` over `k` elements. -/
def liveA (W h t k i p : ℕ) : Prop :=
  p < W ∧ (i = 0 → h ≤ p) ∧ (i = k - 1 → p < t)

/-- Physical bit `p` of element `i` is live for a descending-ordered range
with markers `(h, t)` over `k` elements. -/
def liveD (W h t k i p : ℕ) : Prop :=
  p < W ∧ (i = 0 → p < W - h) ∧ (i = k - 1 → W - t ≤ p)

/-! ## Arithmetic and bitwise toolkit -/

theorem two_pow_pos (n : ℕ) : 0 < 2 ^ n := Nat.pos_pow_of_pos n (by omega)

theorem two_pow_le_two_pow {a b : ℕ} (hab : a ≤ b) : 2 ^ a ≤ 2 ^ b :=
  Nat.pow_le_pow_right (by omega) hab

/-- Composition of adjacent div-mod windows. -/
theorem mod_compose (x a b : ℕ) :
    x % 2 ^ a + 2 ^ a * (x / 2 ^ a % 2 ^ b) = x % 2 ^ (a + b) := by
  rw [pow_add, Nat.mod_mul]

theorem valLE_lt (W : ℕ) (l : List ℕ) : valLE W l < 2 ^ (W * l.length) := by
  induction l with
  | nil => simp [valLE]
  | cons e l ih =>
    have h1 : e % 2 ^ W < 2 ^ W := Nat.mod_lt _ (two_pow_pos W)
    have h2 : 2 ^ (W * (e :: l).length) = 2 ^ W * 2 ^ (W * l.length) := by
      rw [← pow_add]; congr 1; simp [List.length_cons, Nat.mul_succ, Nat.mul_add]; ring
    simp only [valLE, h2]
    have h3 : valLE W l + 1 ≤ 2 ^ (W * l.length) := ih
    have h4 : 2 ^ W * (valLE W l + 1) ≤ 2 ^ W * 2 ^ (W * l.length) :=
      Nat.mul_le_mul_left _ h3
    have h5 : 2 ^ W * (valLE W l + 1) = 2 ^ W * valLE W l + 2 ^ W := by ring
    omega

theorem valLE_append (W : ℕ) (l : List ℕ) (e : ℕ) :
    valLE W (l ++ [e]) = valLE W l + 2 ^ (W * l.length) * (e % 2 ^ W) := by
  induction l with
  | nil => simp [valLE]
  | cons x l ih =>
    have hp : 2 ^ (W * (l.length + 1)) = 2 ^ W * 2 ^ (W * l.length) := by
      rw [← pow_add]; congr 1; ring
    simp only [List.cons_append, valLE, List.length_cons, List.append_eq]
    rw [ih, hp]; ring

theorem bodyVals_length (W MW v n : ℕ) : (bodyVals W MW v n).length = n := by
  induction n generalizing v with
  | zero => simp [bodyVals]
  | succ n ih => simp [bodyVals, ih]

theorem valLE_bodyVals (W MW : ℕ) (hWM : W ≤ MW) (v n : ℕ) :
    valLE W (bodyVals W MW v n) = v % 2 ^ (W * n) := by
  induction n generalizing v with
  | zero => simp [bodyVals, valLE, Nat.mod_one]
  | succ n ih =>
    have hres : resize MW W v = v % 2 ^ W := by
      unfold resize
      have hmin : min MW W = W := by omega
      rw [hmin]
    have hexp : W * (n + 1) = W + W * n := by ring
    simp only [bodyVals, valLE, hres, Nat.mod_mod_of_dvd _ (dvd_refl (2 ^ W)), ih]
    rw [hexp]
    exact mod_compose v W (W * n)

/-- Bits `[a, ∞)` of a product with `2 ^ a` are the factor's bits. -/
theorem and_mul_two_pow (x y a : ℕ) : x &&& y * 2 ^ a = (x / 2 ^ a &&& y) * 2 ^ a := by
  apply Nat.eq_of_testBit_eq
  intro i
  rw [← Nat.shiftLeft_eq y a, ← Nat.shiftLeft_eq _ a, ← Nat.shiftRight_eq_div_pow x a]
  rcases Nat.lt_or_ge i a with hia | hia
  · simp [Nat.testBit_and, Nat.testBit_shiftLeft, Nat.not_le.2 hia]
  · simp [Nat.testBit_and, Nat.testBit_shiftLeft, Nat.testBit_shiftRight, hia,
      Nat.add_sub_cancel' hia]

/-- Contiguous range masks extract a div-mod window. -/
theorem and_range (x a b : ℕ) (hab : a ≤ b) :
    x &&& (2 ^ b - 2 ^ a) = x / 2 ^ a % 2 ^ (b - a) * 2 ^ a := by
  have hsplit : 2 ^ b - 2 ^ a = (2 ^ (b - a) - 1) * 2 ^ a := by
    rw [Nat.sub_mul, one_mul, ← pow_add]
    congr 2
    omega
  rw [hsplit, and_mul_two_pow, Nat.and_pow_two_sub_one_eq_mod]

/-- Merging a low part below `2 ^ s` with a multiple of `2 ^ s` is addition. -/
theorem or_disjoint (a b s : ℕ) (hb : b < 2 ^ s) : a * 2 ^ s ||| b = a * 2 ^ s + b := by
  have := Nat.mul_add_lt_is_or hb a
  rw [Nat.mul_comm a (2 ^ s)]
  omega

theorem or_disjoint_add (a b s : ℕ) (hb : b < 2 ^ s) : a * 2 ^ s ||| b = b + a * 2 ^ s := by
  rw [or_disjoint a b s hb]; ring

/-- Complement of a contiguous range mask, applied to an element. -/
theorem and_comp_range (x a b Wd : ℕ) (hab : a ≤ b) (hbW : b ≤ Wd) :
    x &&& (2 ^ Wd - 1 - (2 ^ b - 2 ^ a)) =
      x / 2 ^ b % 2 ^ (Wd - b) * 2 ^ b ||| x % 2 ^ a := by
  have h1 : 2 ^ a ≤ 2 ^ b := two_pow_le_two_pow hab
  have h2 : 2 ^ b ≤ 2 ^ Wd := two_pow_le_two_pow hbW
  have h3 : (0:ℕ) < 2 ^ a := two_pow_pos a
  have hone : 2 ^ a - 1 < 2 ^ b := by omega
  have hcomp : 2 ^ Wd - 1 - (2 ^ b - 2 ^ a) =
      (2 ^ (Wd - b) - 1) * 2 ^ b ||| (2 ^ a - 1) := by
    rw [or_disjoint _ _ _ hone, Nat.sub_mul, one_mul, ← pow_add]
    have : Wd - b + b = Wd := by omega
    rw [this]
    omega
  rw [hcomp, Nat.and_or_distrib_left]
  have hleft : x &&& (2 ^ (Wd - b) - 1) * 2 ^ b = x / 2 ^ b % 2 ^ (Wd - b) * 2 ^ b := by
    rw [and_mul_two_pow, Nat.and_pow_two_sub_one_eq_mod]
  rw [hleft, Nat.and_pow_two_sub_one_eq_mod]

/-- Reassembling the preserved and written parts of an element. -/
theorem or_three (x c a b Wd : ℕ) (hab : a ≤ b) (hbW : b ≤ Wd) (hc : c < 2 ^ (b - a)) :
    (x / 2 ^ b % 2 ^ (Wd - b) * 2 ^ b ||| x % 2 ^ a) ||| c * 2 ^ a =
      x % 2 ^ a + c * 2 ^ a + x / 2 ^ b % 2 ^ (Wd - b) * 2 ^ b := by
  have h3 : x % 2 ^ a < 2 ^ a := Nat.mod_lt _ (two_pow_pos a)
  have hsum : c * 2 ^ a + x % 2 ^ a < 2 ^ b := by
    have : (c + 1) * 2 ^ a ≤ 2 ^ (b - a) * 2 ^ a := Nat.mul_le_mul_right _ (by omega)
    rw [← pow_add] at this
    have hba : b - a + a = b := by omega
    rw [hba] at this
    calc c * 2 ^ a + x % 2 ^ a < c * 2 ^ a + 2 ^ a := by omega
      _ = (c + 1) * 2 ^ a := by ring
      _ ≤ 2 ^ b := this
  rw [Nat.or_assoc]
  have hinner : x % 2 ^ a ||| c * 2 ^ a = c * 2 ^ a + x % 2 ^ a := by
    rw [Nat.or_comm, or_disjoint _ _ _ h3]
  rw [hinner]
  have hmul : x / 2 ^ b % 2 ^ (Wd - b) * 2 ^ b ||| c * 2 ^ a + x % 2 ^ a =
      x / 2 ^ b % 2 ^ (Wd - b) * 2 ^ b + (c * 2 ^ a + x % 2 ^ a) :=
    or_disjoint _ _ _ hsum
  rw [hmul]
  ring

/-- Left shift inside a `W`-bit register viewed arithmetically. -/
theorem mul_pow_mod (x a Wd : ℕ) (haW : a ≤ Wd) :
    x * 2 ^ a % 2 ^ Wd = x % 2 ^ (Wd - a) * 2 ^ a := by
  have : 2 ^ Wd = 2 ^ (Wd - a) * 2 ^ a := by
    rw [← pow_add]; congr 1; omega
  rw [this, Nat.mul_mod_mul_right]

/-- Clamping with the register mask is the identity below a power-of-two width. -/
theorem and_mask_of_lt (x m : ℕ) (hm : ∃ i, m = 2 ^ i) (hx : x < m) : x &&& (m - 1) = x := by
  obtain ⟨i, rfl⟩ := hm
  rw [Nat.and_pow_two_sub_one_eq_mod]
  exact Nat.mod_eq_of_lt hx

/-! ## Evaluation of the element primitives on contiguous range masks -/

/-- Evaluation of `get` on the range mask `[a, b)` with shift `a`: it extracts
the window as a number. -/
theorem get_eq (W MW e a b : ℕ) (hab : a ≤ b) (hbW : b ≤ W) (hwidth : b - a ≤ MW)
    (haW : a < W) :
    get W MW e (2 ^ b - 2 ^ a) a = some (e / 2 ^ a % 2 ^ (b - a)) := by
  unfold get resize
  rw [if_pos haW, and_range e a b hab, Nat.shiftRight_eq_div_pow,
    Nat.mul_div_cancel _ (two_pow_pos a)]
  congr 1
  apply Nat.mod_eq_of_lt
  have h1 : e / 2 ^ a % 2 ^ (b - a) < 2 ^ (b - a) := Nat.mod_lt _ (two_pow_pos _)
  have h2 : 2 ^ (b - a) ≤ 2 ^ min W MW := two_pow_le_two_pow (by omega)
  omega

/-- Evaluation of `set` on the range mask `[a, b)` with shift `a`: it replaces
the window with the low bits of the value and preserves everything else. -/
theorem set_eq (W MW e v a b : ℕ) (hab : a ≤ b) (hbW : b ≤ W) (hwidth : b - a ≤ MW)
    (haW : a < W) :
    set W MW e v (2 ^ b - 2 ^ a) a = some (updMid W a b e v) := by
  unfold set
  rw [if_pos haW]
  have hX : resize MW W v % 2 ^ (W - a) % 2 ^ (b - a) = v % 2 ^ (b - a) := by
    unfold resize
    rw [Nat.mod_mod_of_dvd _ (pow_dvd_pow 2 (by omega : b - a ≤ W - a)),
      Nat.mod_mod_of_dvd _ (pow_dvd_pow 2 (by omega : b - a ≤ min MW W))]
  have hval : ((resize MW W v <<< a) % 2 ^ W) &&& (2 ^ b - 2 ^ a) =
      v % 2 ^ (b - a) * 2 ^ a := by
    rw [Nat.shiftLeft_eq, mul_pow_mod _ a W (by omega), and_range _ a b hab,
      Nat.mul_div_cancel _ (two_pow_pos a), hX]
  rw [hval, and_comp_range e a b W hab hbW,
    or_three e (v % 2 ^ (b - a)) a b W hab hbW (Nat.mod_lt _ (two_pow_pos _))]
  rfl

/-- Extract through the ascending tail mask `[0, b)` with shift `0`. -/
theorem get_low (W MW x b : ℕ) (hbW : b ≤ W) (hbM : b ≤ MW) (hW : 0 < W) :
    get W MW x (lsbMask W none (some b)) 0 = some (x % 2 ^ b) := by
  have h0 : lsbMask W none (some b) = 2 ^ b - 2 ^ 0 := rfl
  rw [h0, get_eq W MW x 0 b (by omega) hbW (by omega) hW]
  simp

/-- Extract through the ascending head mask `[h, W)` with shift `h`. -/
theorem get_high (W MW x h : ℕ) (hh : 0 < h) (hhW : h < W) (hwM : W - h ≤ MW) :
    get W MW x (lsbMask W (some h) none) h = some (x / 2 ^ h % 2 ^ (W - h)) := by
  have h0 : lsbMask W (some h) none = 2 ^ W - 2 ^ h := rfl
  rw [h0]
  exact get_eq W MW x h W (by omega) (le_refl W) hwM hhW

/-- Extract through the ascending enclave mask `[h, t)` with shift `h`. -/
theorem get_mid (W MW x h t : ℕ) (hht : h < t) (htW : t ≤ W) (hwM : t - h ≤ MW) :
    get W MW x (lsbMask W (some h) (some t)) h = some (x / 2 ^ h % 2 ^ (t - h)) := by
  have h0 : lsbMask W (some h) (some t) = 2 ^ t - 2 ^ h := rfl
  rw [h0]
  exact get_eq W MW x h t (by omega) htW hwM (by omega)

/-- Extract through the descending head mask, physical `[0, W - h)`, shift `0`. -/
theorem get_lowD (W MW x h : ℕ) (hhW : h < W) (hwM : W - h ≤ MW) :
    get W MW x (msbMask W (some h) none) 0 = some (x % 2 ^ (W - h)) := by
  have h0 : msbMask W (some h) none = 2 ^ (W - h) - 2 ^ (W - W) := rfl
  rw [h0, Nat.sub_self, get_eq W MW x 0 (W - h) (by omega) (by omega) (by omega) (by omega)]
  simp

/-- Extract through the descending tail mask, physical `[W - b, W)`, shift `W - b`. -/
theorem get_highD (W MW x b : ℕ) (hb : 1 ≤ b) (hbW : b ≤ W) (hbM : b ≤ MW) :
    get W MW x (msbMask W none (some b)) (W - b) = some (x / 2 ^ (W - b) % 2 ^ b) := by
  have h0 : msbMask W none (some b) = 2 ^ (W - 0) - 2 ^ (W - b) := rfl
  have h1 : W - (W - b) = b := by omega
  rw [h0, Nat.sub_zero, get_eq W MW x (W - b) W (by omega) (le_refl W) (by omega) (by omega),
    h1]

/-- Extract through the descending enclave mask, physical `[W - t, W - h)`. -/
theorem get_midD (W MW x h t : ℕ) (hht : h < t) (htW : t ≤ W) (hwM : t - h ≤ MW) :
    get W MW x (msbMask W (some h) (some t)) (W - t) =
      some (x / 2 ^ (W - t) % 2 ^ (t - h)) := by
  have h0 : msbMask W (some h) (some t) = 2 ^ (W - h) - 2 ^ (W - t) := rfl
  have h1 : W - h - (W - t) = t - h := by omega
  rw [h0, get_eq W MW x (W - t) (W - h) (by omega) (by omega) (by omega) (by omega), h1]

/-- Insert through the ascending tail mask `[0, b)` with shift `0`. -/
theorem set_low (W MW x v b : ℕ) (hbW : b ≤ W) (hbM : b ≤ MW) (hW : 0 < W) :
    set W MW x v (lsbMask W none (some b)) 0 = some (updMid W 0 b x v) := by
  have h0 : lsbMask W none (some b) = 2 ^ b - 2 ^ 0 := rfl
  rw [h0]
  exact set_eq W MW x v 0 b (by omega) hbW (by omega) hW

/-- Insert through the ascending head mask `[h, W)` with shift `h`. -/
theorem set_high (W MW x v h : ℕ) (hh : 0 < h) (hhW : h < W) (hwM : W - h ≤ MW) :
    set W MW x v (lsbMask W (some h) none) h = some (updMid W h W x v) := by
  have h0 : lsbMask W (some h) none = 2 ^ W - 2 ^ h := rfl
  rw [h0]
  exact set_eq W MW x v h W (by omega) (le_refl W) hwM hhW

/-- Insert through the ascending enclave mask `[h, t)` with shift `h`. -/
theorem set_mid (W MW x v h t : ℕ) (hht : h < t) (htW : t ≤ W) (hwM : t - h ≤ MW) :
    set W MW x v (lsbMask W (some h) (some t)) h = some (updMid W h t x v) := by
  have h0 : lsbMask W (some h) (some t) = 2 ^ t - 2 ^ h := rfl
  rw [h0]
  exact set_eq W MW x v h t (by omega) htW hwM (by omega)

/-- Insert through the descending head mask, physical `[0, W - h)`, shift `0`. -/
theorem set_lowD (W MW x v h : ℕ) (hhW : h < W) (hwM : W - h ≤ MW) :
    set W MW x v (msbMask W (some h) none) 0 = some (updMid W 0 (W - h) x v) := by
  have h0 : msbMask W (some h) none = 2 ^ (W - h) - 2 ^ (W - W) := rfl
  rw [h0, Nat.sub_self]
  exact set_eq W MW x v 0 (W - h) (by omega) (by omega) (by omega) (by omega)

/-- Insert through the descending tail mask, physical `[W - b, W)`, shift `W - b`. -/
theorem set_highD (W MW x v b : ℕ) (hb : 1 ≤ b) (hbW : b ≤ W) (hbM : b ≤ MW) :
    set W MW x v (msbMask W none (some b)) (W - b) = some (updMid W (W - b) W x v) := by
  have h0 : msbMask W none (some b) = 2 ^ (W - 0) - 2 ^ (W - b) := rfl
  rw [h0, Nat.sub_zero]
  exact set_eq W MW x v (W - b) W (by omega) (le_refl W) (by omega) (by omega)

/-- Insert through the descending enclave mask, physical `[W - t, W - h)`. -/
theorem set_midD (W MW x v h t : ℕ) (hht : h < t) (htW : t ≤ W) (hwM : t - h ≤ MW) :
    set W MW x v (msbMask W (some h) (some t)) (W - t) =
      some (updMid W (W - t) (W - h) x v) := by
  have h0 : msbMask W (some h) (some t) = 2 ^ (W - h) - 2 ^ (W - t) := rfl
  rw [h0]
  exact set_eq W MW x v (W - t) (W - h) (by omega) (by omega) (by omega) (by omega)

/-! ## The body loops -/

/-- The load body step never fails. -/
theorem loadStep_eq (W MW a e : ℕ) :
    loadStep W MW a e =
      some ((if W < MW then a <<< W % 2 ^ MW else a) ||| resize W MW e) := by
  unfold loadStep shlM
  by_cases hWM : W < MW
  · simp [hWM]
  · simp [hWM]

/-- The load body loop never fails. -/
theorem foldlM_loadStep (W MW : ℕ) (l : List ℕ) (a : ℕ) :
    List.foldlM (loadStep W MW) a l =
      some (List.foldl
        (fun a e => (if W < MW then a <<< W % 2 ^ MW else a) ||| resize W MW e) a l) := by
  induction l generalizing a with
  | nil => rfl
  | cons e l ih =>
    rw [List.foldlM_cons, loadStep_eq]
    simp only [Option.bind_eq_bind, Option.some_bind]
    rw [ih, List.foldl_cons]

/-- Value computed by the load loop: traversal order ascends in significance,
so traversing `l` assembles the reverse of `l` little-endian above the seed. -/
theorem foldl_load (W MW : ℕ) (hW : 0 < W) (l : List ℕ) (a A : ℕ) (ha : a < 2 ^ A)
    (hlen : A + W * l.length ≤ MW) :
    List.foldl
        (fun a e => (if W < MW then a <<< W % 2 ^ MW else a) ||| resize W MW e) a l =
      valLE W l.reverse + 2 ^ (W * l.length) * a := by
  induction l generalizing a A with
  | nil => simp [valLE]
  | cons e l ih =>
    rw [List.length_cons] at hlen
    by_cases hWM : W < MW
    · have hbound : a * 2 ^ W < 2 ^ MW := by
        have h1 : a * 2 ^ W < 2 ^ A * 2 ^ W :=
          (Nat.mul_lt_mul_right (two_pow_pos W)).2 ha
        have h2 : 2 ^ A * 2 ^ W ≤ 2 ^ MW := by
          rw [← pow_add]
          exact two_pow_le_two_pow (by
            have : W * (l.length + 1) = W * l.length + W := by ring
            omega)
        omega
      have hres : resize W MW e = e % 2 ^ W := by
        unfold resize
        rw [min_eq_left (le_of_lt hWM)]
      have hstep : (if W < MW then a <<< W % 2 ^ MW else a) ||| resize W MW e =
          a * 2 ^ W + e % 2 ^ W := by
        rw [if_pos hWM, Nat.shiftLeft_eq, Nat.mod_eq_of_lt hbound, hres,
          or_disjoint a (e % 2 ^ W) W (Nat.mod_lt _ (two_pow_pos W))]
      have ha2 : a * 2 ^ W + e % 2 ^ W < 2 ^ (A + W) := by
        have h1 : (a + 1) * 2 ^ W ≤ 2 ^ A * 2 ^ W := Nat.mul_le_mul_right _ (by omega)
        have h2 : e % 2 ^ W < 2 ^ W := Nat.mod_lt _ (two_pow_pos W)
        have h3 : 2 ^ A * 2 ^ W = 2 ^ (A + W) := by rw [← pow_add]
        have h4 : (a + 1) * 2 ^ W = a * 2 ^ W + 2 ^ W := by ring
        omega
      rw [List.foldl_cons, hstep, ih (a * 2 ^ W + e % 2 ^ W) (A + W) ha2 (by
        have : W * (l.length + 1) = W * l.length + W := by ring
        omega)]
      rw [List.reverse_cons, valLE_append, List.length_reverse, List.length_cons]
      have hpow : 2 ^ (W * (l.length + 1)) = 2 ^ (W * l.length) * 2 ^ W := by
        rw [← pow_add, Nat.mul_succ]
      rw [hpow]
      ring
    · have hMW : MW ≤ W := by omega
      have hA0 : A = 0 ∧ W * l.length = 0 ∧ W ≤ MW := by
        have : W * (l.length + 1) = W * l.length + W := by ring
        omega
      have hWMW : W = MW := by omega
      have hl0 : l = [] := by
        have := hA0.2.1
        have : l.length = 0 := by
          rcases Nat.mul_eq_zero.1 hA0.2.1 with h | h
          · omega
          · exact h
        exact List.length_eq_zero.1 this
      have ha0 : a = 0 := by
        have := ha
        rw [hA0.1] at this
        omega
      subst hl0
      subst ha0
      have hres : resize W MW e = e % 2 ^ W := by
        unfold resize
        rw [hWMW, min_self]
      simp [valLE, hres, hWM]

/-- The store body step never fails when the value shift is in range. -/
theorem storeStep_eq (W MW : ℕ) (d : List ℕ) (v e : ℕ) :
    storeStep W MW (d, v) e =
      some (d ++ [resize MW W v], if W < MW then v / 2 ^ W else v) := by
  unfold storeStep shrM
  by_cases hWM : W < MW
  · simp [hWM, Nat.shiftRight_eq_div_pow]
  · simp [hWM]

/-- The store body loop writes successive `W`-bit slices of the value. -/
theorem foldlM_storeStep (W MW : ℕ) (l : List ℕ) (d : List ℕ) (v : ℕ)
    (hcond : l.length = 0 ∨ W < MW) :
    List.foldlM (storeStep W MW) (d, v) l =
      some (d ++ bodyVals W MW v l.length, v / 2 ^ (W * l.length)) := by
  induction l generalizing d v with
  | nil => simp [bodyVals]
  | cons e l ih =>
    have hWM : W < MW := by
      rcases hcond with h | h
      · simp at h
      · exact h
    rw [List.foldlM_cons, storeStep_eq]
    simp only [Option.bind_eq_bind, Option.some_bind, if_pos hWM]
    rw [ih (d ++ [resize MW W v]) (v / 2 ^ W) (Or.inr hWM)]
    have hdiv : v / 2 ^ W / 2 ^ (W * l.length) = v / 2 ^ (W * (e :: l).length) := by
      rw [Nat.div_div_eq_div_mul, ← pow_add, List.length_cons]
      congr 2
      ring
    rw [hdiv]
    simp [bodyVals, List.length_cons]

/-! ## Shape of the decomposition -/

/-- Decomposition of a multi-element slice written as first element, interior,
last element. -/
theorem domain_cons_concat (W h t e lst : ℕ) (mid : List ℕ) :
    domain W h t (e :: (mid ++ [lst])) =
      if t = W then
        Dom.region (if h = 0 then none else some (h, e))
          ((if h = 0 then e :: mid else mid) ++ [lst]) none
      else
        Dom.region (if h = 0 then none else some (h, e))
          (if h = 0 then e :: mid else mid) (some (lst, t)) := by
  cases mid with
  | nil => simp [domain]
  | cons m ms =>
    have h1 : ((m :: ms) ++ [lst]).getLastD 0 = lst := List.getLastD_concat _ _ _
    have h2 : ((m :: ms) ++ [lst]).dropLast = m :: ms := List.dropLast_concat
    simp only [List.cons_append, domain] at *
    rw [h1, h2]

/-! ## Evaluation of the operations: single-element (enclave) ranges -/

/-- On a single element the two endiannesses run identical code (ascending). -/
theorem loadBe_single_eq (W MW h t e : ℕ) :
    Lsb0.loadBe W MW h t [e] = Lsb0.loadLe W MW h t [e] := rfl

/-- On a single element the two endiannesses run identical code (ascending store). -/
theorem storeBe_single_eq (W MW h t e v : ℕ) :
    Lsb0.storeBe W MW h t [e] v = Lsb0.storeLe W MW h t [e] v := rfl

/-- On a single element the two endiannesses run identical code (descending). -/
theorem loadBe_single_eqD (W MW h t e : ℕ) :
    Msb0.loadBe W MW h t [e] = Msb0.loadLe W MW h t [e] := rfl

/-- On a single element the two endiannesses run identical code (descending store). -/
theorem storeBe_single_eqD (W MW h t e v : ℕ) :
    Msb0.storeBe W MW h t [e] v = Msb0.storeLe W MW h t [e] v := rfl

/-- Enclave load, ascending ordering: the window `[h, t)` read from the low edge. -/
theorem loadLe_enclave (W MW h t e : ℕ) (hht : h < t) (htW : t ≤ W) (hlen : t - h ≤ MW) :
    Lsb0.loadLe W MW h t [e] = some (e / 2 ^ h % 2 ^ (t - h)) := by
  unfold Lsb0.loadLe
  have hlen1 : sliceLen W h t 1 = t - h := by unfold sliceLen; simp
  have hchk : check MW (t - h) = true := by unfold check; simp; omega
  simp only [List.length_cons, List.length_nil, hlen1, hchk, if_true, domain]
  exact get_mid W MW e h t hht htW hlen

/-- Enclave store, ascending ordering: the window `[h, t)` is replaced. -/
theorem storeLe_enclave (W MW h t e v : ℕ) (hht : h < t) (htW : t ≤ W)
    (hlen : t - h ≤ MW) :
    Lsb0.storeLe W MW h t [e] v = some [updMid W h t e v] := by
  unfold Lsb0.storeLe
  have hlen1 : sliceLen W h t 1 = t - h := by unfold sliceLen; simp
  have hchk : check MW (t - h) = true := by unfold check; simp; omega
  simp only [List.length_cons, List.length_nil, hlen1, hchk, if_true, domain]
  rw [set_mid W MW e v h t hht htW hlen]
  rfl

/-- Enclave load, descending ordering: the physical window `[W - t, W - h)`. -/
theorem loadLe_enclaveD (W MW h t e : ℕ) (hht : h < t) (htW : t ≤ W)
    (hlen : t - h ≤ MW) :
    Msb0.loadLe W MW h t [e] = some (e / 2 ^ (W - t) % 2 ^ (t - h)) := by
  unfold Msb0.loadLe
  have hlen1 : sliceLen W h t 1 = t - h := by unfold sliceLen; simp
  have hchk : check MW (t - h) = true := by unfold check; simp; omega
  simp only [List.length_cons, List.length_nil, hlen1, hchk, if_true, domain]
  exact get_midD W MW e h t hht htW hlen

/-- Enclave store, descending ordering: the physical window `[W - t, W - h)` is
replaced. -/
theorem storeLe_enclaveD (W MW h t e v : ℕ) (hht : h < t) (htW : t ≤ W)
    (hlen : t - h ≤ MW) :
    Msb0.storeLe W MW h t [e] v = some [updMid W (W - t) (W - h) e v] := by
  unfold Msb0.storeLe
  have hlen1 : sliceLen W h t 1 = t - h := by unfold sliceLen; simp
  have hchk : check MW (t - h) = true := by unfold check; simp; omega
  simp only [List.length_cons, List.length_nil, hlen1, hchk, if_true, domain]
  rw [set_midD W MW e v h t hht htW hlen]
  rfl

/-! ## Evaluation of the operations: multi-element (region) ranges -/

theorem loadLe_region (W MW h t e lst : ℕ) (mid : List ℕ)
    (hh : h < W) (ht1 : 1 ≤ t) (htW : t ≤ W)
    (hlen : W * (mid.length + 1) + t - h ≤ MW) :
    Lsb0.loadLe W MW h t (e :: (mid ++ [lst])) =
      some (headChunkA W h e + 2 ^ headW W h *
        (valLE W (regionBody W h t e mid lst) +
          2 ^ (W * (regionBody W h t e mid lst).length) * tailChunkA W t lst)) := by
  have hW : 0 < W := by omega
  have hmulW : W ≤ W * (mid.length + 1) := Nat.le_mul_of_pos_right _ (by omega)
  have hmul1 : W * (mid.length + 1) = W * mid.length + W := by ring
  have hmul2 : W * (mid.length + 2) = W * mid.length + W + W := by ring
  have hk : (e :: (mid ++ [lst])).length = mid.length + 2 := by simp
  have hslice : sliceLen W h t (mid.length + 2) = W * (mid.length + 1) + t - h := by
    unfold sliceLen
    simp
  have hcond : check MW (sliceLen W h t ((e :: (mid ++ [lst])).length)) = true := by
    rw [hk, hslice]
    unfold check
    simp
    omega
  unfold Lsb0.loadLe
  rw [if_pos hcond, domain_cons_concat]
  by_cases h0 : h = 0 <;> by_cases htw : t = W
  · -- h = 0, t = W
    rw [if_pos htw]
    simp only [if_pos h0]
    simp only [Option.bind_eq_bind, Option.some_bind]
    rw [foldlM_loadStep]
    simp only [Option.some_bind]
    have hlen3 : ((e :: mid) ++ [lst]).length = mid.length + 2 := by simp
    rw [foldl_load W MW hW ((e :: mid) ++ [lst]).reverse 0 0 (by norm_num)
      (by rw [List.length_reverse, hlen3]; omega)]
    rw [List.reverse_reverse]
    simp only [List.length_reverse, mul_zero, add_zero]
    simp only [headChunkA, headW, tailChunkA, regionBody, if_pos h0, if_pos htw]
    simp [hlen3]
  · -- h = 0, t < W
    rw [if_neg htw]
    simp only [if_pos h0]
    have htM : t ≤ MW := by omega
    rw [get_low W MW lst t htW htM hW]
    simp only [Option.bind_eq_bind, Option.some_bind]
    rw [foldlM_loadStep]
    simp only [Option.some_bind]
    have hlen3 : (e :: mid).length = mid.length + 1 := by simp
    rw [foldl_load W MW hW (e :: mid).reverse (lst % 2 ^ t) t
      (Nat.mod_lt _ (two_pow_pos t)) (by rw [List.length_reverse, hlen3]; omega)]
    rw [List.reverse_reverse]
    simp only [List.length_reverse]
    simp only [headChunkA, headW, tailChunkA, regionBody, if_pos h0, if_neg htw,
      List.append_nil]
    ring
  · -- h > 0, t = W
    rw [if_pos htw]
    simp only [if_neg h0]
    simp only [Option.bind_eq_bind, Option.some_bind]
    rw [foldlM_loadStep]
    simp only [Option.some_bind]
    have hlen3 : (mid ++ [lst]).length = mid.length + 1 := by simp
    rw [foldl_load W MW hW (mid ++ [lst]).reverse 0 0 (by norm_num)
      (by rw [List.length_reverse, hlen3]; omega)]
    rw [List.reverse_reverse]
    simp only [List.length_reverse, mul_zero, add_zero]
    have hwM : W - h < MW := by omega
    set a1 := valLE W (mid ++ [lst]) with ha1
    have hshl : shlM MW a1 (W - h) = some (a1 <<< (W - h) % 2 ^ MW) := by
      unfold shlM
      rw [if_pos hwM]
    rw [hshl]
    simp only [Option.some_bind]
    rw [get_high W MW e h (by omega) hh (by omega)]
    simp only [Option.map_some']
    have hvl : a1 < 2 ^ (W * (mid ++ [lst]).length) := valLE_lt W _
    have hbound : a1 * 2 ^ (W - h) < 2 ^ MW := by
      have h6 : a1 * 2 ^ (W - h) < 2 ^ (W * (mid ++ [lst]).length) * 2 ^ (W - h) :=
        (Nat.mul_lt_mul_right (two_pow_pos _)).2 hvl
      have h7 : 2 ^ (W * (mid ++ [lst]).length) * 2 ^ (W - h) ≤ 2 ^ MW := by
        rw [← pow_add]
        exact two_pow_le_two_pow (by rw [hlen3]; omega)
      omega
    rw [Nat.shiftLeft_eq, Nat.mod_eq_of_lt hbound,
      or_disjoint_add a1 _ (W - h) (Nat.mod_lt _ (two_pow_pos _))]
    simp only [headChunkA, headW, tailChunkA, regionBody, if_neg h0, if_pos htw]
    ring
  · -- h > 0, t < W
    rw [if_neg htw]
    simp only [if_neg h0]
    have htM : t ≤ MW := by omega
    rw [get_low W MW lst t htW htM hW]
    simp only [Option.bind_eq_bind, Option.some_bind]
    rw [foldlM_loadStep]
    simp only [Option.some_bind]
    rw [foldl_load W MW hW mid.reverse (lst % 2 ^ t) t (Nat.mod_lt _ (two_pow_pos t))
      (by rw [List.length_reverse]; omega)]
    rw [List.reverse_reverse, List.length_reverse]
    have hwM : W - h < MW := by omega
    set a1 := valLE W mid + 2 ^ (W * mid.length) * (lst % 2 ^ t) with ha1
    have hshl : shlM MW a1 (W - h) = some (a1 <<< (W - h) % 2 ^ MW) := by
      unfold shlM
      rw [if_pos hwM]
    rw [hshl]
    simp only [Option.some_bind]
    rw [get_high W MW e h (by omega) hh (by omega)]
    simp only [Option.map_some']
    have hvl : valLE W mid < 2 ^ (W * mid.length) := valLE_lt W mid
    have htl : lst % 2 ^ t < 2 ^ t := Nat.mod_lt _ (two_pow_pos t)
    have hstep : 2 ^ (W * mid.length) * (lst % 2 ^ t) + 2 ^ (W * mid.length) ≤
        2 ^ (W * mid.length) * 2 ^ t := by
      have h5 := Nat.mul_le_mul_left (2 ^ (W * mid.length))
        (show lst % 2 ^ t + 1 ≤ 2 ^ t by omega)
      rw [Nat.mul_add, Nat.mul_one] at h5
      exact h5
    have ha1lt : a1 < 2 ^ (W * mid.length) * 2 ^ t := by omega
    have hexp : 2 ^ (W * mid.length) * 2 ^ t * 2 ^ (W - h) ≤ 2 ^ MW := by
      rw [← pow_add, ← pow_add]
      exact two_pow_le_two_pow (by omega)
    have hbound : a1 * 2 ^ (W - h) < 2 ^ MW := by
      have h6 : a1 * 2 ^ (W - h) < 2 ^ (W * mid.length) * 2 ^ t * 2 ^ (W - h) :=
        (Nat.mul_lt_mul_right (two_pow_pos _)).2 ha1lt
      omega
    rw [Nat.shiftLeft_eq, Nat.mod_eq_of_lt hbound,
      or_disjoint_add a1 _ (W - h) (Nat.mod_lt _ (two_pow_pos _))]
    simp only [headChunkA, headW, tailChunkA, regionBody, if_neg h0, if_neg htw,
      List.append_nil]
    ring

theorem loadBe_region (W MW h t e lst : ℕ) (mid : List ℕ)
    (hh : h < W) (ht1 : 1 ≤ t) (htW : t ≤ W)
    (hlen : W * (mid.length + 1) + t - h ≤ MW) (hm2 : ∃ i, MW = 2 ^ i) :
    Lsb0.loadBe W MW h t (e :: (mid ++ [lst])) =
      some (tailChunkA W t lst + 2 ^ tailW W t *
        (valLE W (regionBody W h t e mid lst).reverse +
          2 ^ (W * (regionBody W h t e mid lst).length) * headChunkA W h e)) := by
  have hW : 0 < W := by omega
  have hmulW : W ≤ W * (mid.length + 1) := Nat.le_mul_of_pos_right _ (by omega)
  have hmul1 : W * (mid.length + 1) = W * mid.length + W := by ring
  have hmul2 : W * (mid.length + 2) = W * mid.length + W + W := by ring
  have hk : (e :: (mid ++ [lst])).length = mid.length + 2 := by simp
  have hslice : sliceLen W h t (mid.length + 2) = W * (mid.length + 1) + t - h := by
    unfold sliceLen
    simp
  have hcond : check MW (sliceLen W h t ((e :: (mid ++ [lst])).length)) = true := by
    rw [hk, hslice]
    unfold check
    simp
    omega
  unfold Lsb0.loadBe
  rw [if_pos hcond, domain_cons_concat]
  by_cases h0 : h = 0 <;> by_cases htw : t = W
  · -- h = 0, t = W
    rw [if_pos htw]
    simp only [if_pos h0]
    simp only [Option.bind_eq_bind, Option.some_bind]
    rw [foldlM_loadStep]
    simp only [Option.some_bind]
    have hlen3 : ((e :: mid) ++ [lst]).length = mid.length + 2 := by simp
    rw [foldl_load W MW hW ((e :: mid) ++ [lst]) 0 0 (by norm_num)
      (by rw [hlen3]; omega)]
    simp only [mul_zero, add_zero, hlen3]
    simp only [headChunkA, tailW, tailChunkA, regionBody, if_pos h0, if_pos htw]
    simp [hlen3]
  · -- h = 0, t < W
    rw [if_neg htw]
    simp only [if_pos h0]
    simp only [Option.bind_eq_bind, Option.some_bind]
    rw [foldlM_loadStep]
    simp only [Option.some_bind]
    have hlen3 : (e :: mid).length = mid.length + 1 := by simp
    rw [foldl_load W MW hW (e :: mid) 0 0 (by norm_num) (by rw [hlen3]; omega)]
    simp only [mul_zero, add_zero, hlen3]
    have htM : t < MW := by omega
    rw [and_mask_of_lt t MW hm2 htM]
    set a1 := valLE W (e :: mid).reverse with ha1
    have hshl : shlM MW a1 t = some (a1 <<< t % 2 ^ MW) := by
      unfold shlM
      rw [if_pos htM]
    rw [hshl]
    simp only [Option.some_bind]
    rw [get_low W MW lst t htW (by omega) hW]
    simp only [Option.map_some']
    have hvl : a1 < 2 ^ (W * (mid.length + 1)) := by
      have := valLE_lt W (e :: mid).reverse
      rw [List.length_reverse, hlen3] at this
      exact this
    have hbound : a1 * 2 ^ t < 2 ^ MW := by
      have h6 : a1 * 2 ^ t < 2 ^ (W * (mid.length + 1)) * 2 ^ t :=
        (Nat.mul_lt_mul_right (two_pow_pos _)).2 hvl
      have h7 : 2 ^ (W * (mid.length + 1)) * 2 ^ t ≤ 2 ^ MW := by
        rw [← pow_add]
        exact two_pow_le_two_pow (by omega)
      omega
    rw [Nat.shiftLeft_eq, Nat.mod_eq_of_lt hbound,
      or_disjoint_add a1 _ t (Nat.mod_lt _ (two_pow_pos _))]
    simp only [headChunkA, tailW, tailChunkA, regionBody, if_pos h0, if_neg htw,
      List.append_nil, List.length_cons, hlen3]
    ring
  · -- h > 0, t = W
    rw [if_pos htw]
    simp only [if_neg h0]
    rw [get_high W MW e h (by omega) hh (by omega)]
    simp only [Option.bind_eq_bind, Option.some_bind]
    rw [foldlM_loadStep]
    simp only [Option.some_bind]
    have hlen3 : (mid ++ [lst]).length = mid.length + 1 := by simp
    rw [foldl_load W MW hW (mid ++ [lst]) (e / 2 ^ h % 2 ^ (W - h)) (W - h)
      (Nat.mod_lt _ (two_pow_pos _)) (by rw [hlen3]; omega)]
    simp only [hlen3]
    simp only [headChunkA, tailW, tailChunkA, regionBody, if_neg h0, if_pos htw]
    simp [hlen3]
  · -- h > 0, t < W
    rw [if_neg htw]
    simp only [if_neg h0]
    rw [get_high W MW e h (by omega) hh (by omega)]
    simp only [Option.bind_eq_bind, Option.some_bind]
    rw [foldlM_loadStep]
    simp only [Option.some_bind]
    rw [foldl_load W MW hW mid (e / 2 ^ h % 2 ^ (W - h)) (W - h)
      (Nat.mod_lt _ (two_pow_pos _)) (by omega)]
    have htM : t < MW := by omega
    rw [and_mask_of_lt t MW hm2 htM]
    set a1 := valLE W mid.reverse + 2 ^ (W * mid.length) * (e / 2 ^ h % 2 ^ (W - h))
      with ha1
    have hshl : shlM MW a1 t = some (a1 <<< t % 2 ^ MW) := by
      unfold shlM
      rw [if_pos htM]
    rw [hshl]
    simp only [Option.some_bind]
    rw [get_low W MW lst t htW (by omega) hW]
    simp only [Option.map_some']
    have hvl : valLE W mid.reverse < 2 ^ (W * mid.length) := by
      have := valLE_lt W mid.reverse
      rw [List.length_reverse] at this
      exact this
    have hhc : e / 2 ^ h % 2 ^ (W - h) < 2 ^ (W - h) := Nat.mod_lt _ (two_pow_pos _)
    have hstep : 2 ^ (W * mid.length) * (e / 2 ^ h % 2 ^ (W - h)) + 2 ^ (W * mid.length) ≤
        2 ^ (W * mid.length) * 2 ^ (W - h) := by
      have h5 := Nat.mul_le_mul_left (2 ^ (W * mid.length))
        (show e / 2 ^ h % 2 ^ (W - h) + 1 ≤ 2 ^ (W - h) by omega)
      rw [Nat.mul_add, Nat.mul_one] at h5
      exact h5
    have ha1lt : a1 < 2 ^ (W * mid.length) * 2 ^ (W - h) := by omega
    have hexp : 2 ^ (W * mid.length) * 2 ^ (W - h) * 2 ^ t ≤ 2 ^ MW := by
      rw [← pow_add, ← pow_add]
      exact two_pow_le_two_pow (by omega)
    have hbound : a1 * 2 ^ t < 2 ^ MW := by
      have h6 : a1 * 2 ^ t < 2 ^ (W * mid.length) * 2 ^ (W - h) * 2 ^ t :=
        (Nat.mul_lt_mul_right (two_pow_pos _)).2 ha1lt
      omega
    rw [Nat.shiftLeft_eq, Nat.mod_eq_of_lt hbound,
      or_disjoint_add a1 _ t (Nat.mod_lt _ (two_pow_pos _))]
    simp only [headChunkA, tailW, tailChunkA, regionBody, if_neg h0, if_neg htw,
      List.append_nil]
    ring

theorem loadLe_regionD (W MW h t e lst : ℕ) (mid : List ℕ)
    (hh : h < W) (ht1 : 1 ≤ t) (htW : t ≤ W)
    (hlen : W * (mid.length + 1) + t - h ≤ MW) :
    Msb0.loadLe W MW h t (e :: (mid ++ [lst])) =
      some (headChunkD W h e + 2 ^ headW W h *
        (valLE W (regionBody W h t e mid lst) +
          2 ^ (W * (regionBody W h t e mid lst).length) * tailChunkD W t lst)) := by
  have hW : 0 < W := by omega
  have hmulW : W ≤ W * (mid.length + 1) := Nat.le_mul_of_pos_right _ (by omega)
  have hmul1 : W * (mid.length + 1) = W * mid.length + W := by ring
  have hmul2 : W * (mid.length + 2) = W * mid.length + W + W := by ring
  have hk : (e :: (mid ++ [lst])).length = mid.length + 2 := by simp
  have hslice : sliceLen W h t (mid.length + 2) = W * (mid.length + 1) + t - h := by
    unfold sliceLen
    simp
  have hcond : check MW (sliceLen W h t ((e :: (mid ++ [lst])).length)) = true := by
    rw [hk, hslice]
    unfold check
    simp
    omega
  unfold Msb0.loadLe
  rw [if_pos hcond, domain_cons_concat]
  by_cases h0 : h = 0 <;> by_cases htw : t = W
  · -- h = 0, t = W
    rw [if_pos htw]
    simp only [if_pos h0]
    simp only [Option.bind_eq_bind, Option.some_bind]
    rw [foldlM_loadStep]
    simp only [Option.some_bind]
    have hlen3 : ((e :: mid) ++ [lst]).length = mid.length + 2 := by simp
    rw [foldl_load W MW hW ((e :: mid) ++ [lst]).reverse 0 0 (by norm_num)
      (by rw [List.length_reverse, hlen3]; omega)]
    rw [List.reverse_reverse]
    simp only [List.length_reverse, mul_zero, add_zero]
    simp only [headChunkD, headW, tailChunkD, regionBody, if_pos h0, if_pos htw]
    simp [hlen3]
  · -- h = 0, t < W
    rw [if_neg htw]
    simp only [if_pos h0]
    have htM : t ≤ MW := by omega
    rw [get_highD W MW lst t ht1 htW htM]
    simp only [Option.bind_eq_bind, Option.some_bind]
    rw [foldlM_loadStep]
    simp only [Option.some_bind]
    have hlen3 : (e :: mid).length = mid.length + 1 := by simp
    rw [foldl_load W MW hW (e :: mid).reverse (lst / 2 ^ (W - t) % 2 ^ t) t
      (Nat.mod_lt _ (two_pow_pos t)) (by rw [List.length_reverse, hlen3]; omega)]
    rw [List.reverse_reverse]
    simp only [List.length_reverse]
    simp only [headChunkD, headW, tailChunkD, regionBody, if_pos h0, if_neg htw,
      List.append_nil]
    ring
  · -- h > 0, t = W
    rw [if_pos htw]
    simp only [if_neg h0]
    simp only [Option.bind_eq_bind, Option.some_bind]
    rw [foldlM_loadStep]
    simp only [Option.some_bind]
    have hlen3 : (mid ++ [lst]).length = mid.length + 1 := by simp
    rw [foldl_load W MW hW (mid ++ [lst]).reverse 0 0 (by norm_num)
      (by rw [List.length_reverse, hlen3]; omega)]
    rw [List.reverse_reverse]
    simp only [List.length_reverse, mul_zero, add_zero]
    have hwM : W - h < MW := by omega
    set a1 := valLE W (mid ++ [lst]) with ha1
    have hshl : shlM MW a1 (W - h) = some (a1 <<< (W - h) % 2 ^ MW) := by
      unfold shlM
      rw [if_pos hwM]
    rw [hshl]
    simp only [Option.some_bind]
    rw [get_lowD W MW e h hh (by omega)]
    simp only [Option.map_some']
    have hvl : a1 < 2 ^ (W * (mid ++ [lst]).length) := valLE_lt W _
    have hbound : a1 * 2 ^ (W - h) < 2 ^ MW := by
      have h6 : a1 * 2 ^ (W - h) < 2 ^ (W * (mid ++ [lst]).length) * 2 ^ (W - h) :=
        (Nat.mul_lt_mul_right (two_pow_pos _)).2 hvl
      have h7 : 2 ^ (W * (mid ++ [lst]).length) * 2 ^ (W - h) ≤ 2 ^ MW := by
        rw [← pow_add]
        exact two_pow_le_two_pow (by rw [hlen3]; omega)
      omega
    rw [Nat.shiftLeft_eq, Nat.mod_eq_of_lt hbound,
      or_disjoint_add a1 _ (W - h) (Nat.mod_lt _ (two_pow_pos _))]
    simp only [headChunkD, headW, tailChunkD, regionBody, if_neg h0, if_pos htw]
    ring
  · -- h > 0, t < W
    rw [if_neg htw]
    simp only [if_neg h0]
    have htM : t ≤ MW := by omega
    rw [get_highD W MW lst t ht1 htW htM]
    simp only [Option.bind_eq_bind, Option.some_bind]
    rw [foldlM_loadStep]
    simp only [Option.some_bind]
    rw [foldl_load W MW hW mid.reverse (lst / 2 ^ (W - t) % 2 ^ t) t (Nat.mod_lt _ (two_pow_pos t))
      (by rw [List.length_reverse]; omega)]
    rw [List.reverse_reverse, List.length_reverse]
    have hwM : W - h < MW := by omega
    set a1 := valLE W mid + 2 ^ (W * mid.length) * (lst / 2 ^ (W - t) % 2 ^ t) with ha1
    have hshl : shlM MW a1 (W - h) = some (a1 <<< (W - h) % 2 ^ MW) := by
      unfold shlM
      rw [if_pos hwM]
    rw [hshl]
    simp only [Option.some_bind]
    rw [get_lowD W MW e h hh (by omega)]
    simp only [Option.map_some']
    have hvl : valLE W mid < 2 ^ (W * mid.length) := valLE_lt W mid
    have htl : lst / 2 ^ (W - t) % 2 ^ t < 2 ^ t := Nat.mod_lt _ (two_pow_pos t)
    have hstep : 2 ^ (W * mid.length) * (lst / 2 ^ (W - t) % 2 ^ t) + 2 ^ (W * mid.length) ≤
        2 ^ (W * mid.length) * 2 ^ t := by
      have h5 := Nat.mul_le_mul_left (2 ^ (W * mid.length))
        (show lst / 2 ^ (W - t) % 2 ^ t + 1 ≤ 2 ^ t by omega)
      rw [Nat.mul_add, Nat.mul_one] at h5
      exact h5
    have ha1lt : a1 < 2 ^ (W * mid.length) * 2 ^ t := by omega
    have hexp : 2 ^ (W * mid.length) * 2 ^ t * 2 ^ (W - h) ≤ 2 ^ MW := by
      rw [← pow_add, ← pow_add]
      exact two_pow_le_two_pow (by omega)
    have hbound : a1 * 2 ^ (W - h) < 2 ^ MW := by
      have h6 : a1 * 2 ^ (W - h) < 2 ^ (W * mid.length) * 2 ^ t * 2 ^ (W - h) :=
        (Nat.mul_lt_mul_right (two_pow_pos _)).2 ha1lt
      omega
    rw [Nat.shiftLeft_eq, Nat.mod_eq_of_lt hbound,
      or_disjoint_add a1 _ (W - h) (Nat.mod_lt _ (two_pow_pos _))]
    simp only [headChunkD, headW, tailChunkD, regionBody, if_neg h0, if_neg htw,
      List.append_nil]
    ring

theorem loadBe_regionD (W MW h t e lst : ℕ) (mid : List ℕ)
    (hh : h < W) (ht1 : 1 ≤ t) (htW : t ≤ W)
    (hlen : W * (mid.length + 1) + t - h ≤ MW) :
    Msb0.loadBe W MW h t (e :: (mid ++ [lst])) =
      some (tailChunkD W t lst + 2 ^ tailW W t *
        (valLE W (regionBody W h t e mid lst).reverse +
          2 ^ (W * (regionBody W h t e mid lst).length) * headChunkD W h e)) := by
  have hW : 0 < W := by omega
  have hmulW : W ≤ W * (mid.length + 1) := Nat.le_mul_of_pos_right _ (by omega)
  have hmul1 : W * (mid.length + 1) = W * mid.length + W := by ring
  have hmul2 : W * (mid.length + 2) = W * mid.length + W + W := by ring
  have hk : (e :: (mid ++ [lst])).length = mid.length + 2 := by simp
  have hslice : sliceLen W h t (mid.length + 2) = W * (mid.length + 1) + t - h := by
    unfold sliceLen
    simp
  have hcond : check MW (sliceLen W h t ((e :: (mid ++ [lst])).length)) = true := by
    rw [hk, hslice]
    unfold check
    simp
    omega
  unfold Msb0.loadBe
  rw [if_pos hcond, domain_cons_concat]
  by_cases h0 : h = 0 <;> by_cases htw : t = W
  · -- h = 0, t = W
    rw [if_pos htw]
    simp only [if_pos h0]
    simp only [Option.bind_eq_bind, Option.some_bind]
    rw [foldlM_loadStep]
    simp only [Option.some_bind]
    have hlen3 : ((e :: mid) ++ [lst]).length = mid.length + 2 := by simp
    rw [foldl_load W MW hW ((e :: mid) ++ [lst]) 0 0 (by norm_num)
      (by rw [hlen3]; omega)]
    simp only [mul_zero, add_zero, hlen3]
    simp only [headChunkD, tailW, tailChunkD, regionBody, if_pos h0, if_pos htw]
    simp [hlen3]
  · -- h = 0, t < W
    rw [if_neg htw]
    simp only [if_pos h0]
    simp only [Option.bind_eq_bind, Option.some_bind]
    rw [foldlM_loadStep]
    simp only [Option.some_bind]
    have hlen3 : (e :: mid).length = mid.length + 1 := by simp
    rw [foldl_load W MW hW (e :: mid) 0 0 (by norm_num) (by rw [hlen3]; omega)]
    simp only [mul_zero, add_zero, hlen3]
    have htM : t < MW := by omega
    set a1 := valLE W (e :: mid).reverse with ha1
    have hshl : shlM MW a1 t = some (a1 <<< t % 2 ^ MW) := by
      unfold shlM
      rw [if_pos htM]
    rw [hshl]
    simp only [Option.some_bind]
    rw [get_highD W MW lst t ht1 htW (by omega)]
    simp only [Option.map_some']
    have hvl : a1 < 2 ^ (W * (mid.length + 1)) := by
      have := valLE_lt W (e :: mid).reverse
      rw [List.length_reverse, hlen3] at this
      exact this
    have hbound : a1 * 2 ^ t < 2 ^ MW := by
      have h6 : a1 * 2 ^ t < 2 ^ (W * (mid.length + 1)) * 2 ^ t :=
        (Nat.mul_lt_mul_right (two_pow_pos _)).2 hvl
      have h7 : 2 ^ (W * (mid.length + 1)) * 2 ^ t ≤ 2 ^ MW := by
        rw [← pow_add]
        exact two_pow_le_two_pow (by omega)
      omega
    rw [Nat.shiftLeft_eq, Nat.mod_eq_of_lt hbound,
      or_disjoint_add a1 _ t (Nat.mod_lt _ (two_pow_pos _))]
    simp only [headChunkD, tailW, tailChunkD, regionBody, if_pos h0, if_neg htw,
      List.append_nil, List.length_cons, hlen3]
    ring
  · -- h > 0, t = W
    rw [if_pos htw]
    simp only [if_neg h0]
    rw [get_lowD W MW e h hh (by omega)]
    simp only [Option.bind_eq_bind, Option.some_bind]
    rw [foldlM_loadStep]
    simp only [Option.some_bind]
    have hlen3 : (mid ++ [lst]).length = mid.length + 1 := by simp
    rw [foldl_load W MW hW (mid ++ [lst]) (e % 2 ^ (W - h)) (W - h)
      (Nat.mod_lt _ (two_pow_pos _)) (by rw [hlen3]; omega)]
    simp only [hlen3]
    simp only [headChunkD, tailW, tailChunkD, regionBody, if_neg h0, if_pos htw]
    simp [hlen3]
  · -- h > 0, t < W
    rw [if_neg htw]
    simp only [if_neg h0]
    rw [get_lowD W MW e h hh (by omega)]
    simp only [Option.bind_eq_bind, Option.some_bind]
    rw [foldlM_loadStep]
    simp only [Option.some_bind]
    rw [foldl_load W MW hW mid (e % 2 ^ (W - h)) (W - h)
      (Nat.mod_lt _ (two_pow_pos _)) (by omega)]
    have htM : t < MW := by omega
    set a1 := valLE W mid.reverse + 2 ^ (W * mid.length) * (e % 2 ^ (W - h))
      with ha1
    have hshl : shlM MW a1 t = some (a1 <<< t % 2 ^ MW) := by
      unfold shlM
      rw [if_pos htM]
    rw [hshl]
    simp only [Option.some_bind]
    rw [get_highD W MW lst t ht1 htW (by omega)]
    simp only [Option.map_some']
    have hvl : valLE W mid.reverse < 2 ^ (W * mid.length) := by
      have := valLE_lt W mid.reverse
      rw [List.length_reverse] at this
      exact this
    have hhc : e % 2 ^ (W - h) < 2 ^ (W - h) := Nat.mod_lt _ (two_pow_pos _)
    have hstep : 2 ^ (W * mid.length) * (e % 2 ^ (W - h)) + 2 ^ (W * mid.length) ≤
        2 ^ (W * mid.length) * 2 ^ (W - h) := by
      have h5 := Nat.mul_le_mul_left (2 ^ (W * mid.length))
        (show e % 2 ^ (W - h) + 1 ≤ 2 ^ (W - h) by omega)
      rw [Nat.mul_add, Nat.mul_one] at h5
      exact h5
    have ha1lt : a1 < 2 ^ (W * mid.length) * 2 ^ (W - h) := by omega
    have hexp : 2 ^ (W * mid.length) * 2 ^ (W - h) * 2 ^ t ≤ 2 ^ MW := by
      rw [← pow_add, ← pow_add]
      exact two_pow_le_two_pow (by omega)
    have hbound : a1 * 2 ^ t < 2 ^ MW := by
      have h6 : a1 * 2 ^ t < 2 ^ (W * mid.length) * 2 ^ (W - h) * 2 ^ t :=
        (Nat.mul_lt_mul_right (two_pow_pos _)).2 ha1lt
      omega
    rw [Nat.shiftLeft_eq, Nat.mod_eq_of_lt hbound,
      or_disjoint_add a1 _ t (Nat.mod_lt _ (two_pow_pos _))]
    simp only [headChunkD, tailW, tailChunkD, regionBody, if_neg h0, if_neg htw,
      List.append_nil]
    ring

theorem storeLe_region (W MW h t e lst : ℕ) (mid : List ℕ) (v : ℕ)
    (hh : h < W) (ht1 : 1 ≤ t) (htW : t ≤ W)
    (hlen : W * (mid.length + 1) + t - h ≤ MW) :
    Lsb0.storeLe W MW h t (e :: (mid ++ [lst])) v =
      some ((if h = 0 then [] else [updMid W h W e v]) ++
        bodyVals W MW (if h = 0 then v else v / 2 ^ (W - h))
          (regionBody W h t e mid lst).length ++
        (if t = W then [] else [updMid W 0 t lst
          ((if h = 0 then v else v / 2 ^ (W - h)) /
            2 ^ (W * (regionBody W h t e mid lst).length))])) := by
  have hW : 0 < W := by omega
  have hmulW : W ≤ W * (mid.length + 1) := Nat.le_mul_of_pos_right _ (by omega)
  have hmul1 : W * (mid.length + 1) = W * mid.length + W := by ring
  have hmul2 : W * (mid.length + 2) = W * mid.length + W + W := by ring
  have hk : (e :: (mid ++ [lst])).length = mid.length + 2 := by simp
  have hslice : sliceLen W h t (mid.length + 2) = W * (mid.length + 1) + t - h := by
    unfold sliceLen
    simp
  have hcond : check MW (sliceLen W h t ((e :: (mid ++ [lst])).length)) = true := by
    rw [hk, hslice]
    unfold check
    simp
    omega
  unfold Lsb0.storeLe
  rw [if_pos hcond, domain_cons_concat]
  by_cases h0 : h = 0 <;> by_cases htw : t = W
  · -- h = 0, t = W
    rw [if_pos htw]
    simp only [if_pos h0]
    simp only [Option.bind_eq_bind, Option.some_bind]
    have hWM : ((e :: mid) ++ [lst]).length = 0 ∨ W < MW := by
      right
      omega
    rw [foldlM_storeStep W MW ((e :: mid) ++ [lst]) [] v hWM]
    simp only [Option.some_bind, List.nil_append]
    simp only [Option.map_some']
    simp only [regionBody, if_pos h0, if_pos htw]
  · -- h = 0, t < W
    rw [if_neg htw]
    simp only [if_pos h0]
    simp only [Option.bind_eq_bind, Option.some_bind]
    have hWM : (e :: mid).length = 0 ∨ W < MW := by
      right
      omega
    rw [foldlM_storeStep W MW (e :: mid) [] v hWM]
    simp only [Option.some_bind, List.nil_append]
    have hlen3 : (e :: mid).length = mid.length + 1 := by simp
    rw [set_low W MW lst (v / 2 ^ (W * (e :: mid).length)) t htW (by omega) hW]
    simp only [Option.map_some']
    simp only [regionBody, if_pos h0, if_neg htw, List.append_nil, hlen3]
  · -- h > 0, t = W
    rw [if_pos htw]
    simp only [if_neg h0]
    have hwM : W - h < MW := by omega
    rw [set_high W MW e v h (by omega) hh (by omega)]
    simp only [Option.bind_eq_bind, Option.some_bind]
    have hshr : shrM MW v (W - h) = some (v / 2 ^ (W - h)) := by
      unfold shrM
      rw [if_pos hwM, Nat.shiftRight_eq_div_pow]
    rw [hshr]
    simp only [Option.map_some', Option.some_bind]
    have hWM : (mid ++ [lst]).length = 0 ∨ W < MW := by
      right
      omega
    rw [foldlM_storeStep W MW (mid ++ [lst]) [] (v / 2 ^ (W - h)) hWM]
    simp only [Option.some_bind, List.nil_append]
    simp only [regionBody, if_neg h0, if_pos htw, List.append_nil]
  · -- h > 0, t < W
    rw [if_neg htw]
    simp only [if_neg h0]
    have hwM : W - h < MW := by omega
    rw [set_high W MW e v h (by omega) hh (by omega)]
    simp only [Option.bind_eq_bind, Option.some_bind]
    have hshr : shrM MW v (W - h) = some (v / 2 ^ (W - h)) := by
      unfold shrM
      rw [if_pos hwM, Nat.shiftRight_eq_div_pow]
    rw [hshr]
    simp only [Option.map_some', Option.some_bind]
    have hWM : mid.length = 0 ∨ W < MW := by
      rcases Nat.eq_zero_or_pos mid.length with hm | hm
      · exact Or.inl hm
      · right
        have h8 : W * 2 ≤ W * (mid.length + 1) := Nat.mul_le_mul_left _ (by omega)
        omega
    rw [foldlM_storeStep W MW mid [] (v / 2 ^ (W - h)) hWM]
    simp only [Option.some_bind, List.nil_append]
    rw [set_low W MW lst (v / 2 ^ (W - h) / 2 ^ (W * mid.length)) t htW (by omega) hW]
    simp only [Option.map_some']
    simp only [regionBody, if_neg h0, if_neg htw, List.append_nil]

theorem storeBe_region (W MW h t e lst : ℕ) (mid : List ℕ) (v : ℕ)
    (hh : h < W) (ht1 : 1 ≤ t) (htW : t ≤ W)
    (hlen : W * (mid.length + 1) + t - h ≤ MW) (hm2 : ∃ i, MW = 2 ^ i) :
    Lsb0.storeBe W MW h t (e :: (mid ++ [lst])) v =
      some ((if h = 0 then [] else [updMid W h W e
          ((if t = W then v else v / 2 ^ t) /
            2 ^ (W * (regionBody W h t e mid lst).length))]) ++
        (bodyVals W MW (if t = W then v else v / 2 ^ t)
          (regionBody W h t e mid lst).length).reverse ++
        (if t = W then [] else [updMid W 0 t lst v])) := by
  have hW : 0 < W := by omega
  have hmulW : W ≤ W * (mid.length + 1) := Nat.le_mul_of_pos_right _ (by omega)
  have hmul1 : W * (mid.length + 1) = W * mid.length + W := by ring
  have hmul2 : W * (mid.length + 2) = W * mid.length + W + W := by ring
  have hk : (e :: (mid ++ [lst])).length = mid.length + 2 := by simp
  have hslice : sliceLen W h t (mid.length + 2) = W * (mid.length + 1) + t - h := by
    unfold sliceLen
    simp
  have hcond : check MW (sliceLen W h t ((e :: (mid ++ [lst])).length)) = true := by
    rw [hk, hslice]
    unfold check
    simp
    omega
  unfold Lsb0.storeBe
  rw [if_pos hcond, domain_cons_concat]
  by_cases h0 : h = 0 <;> by_cases htw : t = W
  · -- h = 0, t = W
    rw [if_pos htw]
    simp only [if_pos h0]
    simp only [Option.bind_eq_bind, Option.some_bind]
    have hWM : ((e :: mid) ++ [lst]).reverse.length = 0 ∨ W < MW := by
      right
      omega
    rw [foldlM_storeStep W MW ((e :: mid) ++ [lst]).reverse [] v hWM]
    simp only [Option.some_bind, List.nil_append, List.length_reverse]
    simp only [regionBody, if_pos h0, if_pos htw]
    simp
  · -- h = 0, t < W
    rw [if_neg htw]
    simp only [if_pos h0]
    have htM : t < MW := by omega
    rw [set_low W MW lst v t htW (by omega) hW]
    simp only [Option.bind_eq_bind, Option.some_bind]
    rw [and_mask_of_lt t MW hm2 htM]
    have hshr : shrM MW v t = some (v / 2 ^ t) := by
      unfold shrM
      rw [if_pos htM, Nat.shiftRight_eq_div_pow]
    rw [hshr]
    simp only [Option.map_some', Option.some_bind]
    have hWM : (e :: mid).reverse.length = 0 ∨ W < MW := by
      right
      omega
    rw [foldlM_storeStep W MW (e :: mid).reverse [] (v / 2 ^ t) hWM]
    simp only [Option.some_bind, List.nil_append, List.length_reverse]
    simp only [regionBody, if_pos h0, if_neg htw, List.append_nil]
  · -- h > 0, t = W
    rw [if_pos htw]
    simp only [if_neg h0]
    simp only [Option.bind_eq_bind, Option.some_bind]
    have hWM : (mid ++ [lst]).reverse.length = 0 ∨ W < MW := by
      right
      omega
    rw [foldlM_storeStep W MW (mid ++ [lst]).reverse [] v hWM]
    simp only [Option.some_bind, List.nil_append, List.length_reverse]
    have hwM : W - h < MW := by omega
    rw [set_high W MW e (v / 2 ^ (W * (mid ++ [lst]).length)) h (by omega) hh (by omega)]
    simp only [Option.map_some']
    simp only [regionBody, if_neg h0, if_pos htw, List.append_nil]
  · -- h > 0, t < W
    rw [if_neg htw]
    simp only [if_neg h0]
    have htM : t < MW := by omega
    rw [set_low W MW lst v t htW (by omega) hW]
    simp only [Option.bind_eq_bind, Option.some_bind]
    rw [and_mask_of_lt t MW hm2 htM]
    have hshr : shrM MW v t = some (v / 2 ^ t) := by
      unfold shrM
      rw [if_pos htM, Nat.shiftRight_eq_div_pow]
    rw [hshr]
    simp only [Option.map_some', Option.some_bind]
    have hWM : mid.reverse.length = 0 ∨ W < MW := by
      rw [List.length_reverse]
      rcases Nat.eq_zero_or_pos mid.length with hm | hm
      · exact Or.inl hm
      · right
        have h8 : W * 2 ≤ W * (mid.length + 1) := Nat.mul_le_mul_left _ (by omega)
        omega
    rw [foldlM_storeStep W MW mid.reverse [] (v / 2 ^ t) hWM]
    simp only [Option.some_bind, List.nil_append, List.length_reverse]
    rw [set_high W MW e (v / 2 ^ t / 2 ^ (W * mid.length)) h (by omega) hh (by omega)]
    simp only [Option.map_some']
    simp only [regionBody, if_neg h0, if_neg htw, List.append_nil]

theorem storeLe_regionD (W MW h t e lst : ℕ) (mid : List ℕ) (v : ℕ)
    (hh : h < W) (ht1 : 1 ≤ t) (htW : t ≤ W)
    (hlen : W * (mid.length + 1) + t - h ≤ MW) :
    Msb0.storeLe W MW h t (e :: (mid ++ [lst])) v =
      some ((if h = 0 then [] else [updMid W 0 (W - h) e v]) ++
        bodyVals W MW (if h = 0 then v else v / 2 ^ (W - h))
          (regionBody W h t e mid lst).length ++
        (if t = W then [] else [updMid W (W - t) W lst
          ((if h = 0 then v else v / 2 ^ (W - h)) /
            2 ^ (W * (regionBody W h t e mid lst).length))])) := by
  have hW : 0 < W := by omega
  have hmulW : W ≤ W * (mid.length + 1) := Nat.le_mul_of_pos_right _ (by omega)
  have hmul1 : W * (mid.length + 1) = W * mid.length + W := by ring
  have hmul2 : W * (mid.length + 2) = W * mid.length + W + W := by ring
  have hk : (e :: (mid ++ [lst])).length = mid.length + 2 := by simp
  have hslice : sliceLen W h t (mid.length + 2) = W * (mid.length + 1) + t - h := by
    unfold sliceLen
    simp
  have hcond : check MW (sliceLen W h t ((e :: (mid ++ [lst])).length)) = true := by
    rw [hk, hslice]
    unfold check
    simp
    omega
  unfold Msb0.storeLe
  rw [if_pos hcond, domain_cons_concat]
  by_cases h0 : h = 0 <;> by_cases htw : t = W
  · -- h = 0, t = W
    rw [if_pos htw]
    simp only [if_pos h0]
    simp only [Option.bind_eq_bind, Option.some_bind]
    have hWM : ((e :: mid) ++ [lst]).length = 0 ∨ W < MW := by
      right
      omega
    rw [foldlM_storeStep W MW ((e :: mid) ++ [lst]) [] v hWM]
    simp only [Option.some_bind, List.nil_append]
    simp only [Option.map_some']
    simp only [regionBody, if_pos h0, if_pos htw]
  · -- h = 0, t < W
    rw [if_neg htw]
    simp only [if_pos h0]
    simp only [Option.bind_eq_bind, Option.some_bind]
    have hWM : (e :: mid).length = 0 ∨ W < MW := by
      right
      omega
    rw [foldlM_storeStep W MW (e :: mid) [] v hWM]
    simp only [Option.some_bind, List.nil_append]
    have hlen3 : (e :: mid).length = mid.length + 1 := by simp
    rw [set_highD W MW lst (v / 2 ^ (W * (e :: mid).length)) t ht1 htW (by omega)]
    simp only [Option.map_some']
    simp only [regionBody, if_pos h0, if_neg htw, List.append_nil, hlen3]
  · -- h > 0, t = W
    rw [if_pos htw]
    simp only [if_neg h0]
    have hwM : W - h < MW := by omega
    rw [set_lowD W MW e v h hh (by omega)]
    simp only [Option.bind_eq_bind, Option.some_bind]
    have hshr : shrM MW v (W - h) = some (v / 2 ^ (W - h)) := by
      unfold shrM
      rw [if_pos hwM, Nat.shiftRight_eq_div_pow]
    rw [hshr]
    simp only [Option.map_some', Option.some_bind]
    have hWM : (mid ++ [lst]).length = 0 ∨ W < MW := by
      right
      omega
    rw [foldlM_storeStep W MW (mid ++ [lst]) [] (v / 2 ^ (W - h)) hWM]
    simp only [Option.some_bind, List.nil_append]
    simp only [regionBody, if_neg h0, if_pos htw, List.append_nil]
  · -- h > 0, t < W
    rw [if_neg htw]
    simp only [if_neg h0]
    have hwM : W - h < MW := by omega
    rw [set_lowD W MW e v h hh (by omega)]
    simp only [Option.bind_eq_bind, Option.some_bind]
    have hshr : shrM MW v (W - h) = some (v / 2 ^ (W - h)) := by
      unfold shrM
      rw [if_pos hwM, Nat.shiftRight_eq_div_pow]
    rw [hshr]
    simp only [Option.map_some', Option.some_bind]
    have hWM : mid.length = 0 ∨ W < MW := by
      rcases Nat.eq_zero_or_pos mid.length with hm | hm
      · exact Or.inl hm
      · right
        have h8 : W * 2 ≤ W * (mid.length + 1) := Nat.mul_le_mul_left _ (by omega)
        omega
    rw [foldlM_storeStep W MW mid [] (v / 2 ^ (W - h)) hWM]
    simp only [Option.some_bind, List.nil_append]
    rw [set_highD W MW lst (v / 2 ^ (W - h) / 2 ^ (W * mid.length)) t ht1 htW (by omega)]
    simp only [Option.map_some']
    simp only [regionBody, if_neg h0, if_neg htw, List.append_nil]

theorem storeBe_regionD (W MW h t e lst : ℕ) (mid : List ℕ) (v : ℕ)
    (hh : h < W) (ht1 : 1 ≤ t) (htW : t ≤ W)
    (hlen : W * (mid.length + 1) + t - h ≤ MW) :
    Msb0.storeBe W MW h t (e :: (mid ++ [lst])) v =
      some ((if h = 0 then [] else [updMid W 0 (W - h) e
          ((if t = W then v else v / 2 ^ t) /
            2 ^ (W * (regionBody W h t e mid lst).length))]) ++
        (bodyVals W MW (if t = W then v else v / 2 ^ t)
          (regionBody W h t e mid lst).length).reverse ++
        (if t = W then [] else [updMid W (W - t) W lst v])) := by
  have hW : 0 < W := by omega
  have hmulW : W ≤ W * (mid.length + 1) := Nat.le_mul_of_pos_right _ (by omega)
  have hmul1 : W * (mid.length + 1) = W * mid.length + W := by ring
  have hmul2 : W * (mid.length + 2) = W * mid.length + W + W := by ring
  have hk : (e :: (mid ++ [lst])).length = mid.length + 2 := by simp
  have hslice : sliceLen W h t (mid.length + 2) = W * (mid.length + 1) + t - h := by
    unfold sliceLen
    simp
  have hcond : check MW (sliceLen W h t ((e :: (mid ++ [lst])).length)) = true := by
    rw [hk, hslice]
    unfold check
    simp
    omega
  unfold Msb0.storeBe
  rw [if_pos hcond, domain_cons_concat]
  by_cases h0 : h = 0 <;> by_cases htw : t = W
  · -- h = 0, t = W
    rw [if_pos htw]
    simp only [if_pos h0]
    simp only [Option.bind_eq_bind, Option.some_bind]
    have hWM : ((e :: mid) ++ [lst]).reverse.length = 0 ∨ W < MW := by
      right
      omega
    rw [foldlM_storeStep W MW ((e :: mid) ++ [lst]).reverse [] v hWM]
    simp only [Option.some_bind, List.nil_append, List.length_reverse]
    simp only [regionBody, if_pos h0, if_pos htw]
    simp
  · -- h = 0, t < W
    rw [if_neg htw]
    simp only [if_pos h0]
    have htM : t < MW := by omega
    rw [set_highD W MW lst v t ht1 htW (by omega)]
    simp only [Option.bind_eq_bind, Option.some_bind]
    have hshr : shrM MW v t = some (v / 2 ^ t) := by
      unfold shrM
      rw [if_pos htM, Nat.shiftRight_eq_div_pow]
    rw [hshr]
    simp only [Option.map_some', Option.some_bind]
    have hWM : (e :: mid).reverse.length = 0 ∨ W < MW := by
      right
      omega
    rw [foldlM_storeStep W MW (e :: mid).reverse [] (v / 2 ^ t) hWM]
    simp only [Option.some_bind, List.nil_append, List.length_reverse]
    simp only [regionBody, if_pos h0, if_neg htw, List.append_nil]
  · -- h > 0, t = W
    rw [if_pos htw]
    simp only [if_neg h0]
    simp only [Option.bind_eq_bind, Option.some_bind]
    have hWM : (mid ++ [lst]).reverse.length = 0 ∨ W < MW := by
      right
      omega
    rw [foldlM_storeStep W MW (mid ++ [lst]).reverse [] v hWM]
    simp only [Option.some_bind, List.nil_append, List.length_reverse]
    have hwM : W - h < MW := by omega
    rw [set_lowD W MW e (v / 2 ^ (W * (mid ++ [lst]).length)) h hh (by omega)]
    simp only [Option.map_some']
    simp only [regionBody, if_neg h0, if_pos htw, List.append_nil]
  · -- h > 0, t < W
    rw [if_neg htw]
    simp only [if_neg h0]
    have htM : t < MW := by omega
    rw [set_highD W MW lst v t ht1 htW (by omega)]
    simp only [Option.bind_eq_bind, Option.some_bind]
    have hshr : shrM MW v t = some (v / 2 ^ t) := by
      unfold shrM
      rw [if_pos htM, Nat.shiftRight_eq_div_pow]
    rw [hshr]
    simp only [Option.map_some', Option.some_bind]
    have hWM : mid.reverse.length = 0 ∨ W < MW := by
      rw [List.length_reverse]
      rcases Nat.eq_zero_or_pos mid.length with hm | hm
      · exact Or.inl hm
      · right
        have h8 : W * 2 ≤ W * (mid.length + 1) := Nat.mul_le_mul_left _ (by omega)
        omega
    rw [foldlM_storeStep W MW mid.reverse [] (v / 2 ^ t) hWM]
    simp only [Option.some_bind, List.nil_append, List.length_reverse]
    rw [set_lowD W MW e (v / 2 ^ t / 2 ^ (W * mid.length)) h hh (by omega)]
    simp only [Option.map_some']
    simp only [regionBody, if_neg h0, if_neg htw, List.append_nil]

/-! ## Support lemmas for the claims -/

/-- Every list is empty, a singleton, or a first element, interior, and last
element. -/
theorem mem_shape (mem : List ℕ) :
    mem = [] ∨ (∃ e, mem = [e]) ∨ ∃ e mid lst, mem = e :: (mid ++ [lst]) := by
  cases mem with
  | nil => exact Or.inl rfl
  | cons a rest =>
    rcases List.eq_nil_or_concat' rest with hr | ⟨L, b, hr⟩
    · exact Or.inr (Or.inl ⟨a, by rw [hr]⟩)
    · exact Or.inr (Or.inr ⟨a, L, b, by rw [hr]⟩)

/-- Little-endian composition of two bounded windows stays bounded. -/
theorem lt_two_pow_compose (a b x y : ℕ) (hx : x < 2 ^ a) (hy : y < 2 ^ b) :
    x + 2 ^ a * y < 2 ^ (a + b) := by
  have h1 := Nat.mul_le_mul_left (2 ^ a) (show y + 1 ≤ 2 ^ b by omega)
  rw [Nat.mul_add, Nat.mul_one] at h1
  rw [pow_add]
  omega

/-- Number of interior elements of a multi-element range. -/
theorem regionBody_length (W h t e : ℕ) (mid : List ℕ) (lst : ℕ) :
    (regionBody W h t e mid lst).length =
      mid.length + (if h = 0 then 1 else 0) + (if t = W then 1 else 0) := by
  unfold regionBody
  by_cases h0 : h = 0 <;> by_cases htw : t = W <;> simp [h0, htw]

/-- The range length of a multi-element slice is the sum of the chunk widths. -/
theorem len_decomp (W h t e lst : ℕ) (mid : List ℕ) (hh : h < W) (ht1 : 1 ≤ t)
    (htW : t ≤ W) :
    sliceLen W h t (mid.length + 2) =
      headW W h + W * (regionBody W h t e mid lst).length + tailW W t := by
  have hslice : sliceLen W h t (mid.length + 2) = W * (mid.length + 1) + t - h := by
    unfold sliceLen
    simp
  rw [hslice, regionBody_length]
  unfold headW tailW
  have e1 : W * (mid.length + 1) = W * mid.length + W := by ring
  have e2 : W * (mid.length + 1 + 1) = W * mid.length + W + W := by ring
  by_cases h0 : h = 0 <;> by_cases htw : t = W <;> simp [h0, htw] <;> omega

/-- Dividing a truncated value shifts the truncation window. -/
theorem mod_pow_div (x a b : ℕ) : x % 2 ^ (a + b) / 2 ^ a = x / 2 ^ a % 2 ^ b := by
  rw [pow_add, Nat.mod_mul, Nat.add_mul_div_left _ _ (two_pow_pos a)]
  have : x % 2 ^ a / 2 ^ a = 0 := Nat.div_eq_of_lt (Nat.mod_lt _ (two_pow_pos a))
  omega

/-- Reading back the window written by `updMid`. -/
theorem updMid_window (W a b e c : ℕ) (hab : a ≤ b) :
    updMid W a b e c / 2 ^ a % 2 ^ (b - a) = c % 2 ^ (b - a) := by
  unfold updMid
  have hb : (2:ℕ) ^ b = 2 ^ a * 2 ^ (b - a) := by
    rw [← pow_add]
    congr 1
    omega
  have hshape : e % 2 ^ a + c % 2 ^ (b - a) * 2 ^ a + e / 2 ^ b % 2 ^ (W - b) * 2 ^ b =
      e % 2 ^ a + 2 ^ a * (c % 2 ^ (b - a) + 2 ^ (b - a) * (e / 2 ^ b % 2 ^ (W - b))) := by
    rw [hb]
    ring
  rw [hshape, Nat.add_mul_div_left _ _ (two_pow_pos a),
    Nat.div_eq_of_lt (Nat.mod_lt _ (two_pow_pos a))]
  simp [Nat.add_mul_mod_self_left]

/-- The written element stays within the element width. -/
theorem updMid_lt (W a b e c : ℕ) (hab : a ≤ b) (hbW : b ≤ W) :
    updMid W a b e c < 2 ^ W := by
  unfold updMid
  have h1 : e % 2 ^ a < 2 ^ a := Nat.mod_lt _ (two_pow_pos a)
  have h2 : c % 2 ^ (b - a) * 2 ^ a + 2 ^ a ≤ 2 ^ b := by
    have h3 := Nat.mul_le_mul_right (2 ^ a)
      (show c % 2 ^ (b - a) + 1 ≤ 2 ^ (b - a) from Nat.mod_lt _ (two_pow_pos _))
    rw [Nat.add_mul, Nat.one_mul, ← pow_add] at h3
    have h4 : b - a + a = b := by omega
    rw [h4] at h3
    exact h3
  have h5 : e / 2 ^ b % 2 ^ (W - b) * 2 ^ b + 2 ^ b ≤ 2 ^ W := by
    have h6 := Nat.mul_le_mul_right (2 ^ b)
      (show e / 2 ^ b % 2 ^ (W - b) + 1 ≤ 2 ^ (W - b) from Nat.mod_lt _ (two_pow_pos _))
    rw [Nat.add_mul, Nat.one_mul, ← pow_add] at h6
    have h7 : W - b + b = W := by omega
    rw [h7] at h6
    exact h6
  omega

/-- Bits outside the window `[a, b)` are preserved by `updMid` (for physical
bit positions below `W`; positions at or above `W` are preserved as zero when
the element is in range). -/
theorem testBit_updMid_frame (W a b e c p : ℕ) (hab : a ≤ b) (hbW : b ≤ W)
    (he : e < 2 ^ W) (hp : p < a ∨ b ≤ p) :
    (updMid W a b e c).testBit p = e.testBit p := by
  have hlow : e % 2 ^ a + c % 2 ^ (b - a) * 2 ^ a < 2 ^ b := by
    have h1 : e % 2 ^ a < 2 ^ a := Nat.mod_lt _ (two_pow_pos a)
    have h2 := Nat.mul_le_mul_right (2 ^ a)
      (show c % 2 ^ (b - a) + 1 ≤ 2 ^ (b - a) from Nat.mod_lt _ (two_pow_pos _))
    rw [Nat.add_mul, Nat.one_mul, ← pow_add] at h2
    have h3 : b - a + a = b := by omega
    rw [h3] at h2
    omega
  have hshape : updMid W a b e c =
      2 ^ b * (e / 2 ^ b % 2 ^ (W - b)) + (e % 2 ^ a + c % 2 ^ (b - a) * 2 ^ a) := by
    unfold updMid
    ring
  rw [hshape, Nat.testBit_mul_pow_two_add _ hlow]
  rcases hp with hpa | hpb
  · rw [if_pos (by omega : p < b)]
    have hmul : e % 2 ^ a + c % 2 ^ (b - a) * 2 ^ a =
        2 ^ a * (c % 2 ^ (b - a)) + e % 2 ^ a := by ring
    rw [hmul, Nat.testBit_mul_pow_two_add _ (Nat.mod_lt _ (two_pow_pos a)),
      if_pos hpa, Nat.testBit_mod_two_pow]
    simp [hpa]
  · rw [if_neg (by omega : ¬ p < b)]
    by_cases hpW : p < W
    · rw [Nat.testBit_mod_two_pow]
      have hd : (e / 2 ^ b).testBit (p - b) = e.testBit p := by
        rw [← Nat.shiftRight_eq_div_pow, Nat.testBit_shiftRight]
        congr 1
        omega
      simp only [hd]
      have : p - b < W - b := by omega
      simp [this]
    · have h1 : (e / 2 ^ b % 2 ^ (W - b)).testBit (p - b) = false := by
        apply Nat.testBit_lt_two_pow
        calc e / 2 ^ b % 2 ^ (W - b) < 2 ^ (W - b) := Nat.mod_lt _ (two_pow_pos _)
          _ ≤ 2 ^ (p - b) := two_pow_le_two_pow (by omega)
      have h2 : e.testBit p = false := by
        apply Nat.testBit_lt_two_pow
        calc e < 2 ^ W := he
          _ ≤ 2 ^ p := two_pow_le_two_pow (by omega)
      rw [h1, h2]

/-- Unfolding the store body values from the front. -/
theorem bodyVals_succ (W MW v n : ℕ) :
    bodyVals W MW v (n + 1) = resize MW W v :: bodyVals W MW (v / 2 ^ W) n := rfl

/-- Unfolding the store body values from the back. -/
theorem bodyVals_concat (W MW v n : ℕ) :
    bodyVals W MW v (n + 1) =
      bodyVals W MW v n ++ [resize MW W (v / 2 ^ (W * n))] := by
  induction n generalizing v with
  | zero => simp [bodyVals]
  | succ n ih =>
    rw [bodyVals_succ, ih, bodyVals_succ]
    rw [List.cons_append]
    have : v / 2 ^ W / 2 ^ (W * n) = v / 2 ^ (W * (n + 1)) := by
      rw [Nat.div_div_eq_div_mul, ← pow_add]
      congr 2
      ring
    rw [this]

/-- The store body values depend only on the low written bits of the value. -/
theorem bodyVals_mod (W MW : ℕ) (hWM : W ≤ MW) (v w n : ℕ)
    (hvw : v % 2 ^ (W * n) = w % 2 ^ (W * n)) :
    bodyVals W MW v n = bodyVals W MW w n := by
  induction n generalizing v w with
  | zero => rfl
  | succ n ih =>
    have hmin : min MW W = W := by omega
    have hsplit : W * (n + 1) = W + W * n := by ring
    rw [hsplit] at hvw
    have hv1 : v % 2 ^ W = w % 2 ^ W := by
      have h1 : v % 2 ^ (W + W * n) % 2 ^ W = w % 2 ^ (W + W * n) % 2 ^ W := by
        rw [hvw]
      rwa [Nat.mod_mod_of_dvd _ (pow_dvd_pow 2 (by omega)),
        Nat.mod_mod_of_dvd _ (pow_dvd_pow 2 (by omega))] at h1
    have hv2 : v / 2 ^ W % 2 ^ (W * n) = w / 2 ^ W % 2 ^ (W * n) := by
      have h1 : v % 2 ^ (W + W * n) / 2 ^ W = w % 2 ^ (W + W * n) / 2 ^ W := by
        rw [hvw]
      rwa [mod_pow_div, mod_pow_div] at h1
    rw [bodyVals_succ, bodyVals_succ, ih _ _ hv2]
    unfold resize
    rw [hmin, hv1]

/-! ## Failure exactly on a range-width violation -/

/-- A bad width makes the ascending little-endian load panic. -/
theorem loadLe_none (W MW h t : ℕ) (mem : List ℕ)
    (hbad : ¬(1 ≤ sliceLen W h t mem.length ∧ sliceLen W h t mem.length ≤ MW)) :
    Lsb0.loadLe W MW h t mem = none := by
  unfold Lsb0.loadLe
  have hfalse : check MW (sliceLen W h t mem.length) = false := by
    unfold check
    simpa using hbad
  rw [hfalse]
  rfl

/-- A bad width makes the ascending big-endian load panic. -/
theorem loadBe_none (W MW h t : ℕ) (mem : List ℕ)
    (hbad : ¬(1 ≤ sliceLen W h t mem.length ∧ sliceLen W h t mem.length ≤ MW)) :
    Lsb0.loadBe W MW h t mem = none := by
  unfold Lsb0.loadBe
  have hfalse : check MW (sliceLen W h t mem.length) = false := by
    unfold check
    simpa using hbad
  rw [hfalse]
  rfl

/-- A bad width makes the ascending little-endian store panic. -/
theorem storeLe_none (W MW h t : ℕ) (mem : List ℕ) (v : ℕ)
    (hbad : ¬(1 ≤ sliceLen W h t mem.length ∧ sliceLen W h t mem.length ≤ MW)) :
    Lsb0.storeLe W MW h t mem v = none := by
  unfold Lsb0.storeLe
  have hfalse : check MW (sliceLen W h t mem.length) = false := by
    unfold check
    simpa using hbad
  rw [hfalse]
  rfl

/-- A bad width makes the ascending big-endian store panic. -/
theorem storeBe_none (W MW h t : ℕ) (mem : List ℕ) (v : ℕ)
    (hbad : ¬(1 ≤ sliceLen W h t mem.length ∧ sliceLen W h t mem.length ≤ MW)) :
    Lsb0.storeBe W MW h t mem v = none := by
  unfold Lsb0.storeBe
  have hfalse : check MW (sliceLen W h t mem.length) = false := by
    unfold check
    simpa using hbad
  rw [hfalse]
  rfl

/-- A bad width makes the descending little-endian load panic. -/
theorem loadLe_noneD (W MW h t : ℕ) (mem : List ℕ)
    (hbad : ¬(1 ≤ sliceLen W h t mem.length ∧ sliceLen W h t mem.length ≤ MW)) :
    Msb0.loadLe W MW h t mem = none := by
  unfold Msb0.loadLe
  have hfalse : check MW (sliceLen W h t mem.length) = false := by
    unfold check
    simpa using hbad
  rw [hfalse]
  rfl

/-- A bad width makes the descending big-endian load panic. -/
theorem loadBe_noneD (W MW h t : ℕ) (mem : List ℕ)
    (hbad : ¬(1 ≤ sliceLen W h t mem.length ∧ sliceLen W h t mem.length ≤ MW)) :
    Msb0.loadBe W MW h t mem = none := by
  unfold Msb0.loadBe
  have hfalse : check MW (sliceLen W h t mem.length) = false := by
    unfold check
    simpa using hbad
  rw [hfalse]
  rfl

/-- A bad width makes the descending little-endian store panic. -/
theorem storeLe_noneD (W MW h t : ℕ) (mem : List ℕ) (v : ℕ)
    (hbad : ¬(1 ≤ sliceLen W h t mem.length ∧ sliceLen W h t mem.length ≤ MW)) :
    Msb0.storeLe W MW h t mem v = none := by
  unfold Msb0.storeLe
  have hfalse : check MW (sliceLen W h t mem.length) = false := by
    unfold check
    simpa using hbad
  rw [hfalse]
  rfl

/-- A bad width makes the descending big-endian store panic. -/
theorem storeBe_noneD (W MW h t : ℕ) (mem : List ℕ) (v : ℕ)
    (hbad : ¬(1 ≤ sliceLen W h t mem.length ∧ sliceLen W h t mem.length ≤ MW)) :
    Msb0.storeBe W MW h t mem v = none := by
  unfold Msb0.storeBe
  have hfalse : check MW (sliceLen W h t mem.length) = false := by
    unfold check
    simpa using hbad
  rw [hfalse]
  rfl

/-- The clamped big-endian load over an ascending multi-element range succeeds
for any register width: the clamp keeps every shift below the register width. -/
theorem loadBe_region_isSome (W MW h t e lst : ℕ) (mid : List ℕ)
    (hh : h < W) (ht1 : 1 ≤ t) (htW : t ≤ W)
    (hlen : W * (mid.length + 1) + t - h ≤ MW) :
    (Lsb0.loadBe W MW h t (e :: (mid ++ [lst]))).isSome = true := by
  have hW : 0 < W := by omega
  have hmulW : W ≤ W * (mid.length + 1) := Nat.le_mul_of_pos_right _ (by omega)
  have hmul1 : W * (mid.length + 1) = W * mid.length + W := by ring
  have hk : (e :: (mid ++ [lst])).length = mid.length + 2 := by simp
  have hslice : sliceLen W h t (mid.length + 2) = W * (mid.length + 1) + t - h := by
    unfold sliceLen
    simp
  have hcond : check MW (sliceLen W h t ((e :: (mid ++ [lst])).length)) = true := by
    rw [hk, hslice]
    unfold check
    simp
    omega
  have hclamp : t &&& (MW - 1) < MW := by
    have h9 : t &&& (MW - 1) ≤ MW - 1 := Nat.and_le_right
    omega
  unfold Lsb0.loadBe
  rw [if_pos hcond, domain_cons_concat]
  by_cases h0 : h = 0 <;> by_cases htw : t = W
  · rw [if_pos htw]
    simp only [if_pos h0]
    simp only [Option.bind_eq_bind, Option.some_bind]
    rw [foldlM_loadStep]
    simp [Option.some_bind]
  · rw [if_neg htw]
    simp only [if_pos h0]
    simp only [Option.bind_eq_bind, Option.some_bind]
    rw [foldlM_loadStep]
    simp only [Option.some_bind]
    set a1 := List.foldl
      (fun a e => (if W < MW then a <<< W % 2 ^ MW else a) ||| resize W MW e) 0
      (e :: mid) with ha1
    have hshl : shlM MW a1 (t &&& (MW - 1)) =
        some (a1 <<< (t &&& (MW - 1)) % 2 ^ MW) := by
      unfold shlM
      rw [if_pos hclamp]
    rw [hshl]
    simp only [Option.some_bind]
    rw [get_low W MW lst t htW (by omega) hW]
    simp
  · rw [if_pos htw]
    simp only [if_neg h0]
    rw [get_high W MW e h (by omega) hh (by omega)]
    simp only [Option.bind_eq_bind, Option.some_bind]
    rw [foldlM_loadStep]
    simp [Option.some_bind]
  · rw [if_neg htw]
    simp only [if_neg h0]
    rw [get_high W MW e h (by omega) hh (by omega)]
    simp only [Option.bind_eq_bind, Option.some_bind]
    rw [foldlM_loadStep]
    simp only [Option.some_bind]
    set a1 := List.foldl
      (fun a e => (if W < MW then a <<< W % 2 ^ MW else a) ||| resize W MW e)
      (e / 2 ^ h % 2 ^ (W - h)) mid with ha1
    have hshl : shlM MW a1 (t &&& (MW - 1)) =
        some (a1 <<< (t &&& (MW - 1)) % 2 ^ MW) := by
      unfold shlM
      rw [if_pos hclamp]
    rw [hshl]
    simp only [Option.some_bind]
    rw [get_low W MW lst t htW (by omega) hW]
    simp

/-- The clamped big-endian store over an ascending multi-element range succeeds
for any register width. -/
theorem storeBe_region_isSome (W MW h t e lst : ℕ) (mid : List ℕ) (v : ℕ)
    (hh : h < W) (ht1 : 1 ≤ t) (htW : t ≤ W)
    (hlen : W * (mid.length + 1) + t - h ≤ MW) :
    (Lsb0.storeBe W MW h t (e :: (mid ++ [lst])) v).isSome = true := by
  have hW : 0 < W := by omega
  have hmulW : W ≤ W * (mid.length + 1) := Nat.le_mul_of_pos_right _ (by omega)
  have hmul1 : W * (mid.length + 1) = W * mid.length + W := by ring
  have hk : (e :: (mid ++ [lst])).length = mid.length + 2 := by simp
  have hslice : sliceLen W h t (mid.length + 2) = W * (mid.length + 1) + t - h := by
    unfold sliceLen
    simp
  have hcond : check MW (sliceLen W h t ((e :: (mid ++ [lst])).length)) = true := by
    rw [hk, hslice]
    unfold check
    simp
    omega
  have hclamp : t &&& (MW - 1) < MW := by
    have h9 : t &&& (MW - 1) ≤ MW - 1 := Nat.and_le_right
    omega
  unfold Lsb0.storeBe
  rw [if_pos hcond, domain_cons_concat]
  by_cases h0 : h = 0 <;> by_cases htw : t = W
  · rw [if_pos htw]
    simp only [if_pos h0]
    simp only [Option.bind_eq_bind, Option.some_bind]
    rw [foldlM_storeStep W MW ((e :: mid) ++ [lst]).reverse [] v (by right; omega)]
    simp [Option.some_bind]
  · rw [if_neg htw]
    simp only [if_pos h0]
    rw [set_low W MW lst v t htW (by omega) hW]
    simp only [Option.bind_eq_bind, Option.some_bind]
    have hshr : shrM MW v (t &&& (MW - 1)) = some (v >>> (t &&& (MW - 1))) := by
      unfold shrM
      rw [if_pos hclamp]
    rw [hshr]
    simp only [Option.map_some', Option.some_bind]
    rw [foldlM_storeStep W MW (e :: mid).reverse [] (v >>> (t &&& (MW - 1)))
      (by right; omega)]
    simp [Option.some_bind]
  · rw [if_pos htw]
    simp only [if_neg h0]
    simp only [Option.bind_eq_bind, Option.some_bind]
    rw [foldlM_storeStep W MW (mid ++ [lst]).reverse [] v (by right; omega)]
    simp only [Option.some_bind, List.nil_append, List.length_reverse]
    rw [set_high W MW e (v / 2 ^ (W * (mid ++ [lst]).length)) h (by omega) hh (by omega)]
    simp
  · rw [if_neg htw]
    simp only [if_neg h0]
    rw [set_low W MW lst v t htW (by omega) hW]
    simp only [Option.bind_eq_bind, Option.some_bind]
    have hshr : shrM MW v (t &&& (MW - 1)) = some (v >>> (t &&& (MW - 1))) := by
      unfold shrM
      rw [if_pos hclamp]
    rw [hshr]
    simp only [Option.map_some', Option.some_bind]
    have hWM : mid.reverse.length = 0 ∨ W < MW := by
      rw [List.length_reverse]
      rcases Nat.eq_zero_or_pos mid.length with hm | hm
      · exact Or.inl hm
      · right
        have h8 : W * 2 ≤ W * (mid.length + 1) := Nat.mul_le_mul_left _ (by omega)
        omega
    rw [foldlM_storeStep W MW mid.reverse [] (v >>> (t &&& (MW - 1))) hWM]
    simp only [Option.some_bind, List.nil_append, List.length_reverse]
    rw [set_high W MW e (v >>> (t &&& (MW - 1)) / 2 ^ (W * mid.length)) h (by omega) hh
      (by omega)]
    simp

/-! ## Claims -/

/-- C3: each of the six operations (`load`, `store`, `load_le`, `load_be`,
`store_le`, `store_be`), under both ordering policies, fails with the
range-width violation exactly when the range length is `0` or exceeds the
register width `MW`; once the eager check passes, every subsequent masking,
shifting, and resizing step is total and the operation completes. -/
theorem claim_C3 (W MW h t : ℕ) (mem : List ℕ) (v : ℕ) (le : Bool)
    (hh : h < W) (ht1 : 1 ≤ t) (htW : t ≤ W) :
    ((Lsb0.loadLe W MW h t mem).isSome ↔
      1 ≤ sliceLen W h t mem.length ∧ sliceLen W h t mem.length ≤ MW) ∧
    ((Lsb0.loadBe W MW h t mem).isSome ↔
      1 ≤ sliceLen W h t mem.length ∧ sliceLen W h t mem.length ≤ MW) ∧
    ((Lsb0.load le W MW h t mem).isSome ↔
      1 ≤ sliceLen W h t mem.length ∧ sliceLen W h t mem.length ≤ MW) ∧
    ((Lsb0.storeLe W MW h t mem v).isSome ↔
      1 ≤ sliceLen W h t mem.length ∧ sliceLen W h t mem.length ≤ MW) ∧
    ((Lsb0.storeBe W MW h t mem v).isSome ↔
      1 ≤ sliceLen W h t mem.length ∧ sliceLen W h t mem.length ≤ MW) ∧
    ((Lsb0.store le W MW h t mem v).isSome ↔
      1 ≤ sliceLen W h t mem.length ∧ sliceLen W h t mem.length ≤ MW) ∧
    ((Msb0.loadLe W MW h t mem).isSome ↔
      1 ≤ sliceLen W h t mem.length ∧ sliceLen W h t mem.length ≤ MW) ∧
    ((Msb0.loadBe W MW h t mem).isSome ↔
      1 ≤ sliceLen W h t mem.length ∧ sliceLen W h t mem.length ≤ MW) ∧
    ((Msb0.load le W MW h t mem).isSome ↔
      1 ≤ sliceLen W h t mem.length ∧ sliceLen W h t mem.length ≤ MW) ∧
    ((Msb0.storeLe W MW h t mem v).isSome ↔
      1 ≤ sliceLen W h t mem.length ∧ sliceLen W h t mem.length ≤ MW) ∧
    ((Msb0.storeBe W MW h t mem v).isSome ↔
      1 ≤ sliceLen W h t mem.length ∧ sliceLen W h t mem.length ≤ MW) ∧
    ((Msb0.store le W MW h t mem v).isSome ↔
      1 ≤ sliceLen W h t mem.length ∧ sliceLen W h t mem.length ≤ MW) := by
  by_cases hok : 1 ≤ sliceLen W h t mem.length ∧ sliceLen W h t mem.length ≤ MW
  · have hLL : (Lsb0.loadLe W MW h t mem).isSome = true := by
      rcases mem_shape mem with rfl | ⟨e, rfl⟩ | ⟨e, mid, lst, rfl⟩
      · unfold sliceLen at hok
        simp at hok
      · unfold sliceLen at hok
        simp at hok
        rw [loadLe_enclave W MW h t e (by omega) htW (by omega)]
        rfl
      · have hk : (e :: (mid ++ [lst])).length = mid.length + 2 := by simp
        rw [hk] at hok
        have hslice : sliceLen W h t (mid.length + 2) = W * (mid.length + 1) + t - h := by
          unfold sliceLen
          simp
        rw [hslice] at hok
        rw [loadLe_region W MW h t e lst mid hh ht1 htW (by omega)]
        rfl
    have hLB : (Lsb0.loadBe W MW h t mem).isSome = true := by
      rcases mem_shape mem with rfl | ⟨e, rfl⟩ | ⟨e, mid, lst, rfl⟩
      · unfold sliceLen at hok
        simp at hok
      · unfold sliceLen at hok
        simp at hok
        rw [loadBe_single_eq, loadLe_enclave W MW h t e (by omega) htW (by omega)]
        rfl
      · have hk : (e :: (mid ++ [lst])).length = mid.length + 2 := by simp
        rw [hk] at hok
        have hslice : sliceLen W h t (mid.length + 2) = W * (mid.length + 1) + t - h := by
          unfold sliceLen
          simp
        rw [hslice] at hok
        exact loadBe_region_isSome W MW h t e lst mid hh ht1 htW (by omega)
    have hSL : (Lsb0.storeLe W MW h t mem v).isSome = true := by
      rcases mem_shape mem with rfl | ⟨e, rfl⟩ | ⟨e, mid, lst, rfl⟩
      · unfold sliceLen at hok
        simp at hok
      · unfold sliceLen at hok
        simp at hok
        rw [storeLe_enclave W MW h t e v (by omega) htW (by omega)]
        rfl
      · have hk : (e :: (mid ++ [lst])).length = mid.length + 2 := by simp
        rw [hk] at hok
        have hslice : sliceLen W h t (mid.length + 2) = W * (mid.length + 1) + t - h := by
          unfold sliceLen
          simp
        rw [hslice] at hok
        rw [storeLe_region W MW h t e lst mid v hh ht1 htW (by omega)]
        rfl
    have hSB : (Lsb0.storeBe W MW h t mem v).isSome = true := by
      rcases mem_shape mem with rfl | ⟨e, rfl⟩ | ⟨e, mid, lst, rfl⟩
      · unfold sliceLen at hok
        simp at hok
      · unfold sliceLen at hok
        simp at hok
        rw [storeBe_single_eq, storeLe_enclave W MW h t e v (by omega) htW (by omega)]
        rfl
      · have hk : (e :: (mid ++ [lst])).length = mid.length + 2 := by simp
        rw [hk] at hok
        have hslice : sliceLen W h t (mid.length + 2) = W * (mid.length + 1) + t - h := by
          unfold sliceLen
          simp
        rw [hslice] at hok
        exact storeBe_region_isSome W MW h t e lst mid v hh ht1 htW (by omega)
    have hLLD : (Msb0.loadLe W MW h t mem).isSome = true := by
      rcases mem_shape mem with rfl | ⟨e, rfl⟩ | ⟨e, mid, lst, rfl⟩
      · unfold sliceLen at hok
        simp at hok
      · unfold sliceLen at hok
        simp at hok
        rw [loadLe_enclaveD W MW h t e (by omega) htW (by omega)]
        rfl
      · have hk : (e :: (mid ++ [lst])).length = mid.length + 2 := by simp
        rw [hk] at hok
        have hslice : sliceLen W h t (mid.length + 2) = W * (mid.length + 1) + t - h := by
          unfold sliceLen
          simp
        rw [hslice] at hok
        rw [loadLe_regionD W MW h t e lst mid hh ht1 htW (by omega)]
        rfl
    have hLBD : (Msb0.loadBe W MW h t mem).isSome = true := by
      rcases mem_shape mem with rfl | ⟨e, rfl⟩ | ⟨e, mid, lst, rfl⟩
      · unfold sliceLen at hok
        simp at hok
      · unfold sliceLen at hok
        simp at hok
        rw [loadBe_single_eqD, loadLe_enclaveD W MW h t e (by omega) htW (by omega)]
        rfl
      · have hk : (e :: (mid ++ [lst])).length = mid.length + 2 := by simp
        rw [hk] at hok
        have hslice : sliceLen W h t (mid.length + 2) = W * (mid.length + 1) + t - h := by
          unfold sliceLen
          simp
        rw [hslice] at hok
        rw [loadBe_regionD W MW h t e lst mid hh ht1 htW (by omega)]
        rfl
    have hSLD : (Msb0.storeLe W MW h t mem v).isSome = true := by
      rcases mem_shape mem with rfl | ⟨e, rfl⟩ | ⟨e, mid, lst, rfl⟩
      · unfold sliceLen at hok
        simp at hok
      · unfold sliceLen at hok
        simp at hok
        rw [storeLe_enclaveD W MW h t e v (by omega) htW (by omega)]
        rfl
      · have hk : (e :: (mid ++ [lst])).length = mid.length + 2 := by simp
        rw [hk] at hok
        have hslice : sliceLen W h t (mid.length + 2) = W * (mid.length + 1) + t - h := by
          unfold sliceLen
          simp
        rw [hslice] at hok
        rw [storeLe_regionD W MW h t e lst mid v hh ht1 htW (by omega)]
        rfl
    have hSBD : (Msb0.storeBe W MW h t mem v).isSome = true := by
      rcases mem_shape mem with rfl | ⟨e, rfl⟩ | ⟨e, mid, lst, rfl⟩
      · unfold sliceLen at hok
        simp at hok
      · unfold sliceLen at hok
        simp at hok
        rw [storeBe_single_eqD, storeLe_enclaveD W MW h t e v (by omega) htW (by omega)]
        rfl
      · have hk : (e :: (mid ++ [lst])).length = mid.length + 2 := by simp
        rw [hk] at hok
        have hslice : sliceLen W h t (mid.length + 2) = W * (mid.length + 1) + t - h := by
          unfold sliceLen
          simp
        rw [hslice] at hok
        rw [storeBe_regionD W MW h t e lst mid v hh ht1 htW (by omega)]
        rfl
    refine ⟨iff_of_true hLL hok, iff_of_true hLB hok, ?_, iff_of_true hSL hok,
      iff_of_true hSB hok, ?_, iff_of_true hLLD hok, iff_of_true hLBD hok, ?_,
      iff_of_true hSLD hok, iff_of_true hSBD hok, ?_⟩
    · refine iff_of_true ?_ hok
      cases le <;> simp [Lsb0.load, hLL, hLB]
    · refine iff_of_true ?_ hok
      cases le <;> simp [Lsb0.store, hSL, hSB]
    · refine iff_of_true ?_ hok
      cases le <;> simp [Msb0.load, hLLD, hLBD]
    · refine iff_of_true ?_ hok
      cases le <;> simp [Msb0.store, hSLD, hSBD]
  · have hLL := loadLe_none W MW h t mem hok
    have hLB := loadBe_none W MW h t mem hok
    have hSL := storeLe_none W MW h t mem v hok
    have hSB := storeBe_none W MW h t mem v hok
    have hLLD := loadLe_noneD W MW h t mem hok
    have hLBD := loadBe_noneD W MW h t mem hok
    have hSLD := storeLe_noneD W MW h t mem v hok
    have hSBD := storeBe_noneD W MW h t mem v hok
    refine ⟨iff_of_false (by simp [hLL]) hok, iff_of_false (by simp [hLB]) hok, ?_,
      iff_of_false (by simp [hSL]) hok, iff_of_false (by simp [hSB]) hok, ?_,
      iff_of_false (by simp [hLLD]) hok, iff_of_false (by simp [hLBD]) hok, ?_,
      iff_of_false (by simp [hSLD]) hok, iff_of_false (by simp [hSBD]) hok, ?_⟩
    · refine iff_of_false ?_ hok
      cases le <;> simp [Lsb0.load, hLL, hLB]
    · refine iff_of_false ?_ hok
      cases le <;> simp [Lsb0.store, hSL, hSB]
    · refine iff_of_false ?_ hok
      cases le <;> simp [Msb0.load, hLLD, hLBD]
    · refine iff_of_false ?_ hok
      cases le <;> simp [Msb0.store, hSLD, hSBD]

/-- Witness for C3 at concrete inputs: an 8-bit element, 8-bit register, range
of two bits in one byte is accepted; the same with a 17-bit range over three
bytes is rejected. -/
theorem claim_C3_witness :
    ((4:ℕ) < 8 ∧ (1:ℕ) ≤ 6 ∧ (6:ℕ) ≤ 8) ∧
    ((Lsb0.loadLe 8 8 4 6 [0]).isSome ↔
      1 ≤ sliceLen 8 4 6 [0].length ∧ sliceLen 8 4 6 [0].length ≤ 8) := by
  refine ⟨by norm_num, ?_⟩
  exact (claim_C3 8 8 4 6 [0] 0 true (by norm_num) (by norm_num) (by norm_num)).1

/-- C2: with 8-bit storage elements, a two-byte region initially `[0, 0]`,
ascending (Lsb0) ordering, and the bit range covering bits 4..12, `store_le`
with value `0xAB` leaves byte 0 equal to `0b1011_0000` and byte 1 equal to
`0b0000_1010`, and a subsequent `load_le` over the same range returns `0xAB`. -/
theorem claim_C2 :
    Lsb0.storeLe 8 8 4 4 [0, 0] 0xAB = some [0b10110000, 0b00001010] ∧
    (Lsb0.storeLe 8 8 4 4 [0, 0] 0xAB).bind (Lsb0.loadLe 8 8 4 4) = some 0xAB := by
  constructor
  · decide
  · decide

/-- C4: the resize laws.  On any register value (below `2 ^ WT`), resizing to
the same width is the identity; widening zero-extends (the value, hence its
low `WT` bits, is preserved and all higher bits are zero); narrowing truncates
to the low `WU` bits.  Retained bits are never reordered. -/
theorem claim_C4 (WT WU x : ℕ) (hx : x < 2 ^ WT) :
    resize WT WT x = x ∧
    (WT < WU → resize WT WU x = x) ∧
    (WU < WT → resize WT WU x = x % 2 ^ WU) := by
  refine ⟨?_, ?_, ?_⟩
  · unfold resize
    rw [min_self]
    exact Nat.mod_eq_of_lt hx
  · intro hlt
    unfold resize
    rw [min_eq_left (le_of_lt hlt)]
    exact Nat.mod_eq_of_lt hx
  · intro hlt
    unfold resize
    rw [min_eq_right (le_of_lt hlt)]

/-- Witness for C4 at concrete widths 8 and 16. -/
theorem claim_C4_witness :
    ((0xAB:ℕ) < 2 ^ 8 ∧ (0xABCD:ℕ) < 2 ^ 16) ∧
    resize 8 8 0xAB = 0xAB ∧ resize 8 16 0xAB = 0xAB ∧
    resize 16 8 0xABCD = 0xABCD % 2 ^ 8 :=
  ⟨by decide,
   (claim_C4 8 8 0xAB (by decide)).1,
   (claim_C4 8 16 0xAB (by decide)).2.1 (by decide),
   (claim_C4 16 8 0xABCD (by decide)).2.2 (by decide)⟩

/-- C6: for a range fully contained in one storage element, both endian
variants run through the identical single get/set enclave call, so the loads
agree and the stores produce identical memory, under either ordering policy. -/
theorem claim_C6 (W MW h t e v : ℕ) :
    Lsb0.loadLe W MW h t [e] = Lsb0.loadBe W MW h t [e] ∧
    Lsb0.storeLe W MW h t [e] v = Lsb0.storeBe W MW h t [e] v ∧
    Msb0.loadLe W MW h t [e] = Msb0.loadBe W MW h t [e] ∧
    Msb0.storeLe W MW h t [e] v = Msb0.storeBe W MW h t [e] v :=
  ⟨(loadBe_single_eq W MW h t e).symm, (storeBe_single_eq W MW h t e v).symm,
   (loadBe_single_eqD W MW h t e).symm, (storeBe_single_eqD W MW h t e v).symm⟩

/-- Byte-aligned byte-width stores agree between the two orderings
(little-endian variant). -/
theorem store_aligned_le (W MW : ℕ) (mem : List ℕ) (v : ℕ) :
    Lsb0.storeLe W MW 0 W mem v = Msb0.storeLe W MW 0 W mem v := by
  rcases mem_shape mem with rfl | ⟨e, rfl⟩ | ⟨e, mid, lst, rfl⟩
  · rfl
  · unfold Lsb0.storeLe Msb0.storeLe
    simp only [domain]
    have h1 : lsbMask W (some 0) (some W) = msbMask W (some 0) (some W) := by
      unfold lsbMask msbMask
      simp
    rw [h1, Nat.sub_self]
  · unfold Lsb0.storeLe Msb0.storeLe
    rw [domain_cons_concat]
    simp

/-- Byte-aligned byte-width stores agree between the two orderings
(big-endian variant). -/
theorem store_aligned_be (W MW : ℕ) (mem : List ℕ) (v : ℕ) :
    Lsb0.storeBe W MW 0 W mem v = Msb0.storeBe W MW 0 W mem v := by
  rcases mem_shape mem with rfl | ⟨e, rfl⟩ | ⟨e, mid, lst, rfl⟩
  · rfl
  · unfold Lsb0.storeBe Msb0.storeBe
    simp only [domain]
    have h1 : lsbMask W (some 0) (some W) = msbMask W (some 0) (some W) := by
      unfold lsbMask msbMask
      simp
    rw [h1, Nat.sub_self]
  · unfold Lsb0.storeBe Msb0.storeBe
    rw [domain_cons_concat]
    simp

/-- C9: for a byte-aligned, byte-width range (no partial head or tail
element), the ascending and descending ordering policies produce bit-for-bit
identical stored memory for the same value under the same endian-qualified
store operation. -/
theorem claim_C9 (W MW : ℕ) (mem : List ℕ) (v : ℕ) :
    Lsb0.storeLe W MW 0 W mem v = Msb0.storeLe W MW 0 W mem v ∧
    Lsb0.storeBe W MW 0 W mem v = Msb0.storeBe W MW 0 W mem v :=
  ⟨store_aligned_le W MW mem v, store_aligned_be W MW mem v⟩

/-- The leading ascending chunk fits its width. -/
theorem headChunkA_lt (W h e : ℕ) : headChunkA W h e < 2 ^ headW W h := by
  unfold headChunkA headW
  by_cases h0 : h = 0
  · simp [h0]
  · simp only [if_neg h0]
    exact Nat.mod_lt _ (two_pow_pos _)

/-- The trailing ascending chunk fits its width. -/
theorem tailChunkA_lt (W t lst : ℕ) : tailChunkA W t lst < 2 ^ tailW W t := by
  unfold tailChunkA tailW
  by_cases htw : t = W
  · simp [htw]
  · simp only [if_neg htw]
    exact Nat.mod_lt _ (two_pow_pos _)

/-- The leading descending chunk fits its width. -/
theorem headChunkD_lt (W h e : ℕ) : headChunkD W h e < 2 ^ headW W h := by
  unfold headChunkD headW
  by_cases h0 : h = 0
  · simp [h0]
  · simp only [if_neg h0]
    exact Nat.mod_lt _ (two_pow_pos _)

/-- The trailing descending chunk fits its width. -/
theorem tailChunkD_lt (W t lst : ℕ) : tailChunkD W t lst < 2 ^ tailW W t := by
  unfold tailChunkD tailW
  by_cases htw : t = W
  · simp [htw]
  · simp only [if_neg htw]
    exact Nat.mod_lt _ (two_pow_pos _)

/-- C10: loads zero the unused high bits — on every valid range, both
orderings and both endiannesses, and any memory contents, the loaded value is
strictly below `2 ^ len`. -/
theorem claim_C10 (W MW h t : ℕ) (mem : List ℕ) (x : ℕ)
    (hh : h < W) (ht1 : 1 ≤ t) (htW : t ≤ W) (hm2 : ∃ i, MW = 2 ^ i) :
    (Lsb0.loadLe W MW h t mem = some x → x < 2 ^ sliceLen W h t mem.length) ∧
    (Lsb0.loadBe W MW h t mem = some x → x < 2 ^ sliceLen W h t mem.length) ∧
    (Msb0.loadLe W MW h t mem = some x → x < 2 ^ sliceLen W h t mem.length) ∧
    (Msb0.loadBe W MW h t mem = some x → x < 2 ^ sliceLen W h t mem.length) := by
  by_cases hok : 1 ≤ sliceLen W h t mem.length ∧ sliceLen W h t mem.length ≤ MW
  · rcases mem_shape mem with rfl | ⟨e, rfl⟩ | ⟨e, mid, lst, rfl⟩
    · unfold sliceLen at hok
      simp at hok
    · unfold sliceLen at hok
      simp at hok
      have hsl : sliceLen W h t [e].length = t - h := by
        unfold sliceLen
        simp
      rw [hsl]
      have hmain : ∀ y, e / 2 ^ h % 2 ^ (t - h) = y → y < 2 ^ (t - h) := by
        intro y hy
        rw [← hy]
        exact Nat.mod_lt _ (two_pow_pos _)
      refine ⟨?_, ?_, ?_, ?_⟩
      · intro hx
        rw [loadLe_enclave W MW h t e (by omega) htW (by omega)] at hx
        exact hmain x (by injection hx)
      · intro hx
        rw [loadBe_single_eq, loadLe_enclave W MW h t e (by omega) htW (by omega)] at hx
        exact hmain x (by injection hx)
      · intro hx
        rw [loadLe_enclaveD W MW h t e (by omega) htW (by omega)] at hx
        refine (fun hy => by rw [← hy]; exact Nat.mod_lt _ (two_pow_pos _)) (show
          e / 2 ^ (W - t) % 2 ^ (t - h) = x by injection hx)
      · intro hx
        rw [loadBe_single_eqD, loadLe_enclaveD W MW h t e (by omega) htW (by omega)] at hx
        refine (fun hy => by rw [← hy]; exact Nat.mod_lt _ (two_pow_pos _)) (show
          e / 2 ^ (W - t) % 2 ^ (t - h) = x by injection hx)
    · have hk : (e :: (mid ++ [lst])).length = mid.length + 2 := by simp
      rw [hk] at hok ⊢
      have hslice : sliceLen W h t (mid.length + 2) = W * (mid.length + 1) + t - h := by
        unfold sliceLen
        simp
      have hdec := len_decomp W h t e lst mid hh ht1 htW
      have hlenM : W * (mid.length + 1) + t - h ≤ MW := by
        rw [hslice] at hok
        omega
      have hvalb : valLE W (regionBody W h t e mid lst) <
          2 ^ (W * (regionBody W h t e mid lst).length) := valLE_lt W _
      have hvalbr : valLE W (regionBody W h t e mid lst).reverse <
          2 ^ (W * (regionBody W h t e mid lst).length) := by
        have := valLE_lt W (regionBody W h t e mid lst).reverse
        rwa [List.length_reverse] at this
      refine ⟨?_, ?_, ?_, ?_⟩
      · intro hx
        rw [loadLe_region W MW h t e lst mid hh ht1 htW hlenM] at hx
        have hx2 : headChunkA W h e + 2 ^ headW W h *
            (valLE W (regionBody W h t e mid lst) +
              2 ^ (W * (regionBody W h t e mid lst).length) * tailChunkA W t lst) = x := by
          injection hx
        rw [← hx2, hdec]
        have hin := lt_two_pow_compose _ _ _ _ hvalb (tailChunkA_lt W t lst)
        have hout := lt_two_pow_compose _ _ _ _ (headChunkA_lt W h e) hin
        rw [← add_assoc] at hout
        exact hout
      · intro hx
        rw [loadBe_region W MW h t e lst mid hh ht1 htW hlenM hm2] at hx
        have hx2 : tailChunkA W t lst + 2 ^ tailW W t *
            (valLE W (regionBody W h t e mid lst).reverse +
              2 ^ (W * (regionBody W h t e mid lst).length) * headChunkA W h e) = x := by
          injection hx
        rw [← hx2, hdec]
        have hin := lt_two_pow_compose _ _ _ _ hvalbr (headChunkA_lt W h e)
        have hout := lt_two_pow_compose _ _ _ _ (tailChunkA_lt W t lst) hin
        have hexp : tailW W t + (W * (regionBody W h t e mid lst).length + headW W h) =
            headW W h + W * (regionBody W h t e mid lst).length + tailW W t := by ring
        rw [hexp] at hout
        exact hout
      · intro hx
        rw [loadLe_regionD W MW h t e lst mid hh ht1 htW hlenM] at hx
        have hx2 : headChunkD W h e + 2 ^ headW W h *
            (valLE W (regionBody W h t e mid lst) +
              2 ^ (W * (regionBody W h t e mid lst).length) * tailChunkD W t lst) = x := by
          injection hx
        rw [← hx2, hdec]
        have hin := lt_two_pow_compose _ _ _ _ hvalb (tailChunkD_lt W t lst)
        have hout := lt_two_pow_compose _ _ _ _ (headChunkD_lt W h e) hin
        rw [← add_assoc] at hout
        exact hout
      · intro hx
        rw [loadBe_regionD W MW h t e lst mid hh ht1 htW hlenM] at hx
        have hx2 : tailChunkD W t lst + 2 ^ tailW W t *
            (valLE W (regionBody W h t e mid lst).reverse +
              2 ^ (W * (regionBody W h t e mid lst).length) * headChunkD W h e) = x := by
          injection hx
        rw [← hx2, hdec]
        have hin := lt_two_pow_compose _ _ _ _ hvalbr (headChunkD_lt W h e)
        have hout := lt_two_pow_compose _ _ _ _ (tailChunkD_lt W t lst) hin
        have hexp : tailW W t + (W * (regionBody W h t e mid lst).length + headW W h) =
            headW W h + W * (regionBody W h t e mid lst).length + tailW W t := by ring
        rw [hexp] at hout
        exact hout
  · refine ⟨?_, ?_, ?_, ?_⟩
    · intro hx
      rw [loadLe_none W MW h t mem hok] at hx
      cases hx
    · intro hx
      rw [loadBe_none W MW h t mem hok] at hx
      cases hx
    · intro hx
      rw [loadLe_noneD W MW h t mem hok] at hx
      cases hx
    · intro hx
      rw [loadBe_noneD W MW h t mem hok] at hx
      cases hx

/-- Witness for C10 at a concrete two-byte straddling range. -/
theorem claim_C10_witness :
    ((4:ℕ) < 8 ∧ (1:ℕ) ≤ 4 ∧ (4:ℕ) ≤ 8 ∧ (∃ i, (8:ℕ) = 2 ^ i) ∧
      Lsb0.loadLe 8 8 4 4 [0xFF, 0xFF] = some 0xFF) ∧
    (Lsb0.loadLe 8 8 4 4 [0xFF, 0xFF] = some 0xFF →
      0xFF < 2 ^ sliceLen 8 4 4 [0xFF, 0xFF].length) := by
  refine ⟨⟨by norm_num, by norm_num, by norm_num, ⟨3, by norm_num⟩, by decide⟩, ?_⟩
  exact (claim_C10 8 8 4 4 [0xFF, 0xFF] 0xFF (by norm_num) (by norm_num) (by norm_num)
    ⟨3, by norm_num⟩).1

/-- Reading back the low window written by `updMid`. -/
theorem updMid_window_low (W b e c : ℕ) : updMid W 0 b e c % 2 ^ b = c % 2 ^ b := by
  have h1 := updMid_window W 0 b e c (by omega)
  simpa using h1

/-- Body values assemble back to the low bits of the stored value. -/
theorem valLE_bodyVals2 (W MW v n : ℕ) (hc : n = 0 ∨ W ≤ MW) :
    valLE W (bodyVals W MW v n) = v % 2 ^ (W * n) := by
  rcases hc with rfl | hWM
  · simp [bodyVals, valLE, Nat.mod_one]
  · exact valLE_bodyVals W MW hWM v n

/-- Round trip of `store_le` then `load_le` on an ascending multi-element
range. -/
theorem roundLeA (W MW h t e lst : ℕ) (mid : List ℕ) (v : ℕ)
    (hh : h < W) (ht1 : 1 ≤ t) (htW : t ≤ W)
    (hlen : W * (mid.length + 1) + t - h ≤ MW)
    (hv : v < 2 ^ (W * (mid.length + 1) + t - h)) :
    (Lsb0.storeLe W MW h t (e :: (mid ++ [lst])) v).bind (Lsb0.loadLe W MW h t) =
      some v := by
  have hW : 0 < W := by omega
  have hmulW : W ≤ W * (mid.length + 1) := Nat.le_mul_of_pos_right _ (by omega)
  have hmul1 : W * (mid.length + 1) = W * mid.length + W := by ring
  have hmul2 : W * (mid.length + 2) = W * mid.length + W + W := by ring
  rw [storeLe_region W MW h t e lst mid v hh ht1 htW hlen]
  simp only [Option.bind_eq_bind, Option.some_bind]
  by_cases h0 : h = 0 <;> by_cases htw : t = W
  · -- h = 0, t = W : pure body transfer
    simp only [regionBody, if_pos h0, if_pos htw, List.nil_append, List.append_nil,
      List.length_append, List.length_cons, List.length_nil]
    have hWM : W < MW := by omega
    have hshape : bodyVals W MW v (mid.length + 1 + 1) =
        resize MW W v :: (bodyVals W MW (v / 2 ^ W) mid.length ++
          [resize MW W (v / 2 ^ W / 2 ^ (W * mid.length))]) := by
      rw [bodyVals_succ, bodyVals_concat]
    rw [hshape]
    rw [loadLe_region W MW h t (resize MW W v)
      (resize MW W (v / 2 ^ W / 2 ^ (W * mid.length)))
      (bodyVals W MW (v / 2 ^ W) mid.length) hh ht1 htW
      (by rw [bodyVals_length]; omega)]
    congr 1
    simp only [headChunkA, tailChunkA, headW, regionBody, if_pos h0, if_pos htw,
      List.append_nil]
    rw [List.cons_append, ← bodyVals_concat, ← bodyVals_succ]
    rw [valLE_bodyVals2 W MW v (mid.length + 1 + 1) (Or.inr (by omega))]
    have hfin : v % 2 ^ (W * (mid.length + 1 + 1)) = v := by
      apply Nat.mod_eq_of_lt
      calc v < 2 ^ (W * (mid.length + 1) + t - h) := hv
        _ ≤ 2 ^ (W * (mid.length + 1 + 1)) := by
            apply two_pow_le_two_pow
            have h9 : W * (mid.length + 1 + 1) = W * (mid.length + 1) + W := by ring
            omega
    rw [hfin]
    simp
  · -- h = 0, t < W : body plus tail
    simp only [regionBody, if_pos h0, if_neg htw, List.nil_append, List.append_nil,
      List.length_cons]
    have hWM : W < MW := by omega
    rw [bodyVals_succ, List.cons_append]
    rw [loadLe_region W MW h t (resize MW W v)
      (updMid W 0 t lst (v / 2 ^ (W * (mid.length + 1))))
      (bodyVals W MW (v / 2 ^ W) mid.length) hh ht1 htW
      (by rw [bodyVals_length]; omega)]
    congr 1
    simp only [headChunkA, tailChunkA, headW, regionBody, if_pos h0, if_neg htw,
      List.append_nil, List.length_cons, bodyVals_length]
    rw [← bodyVals_succ]
    rw [valLE_bodyVals2 W MW v (mid.length + 1) (Or.inr (by omega))]
    rw [updMid_window_low]
    rw [mod_compose]
    have hfin : v % 2 ^ (W * (mid.length + 1) + t) = v := by
      apply Nat.mod_eq_of_lt
      have h9 : W * (mid.length + 1) + t - h = W * (mid.length + 1) + t := by omega
      rw [h9] at hv
      exact hv
    rw [hfin]
    simp
  · -- h > 0, t = W : head plus body
    simp only [regionBody, if_neg h0, if_pos htw, List.append_nil, List.length_append,
      List.length_cons, List.length_nil]
    have hWM : W < MW := by omega
    rw [bodyVals_concat, List.singleton_append]
    rw [loadLe_region W MW h t (updMid W h W e v)
      (resize MW W (v / 2 ^ (W - h) / 2 ^ (W * mid.length)))
      (bodyVals W MW (v / 2 ^ (W - h)) mid.length) hh ht1 htW
      (by rw [bodyVals_length]; omega)]
    congr 1
    simp only [headChunkA, tailChunkA, headW, regionBody, if_neg h0, if_pos htw,
      List.length_append, List.length_cons, List.length_nil, bodyVals_length]
    rw [← bodyVals_concat]
    rw [valLE_bodyVals2 W MW (v / 2 ^ (W - h)) (mid.length + 1) (Or.inr (by omega))]
    rw [updMid_window W h W e v (le_of_lt hh)]
    simp only [mul_zero, add_zero]
    rw [mod_compose]
    apply Nat.mod_eq_of_lt
    have h9 : W - h + W * (mid.length + 1) = W * (mid.length + 1) + W - h := by omega
    rw [h9]
    have h10 : W * (mid.length + 1) + t - h = W * (mid.length + 1) + W - h := by omega
    rw [h10] at hv
    exact hv
  · -- h > 0, t < W : all three segments
    simp only [regionBody, if_neg h0, if_neg htw, List.append_nil, List.length_append,
      List.length_cons, List.length_nil]
    have hWM : mid.length = 0 ∨ W ≤ MW := by
      rcases Nat.eq_zero_or_pos mid.length with hm | hm
      · exact Or.inl hm
      · right
        have h8 : W * 2 ≤ W * (mid.length + 1) := Nat.mul_le_mul_left _ (by omega)
        omega
    rw [List.append_assoc, List.singleton_append]
    rw [loadLe_region W MW h t (updMid W h W e v)
      (updMid W 0 t lst (v / 2 ^ (W - h) / 2 ^ (W * mid.length)))
      (bodyVals W MW (v / 2 ^ (W - h)) mid.length) hh ht1 htW
      (by rw [bodyVals_length]; omega)]
    congr 1
    simp only [headChunkA, tailChunkA, headW, regionBody, if_neg h0, if_neg htw,
      List.append_nil, bodyVals_length]
    rw [valLE_bodyVals2 W MW (v / 2 ^ (W - h)) mid.length hWM]
    rw [updMid_window W h W e v (le_of_lt hh)]
    rw [updMid_window_low]
    rw [mod_compose, mod_compose]
    apply Nat.mod_eq_of_lt
    have h9 : W - h + (W * mid.length + t) = W * (mid.length + 1) + t - h := by omega
    rw [h9]
    exact hv

/-- Reading back the high window written by `updMid`. -/
theorem updMid_window_high (W b e c : ℕ) (hbW : b ≤ W) :
    updMid W (W - b) W e c / 2 ^ (W - b) % 2 ^ b = c % 2 ^ b := by
  have h1 := updMid_window W (W - b) W e c (by omega)
  have h2 : W - (W - b) = b := by omega
  rwa [h2] at h1

/-- Round trip of `store_le` then `load_le` on a descending multi-element
range. -/
theorem roundLeD (W MW h t e lst : ℕ) (mid : List ℕ) (v : ℕ)
    (hh : h < W) (ht1 : 1 ≤ t) (htW : t ≤ W)
    (hlen : W * (mid.length + 1) + t - h ≤ MW)
    (hv : v < 2 ^ (W * (mid.length + 1) + t - h)) :
    (Msb0.storeLe W MW h t (e :: (mid ++ [lst])) v).bind (Msb0.loadLe W MW h t) =
      some v := by
  have hW : 0 < W := by omega
  have hmulW : W ≤ W * (mid.length + 1) := Nat.le_mul_of_pos_right _ (by omega)
  have hmul1 : W * (mid.length + 1) = W * mid.length + W := by ring
  have hmul2 : W * (mid.length + 2) = W * mid.length + W + W := by ring
  rw [storeLe_regionD W MW h t e lst mid v hh ht1 htW hlen]
  simp only [Option.bind_eq_bind, Option.some_bind]
  by_cases h0 : h = 0 <;> by_cases htw : t = W
  · -- h = 0, t = W : pure body transfer
    simp only [regionBody, if_pos h0, if_pos htw, List.nil_append, List.append_nil,
      List.length_append, List.length_cons, List.length_nil]
    have hWM : W < MW := by omega
    have hshape : bodyVals W MW v (mid.length + 1 + 1) =
        resize MW W v :: (bodyVals W MW (v / 2 ^ W) mid.length ++
          [resize MW W (v / 2 ^ W / 2 ^ (W * mid.length))]) := by
      rw [bodyVals_succ, bodyVals_concat]
    rw [hshape]
    rw [loadLe_regionD W MW h t (resize MW W v)
      (resize MW W (v / 2 ^ W / 2 ^ (W * mid.length)))
      (bodyVals W MW (v / 2 ^ W) mid.length) hh ht1 htW
      (by rw [bodyVals_length]; omega)]
    congr 1
    simp only [headChunkD, tailChunkD, headW, regionBody, if_pos h0, if_pos htw,
      List.append_nil]
    rw [List.cons_append, ← bodyVals_concat, ← bodyVals_succ]
    rw [valLE_bodyVals2 W MW v (mid.length + 1 + 1) (Or.inr (by omega))]
    have hfin : v % 2 ^ (W * (mid.length + 1 + 1)) = v := by
      apply Nat.mod_eq_of_lt
      calc v < 2 ^ (W * (mid.length + 1) + t - h) := hv
        _ ≤ 2 ^ (W * (mid.length + 1 + 1)) := by
            apply two_pow_le_two_pow
            have h9 : W * (mid.length + 1 + 1) = W * (mid.length + 1) + W := by ring
            omega
    rw [hfin]
    simp
  · -- h = 0, t < W : body plus tail
    simp only [regionBody, if_pos h0, if_neg htw, List.nil_append, List.append_nil,
      List.length_cons]
    have hWM : W < MW := by omega
    rw [bodyVals_succ, List.cons_append]
    rw [loadLe_regionD W MW h t (resize MW W v)
      (updMid W (W - t) W lst (v / 2 ^ (W * (mid.length + 1))))
      (bodyVals W MW (v / 2 ^ W) mid.length) hh ht1 htW
      (by rw [bodyVals_length]; omega)]
    congr 1
    simp only [headChunkD, tailChunkD, headW, regionBody, if_pos h0, if_neg htw,
      List.append_nil, List.length_cons, bodyVals_length]
    rw [← bodyVals_succ]
    rw [valLE_bodyVals2 W MW v (mid.length + 1) (Or.inr (by omega))]
    rw [updMid_window_high W t lst (v / 2 ^ (W * (mid.length + 1))) htW]
    rw [mod_compose]
    have hfin : v % 2 ^ (W * (mid.length + 1) + t) = v := by
      apply Nat.mod_eq_of_lt
      have h9 : W * (mid.length + 1) + t - h = W * (mid.length + 1) + t := by omega
      rw [h9] at hv
      exact hv
    rw [hfin]
    simp
  · -- h > 0, t = W : head plus body
    simp only [regionBody, if_neg h0, if_pos htw, List.append_nil, List.length_append,
      List.length_cons, List.length_nil]
    have hWM : W < MW := by omega
    rw [bodyVals_concat, List.singleton_append]
    rw [loadLe_regionD W MW h t (updMid W 0 (W - h) e v)
      (resize MW W (v / 2 ^ (W - h) / 2 ^ (W * mid.length)))
      (bodyVals W MW (v / 2 ^ (W - h)) mid.length) hh ht1 htW
      (by rw [bodyVals_length]; omega)]
    congr 1
    simp only [headChunkD, tailChunkD, headW, regionBody, if_neg h0, if_pos htw,
      List.length_append, List.length_cons, List.length_nil, bodyVals_length]
    rw [← bodyVals_concat]
    rw [valLE_bodyVals2 W MW (v / 2 ^ (W - h)) (mid.length + 1) (Or.inr (by omega))]
    rw [updMid_window_low W (W - h) e v]
    simp only [mul_zero, add_zero]
    rw [mod_compose]
    apply Nat.mod_eq_of_lt
    have h9 : W - h + W * (mid.length + 1) = W * (mid.length + 1) + W - h := by omega
    rw [h9]
    have h10 : W * (mid.length + 1) + t - h = W * (mid.length + 1) + W - h := by omega
    rw [h10] at hv
    exact hv
  · -- h > 0, t < W : all three segments
    simp only [regionBody, if_neg h0, if_neg htw, List.append_nil, List.length_append,
      List.length_cons, List.length_nil]
    have hWM : mid.length = 0 ∨ W ≤ MW := by
      rcases Nat.eq_zero_or_pos mid.length with hm | hm
      · exact Or.inl hm
      · right
        have h8 : W * 2 ≤ W * (mid.length + 1) := Nat.mul_le_mul_left _ (by omega)
        omega
    rw [List.append_assoc, List.singleton_append]
    rw [loadLe_regionD W MW h t (updMid W 0 (W - h) e v)
      (updMid W (W - t) W lst (v / 2 ^ (W - h) / 2 ^ (W * mid.length)))
      (bodyVals W MW (v / 2 ^ (W - h)) mid.length) hh ht1 htW
      (by rw [bodyVals_length]; omega)]
    congr 1
    simp only [headChunkD, tailChunkD, headW, regionBody, if_neg h0, if_neg htw,
      List.append_nil, bodyVals_length]
    rw [valLE_bodyVals2 W MW (v / 2 ^ (W - h)) mid.length hWM]
    rw [updMid_window_low W (W - h) e v]
    rw [updMid_window_high W t lst (v / 2 ^ (W - h) / 2 ^ (W * mid.length)) htW]
    rw [mod_compose, mod_compose]
    apply Nat.mod_eq_of_lt
    have h9 : W - h + (W * mid.length + t) = W * (mid.length + 1) + t - h := by omega
    rw [h9]
    exact hv

/-- Round trip of `store_be` then `load_be` on an ascending multi-element
range. -/
theorem roundBeA (W MW h t e lst : ℕ) (mid : List ℕ) (v : ℕ)
    (hh : h < W) (ht1 : 1 ≤ t) (htW : t ≤ W)
    (hlen : W * (mid.length + 1) + t - h ≤ MW)
    (hv : v < 2 ^ (W * (mid.length + 1) + t - h)) (hm2 : ∃ i, MW = 2 ^ i) :
    (Lsb0.storeBe W MW h t (e :: (mid ++ [lst])) v).bind (Lsb0.loadBe W MW h t) =
      some v := by
  have hW : 0 < W := by omega
  have hmulW : W ≤ W * (mid.length + 1) := Nat.le_mul_of_pos_right _ (by omega)
  have hmul1 : W * (mid.length + 1) = W * mid.length + W := by ring
  have hmul2 : W * (mid.length + 2) = W * mid.length + W + W := by ring
  rw [storeBe_region W MW h t e lst mid v hh ht1 htW hlen hm2]
  simp only [Option.bind_eq_bind, Option.some_bind]
  by_cases h0 : h = 0 <;> by_cases htw : t = W
  · -- h = 0, t = W : pure body transfer
    simp only [regionBody, if_pos h0, if_pos htw, List.nil_append, List.append_nil,
      List.length_append, List.length_cons, List.length_nil]
    have hWM : W < MW := by omega
    have hshape : (bodyVals W MW v (mid.length + 1 + 1)).reverse =
        resize MW W (v / 2 ^ (W * (mid.length + 1))) ::
          ((bodyVals W MW (v / 2 ^ W) mid.length).reverse ++ [resize MW W v]) := by
      rw [bodyVals_concat, List.reverse_append, bodyVals_succ, List.reverse_cons]
      simp
    rw [hshape]
    rw [loadBe_region W MW h t (resize MW W (v / 2 ^ (W * (mid.length + 1))))
      (resize MW W v) ((bodyVals W MW (v / 2 ^ W) mid.length).reverse) hh ht1 htW
      (by rw [List.length_reverse, bodyVals_length]; omega) hm2]
    congr 1
    simp only [headChunkA, tailChunkA, tailW, regionBody, if_pos h0, if_pos htw]
    rw [List.cons_append, ← hshape, List.reverse_reverse]
    rw [valLE_bodyVals2 W MW v (mid.length + 1 + 1) (Or.inr (by omega))]
    have hfin : v % 2 ^ (W * (mid.length + 1 + 1)) = v := by
      apply Nat.mod_eq_of_lt
      calc v < 2 ^ (W * (mid.length + 1) + t - h) := hv
        _ ≤ 2 ^ (W * (mid.length + 1 + 1)) := by
            apply two_pow_le_two_pow
            have h9 : W * (mid.length + 1 + 1) = W * (mid.length + 1) + W := by ring
            omega
    rw [hfin]
    simp
  · -- h = 0, t < W : body plus tail
    simp only [regionBody, if_pos h0, if_neg htw, List.nil_append, List.append_nil,
      List.length_cons]
    have hWM : W < MW := by omega
    have hshape : (bodyVals W MW (v / 2 ^ t) (mid.length + 1)).reverse =
        resize MW W (v / 2 ^ t / 2 ^ (W * mid.length)) ::
          (bodyVals W MW (v / 2 ^ t) mid.length).reverse := by
      rw [bodyVals_concat, List.reverse_append]
      simp
    rw [hshape, List.cons_append]
    rw [loadBe_region W MW h t (resize MW W (v / 2 ^ t / 2 ^ (W * mid.length)))
      (updMid W 0 t lst v) ((bodyVals W MW (v / 2 ^ t) mid.length).reverse) hh ht1 htW
      (by rw [List.length_reverse, bodyVals_length]; omega) hm2]
    congr 1
    simp only [headChunkA, tailChunkA, tailW, regionBody, if_pos h0, if_neg htw,
      List.append_nil, List.length_cons, List.length_reverse, bodyVals_length]
    rw [← hshape, List.reverse_reverse]
    rw [valLE_bodyVals2 W MW (v / 2 ^ t) (mid.length + 1) (Or.inr (by omega))]
    rw [updMid_window_low]
    simp only [mul_zero, add_zero]
    rw [mod_compose]
    apply Nat.mod_eq_of_lt
    have h9 : t + W * (mid.length + 1) = W * (mid.length + 1) + t - h := by omega
    rw [h9]
    exact hv
  · -- h > 0, t = W : head plus body
    simp only [regionBody, if_neg h0, if_pos htw, List.append_nil, List.length_append,
      List.length_cons, List.length_nil]
    have hWM : W < MW := by omega
    have hshape : (bodyVals W MW v (mid.length + 1)).reverse =
        (bodyVals W MW (v / 2 ^ W) mid.length).reverse ++ [resize MW W v] := by
      rw [bodyVals_succ, List.reverse_cons]
    rw [hshape, List.singleton_append]
    rw [loadBe_region W MW h t
      (updMid W h W e (v / 2 ^ (W * (mid.length + 1)))) (resize MW W v)
      ((bodyVals W MW (v / 2 ^ W) mid.length).reverse) hh ht1 htW
      (by rw [List.length_reverse, bodyVals_length]; omega) hm2]
    congr 1
    simp only [headChunkA, tailChunkA, tailW, regionBody, if_neg h0, if_pos htw,
      List.length_append, List.length_cons, List.length_nil, List.length_reverse,
      bodyVals_length]
    rw [← hshape, List.reverse_reverse]
    rw [valLE_bodyVals2 W MW v (mid.length + 1) (Or.inr (by omega))]
    rw [updMid_window W h W e (v / 2 ^ (W * (mid.length + 1))) (le_of_lt hh)]
    simp only [pow_zero, one_mul, zero_add]
    rw [mod_compose]
    apply Nat.mod_eq_of_lt
    have h9 : W * (mid.length + 1) + (W - h) = W * (mid.length + 1) + W - h := by omega
    rw [h9]
    have h10 : W * (mid.length + 1) + t - h = W * (mid.length + 1) + W - h := by omega
    rw [h10] at hv
    exact hv
  · -- h > 0, t < W : all three segments
    simp only [regionBody, if_neg h0, if_neg htw, List.append_nil, List.length_append,
      List.length_cons, List.length_nil]
    have hWM : mid.length = 0 ∨ W ≤ MW := by
      rcases Nat.eq_zero_or_pos mid.length with hm | hm
      · exact Or.inl hm
      · right
        have h8 : W * 2 ≤ W * (mid.length + 1) := Nat.mul_le_mul_left _ (by omega)
        omega
    rw [List.append_assoc, List.singleton_append]
    rw [loadBe_region W MW h t
      (updMid W h W e (v / 2 ^ t / 2 ^ (W * mid.length)))
      (updMid W 0 t lst v) ((bodyVals W MW (v / 2 ^ t) mid.length).reverse) hh ht1 htW
      (by rw [List.length_reverse, bodyVals_length]; omega) hm2]
    congr 1
    simp only [headChunkA, tailChunkA, tailW, regionBody, if_neg h0, if_neg htw,
      List.append_nil, List.length_reverse, bodyVals_length]
    rw [List.reverse_reverse]
    rw [valLE_bodyVals2 W MW (v / 2 ^ t) mid.length hWM]
    rw [updMid_window W h W e (v / 2 ^ t / 2 ^ (W * mid.length)) (le_of_lt hh)]
    rw [updMid_window_low]
    rw [mod_compose, mod_compose]
    apply Nat.mod_eq_of_lt
    have h9 : t + (W * mid.length + (W - h)) = W * (mid.length + 1) + t - h := by omega
    rw [h9]
    exact hv

/-- Round trip of `store_be` then `load_be` on a descending multi-element
range. -/
theorem roundBeD (W MW h t e lst : ℕ) (mid : List ℕ) (v : ℕ)
    (hh : h < W) (ht1 : 1 ≤ t) (htW : t ≤ W)
    (hlen : W * (mid.length + 1) + t - h ≤ MW)
    (hv : v < 2 ^ (W * (mid.length + 1) + t - h)) :
    (Msb0.storeBe W MW h t (e :: (mid ++ [lst])) v).bind (Msb0.loadBe W MW h t) =
      some v := by
  have hW : 0 < W := by omega
  have hmulW : W ≤ W * (mid.length + 1) := Nat.le_mul_of_pos_right _ (by omega)
  have hmul1 : W * (mid.length + 1) = W * mid.length + W := by ring
  have hmul2 : W * (mid.length + 2) = W * mid.length + W + W := by ring
  rw [storeBe_regionD W MW h t e lst mid v hh ht1 htW hlen]
  simp only [Option.bind_eq_bind, Option.some_bind]
  by_cases h0 : h = 0 <;> by_cases htw : t = W
  · -- h = 0, t = W : pure body transfer
    simp only [regionBody, if_pos h0, if_pos htw, List.nil_append, List.append_nil,
      List.length_append, List.length_cons, List.length_nil]
    have hWM : W < MW := by omega
    have hshape : (bodyVals W MW v (mid.length + 1 + 1)).reverse =
        resize MW W (v / 2 ^ (W * (mid.length + 1))) ::
          ((bodyVals W MW (v / 2 ^ W) mid.length).reverse ++ [resize MW W v]) := by
      rw [bodyVals_concat, List.reverse_append, bodyVals_succ, List.reverse_cons]
      simp
    rw [hshape]
    rw [loadBe_regionD W MW h t (resize MW W (v / 2 ^ (W * (mid.length + 1))))
      (resize MW W v) ((bodyVals W MW (v / 2 ^ W) mid.length).reverse) hh ht1 htW
      (by rw [List.length_reverse, bodyVals_length]; omega)]
    congr 1
    simp only [headChunkD, tailChunkD, tailW, regionBody, if_pos h0, if_pos htw]
    rw [List.cons_append, ← hshape, List.reverse_reverse]
    rw [valLE_bodyVals2 W MW v (mid.length + 1 + 1) (Or.inr (by omega))]
    have hfin : v % 2 ^ (W * (mid.length + 1 + 1)) = v := by
      apply Nat.mod_eq_of_lt
      calc v < 2 ^ (W * (mid.length + 1) + t - h) := hv
        _ ≤ 2 ^ (W * (mid.length + 1 + 1)) := by
            apply two_pow_le_two_pow
            have h9 : W * (mid.length + 1 + 1) = W * (mid.length + 1) + W := by ring
            omega
    rw [hfin]
    simp
  · -- h = 0, t < W : body plus tail
    simp only [regionBody, if_pos h0, if_neg htw, List.nil_append, List.append_nil,
      List.length_cons]
    have hWM : W < MW := by omega
    have hshape : (bodyVals W MW (v / 2 ^ t) (mid.length + 1)).reverse =
        resize MW W (v / 2 ^ t / 2 ^ (W * mid.length)) ::
          (bodyVals W MW (v / 2 ^ t) mid.length).reverse := by
      rw [bodyVals_concat, List.reverse_append]
      simp
    rw [hshape, List.cons_append]
    rw [loadBe_regionD W MW h t (resize MW W (v / 2 ^ t / 2 ^ (W * mid.length)))
      (updMid W (W - t) W lst v) ((bodyVals W MW (v / 2 ^ t) mid.length).reverse) hh ht1 htW
      (by rw [List.length_reverse, bodyVals_length]; omega)]
    congr 1
    simp only [headChunkD, tailChunkD, tailW, regionBody, if_pos h0, if_neg htw,
      List.append_nil, List.length_cons, List.length_reverse, bodyVals_length]
    rw [← hshape, List.reverse_reverse]
    rw [valLE_bodyVals2 W MW (v / 2 ^ t) (mid.length + 1) (Or.inr (by omega))]
    rw [updMid_window_high W t lst v htW]
    simp only [mul_zero, add_zero]
    rw [mod_compose]
    apply Nat.mod_eq_of_lt
    have h9 : t + W * (mid.length + 1) = W * (mid.length + 1) + t - h := by omega
    rw [h9]
    exact hv
  · -- h > 0, t = W : head plus body
    simp only [regionBody, if_neg h0, if_pos htw, List.append_nil, List.length_append,
      List.length_cons, List.length_nil]
    have hWM : W < MW := by omega
    have hshape : (bodyVals W MW v (mid.length + 1)).reverse =
        (bodyVals W MW (v / 2 ^ W) mid.length).reverse ++ [resize MW W v] := by
      rw [bodyVals_succ, List.reverse_cons]
    rw [hshape, List.singleton_append]
    rw [loadBe_regionD W MW h t
      (updMid W 0 (W - h) e (v / 2 ^ (W * (mid.length + 1)))) (resize MW W v)
      ((bodyVals W MW (v / 2 ^ W) mid.length).reverse) hh ht1 htW
      (by rw [List.length_reverse, bodyVals_length]; omega)]
    congr 1
    simp only [headChunkD, tailChunkD, tailW, regionBody, if_neg h0, if_pos htw,
      List.length_append, List.length_cons, List.length_nil, List.length_reverse,
      bodyVals_length]
    rw [← hshape, List.reverse_reverse]
    rw [valLE_bodyVals2 W MW v (mid.length + 1) (Or.inr (by omega))]
    rw [updMid_window_low W (W - h) e (v / 2 ^ (W * (mid.length + 1)))]
    simp only [pow_zero, one_mul, zero_add]
    rw [mod_compose]
    apply Nat.mod_eq_of_lt
    have h9 : W * (mid.length + 1) + (W - h) = W * (mid.length + 1) + W - h := by omega
    rw [h9]
    have h10 : W * (mid.length + 1) + t - h = W * (mid.length + 1) + W - h := by omega
    rw [h10] at hv
    exact hv
  · -- h > 0, t < W : all three segments
    simp only [regionBody, if_neg h0, if_neg htw, List.append_nil, List.length_append,
      List.length_cons, List.length_nil]
    have hWM : mid.length = 0 ∨ W ≤ MW := by
      rcases Nat.eq_zero_or_pos mid.length with hm | hm
      · exact Or.inl hm
      · right
        have h8 : W * 2 ≤ W * (mid.length + 1) := Nat.mul_le_mul_left _ (by omega)
        omega
    rw [List.append_assoc, List.singleton_append]
    rw [loadBe_regionD W MW h t
      (updMid W 0 (W - h) e (v / 2 ^ t / 2 ^ (W * mid.length)))
      (updMid W (W - t) W lst v) ((bodyVals W MW (v / 2 ^ t) mid.length).reverse) hh ht1 htW
      (by rw [List.length_reverse, bodyVals_length]; omega)]
    congr 1
    simp only [headChunkD, tailChunkD, tailW, regionBody, if_neg h0, if_neg htw,
      List.append_nil, List.length_reverse, bodyVals_length]
    rw [List.reverse_reverse]
    rw [valLE_bodyVals2 W MW (v / 2 ^ t) mid.length hWM]
    rw [updMid_window_low W (W - h) e (v / 2 ^ t / 2 ^ (W * mid.length))]
    rw [updMid_window_high W t lst v htW]
    rw [mod_compose, mod_compose]
    apply Nat.mod_eq_of_lt
    have h9 : t + (W * mid.length + (W - h)) = W * (mid.length + 1) + t - h := by omega
    rw [h9]
    exact hv

/-- C1: round trip — on every valid range under either ordering policy, and a
value confined to the range width, `store_le` followed by `load_le` returns
exactly the value, and likewise `store_be` followed by `load_be`; the single
statement covers pure-enclave, head-only, tail-only, head-and-tail, and
multi-element-with-full-body ranges. -/
theorem claim_C1 (W MW h t : ℕ) (mem : List ℕ) (v : ℕ)
    (hh : h < W) (ht1 : 1 ≤ t) (htW : t ≤ W)
    (hlen1 : 1 ≤ sliceLen W h t mem.length)
    (hlenM : sliceLen W h t mem.length ≤ MW)
    (hv : v < 2 ^ sliceLen W h t mem.length) (hm2 : ∃ i, MW = 2 ^ i) :
    (Lsb0.storeLe W MW h t mem v).bind (Lsb0.loadLe W MW h t) = some v ∧
    (Lsb0.storeBe W MW h t mem v).bind (Lsb0.loadBe W MW h t) = some v ∧
    (Msb0.storeLe W MW h t mem v).bind (Msb0.loadLe W MW h t) = some v ∧
    (Msb0.storeBe W MW h t mem v).bind (Msb0.loadBe W MW h t) = some v := by
  rcases mem_shape mem with rfl | ⟨e, rfl⟩ | ⟨e, mid, lst, rfl⟩
  · unfold sliceLen at hlen1
    simp at hlen1
  · have hsl : sliceLen W h t [e].length = t - h := by
      unfold sliceLen
      simp
    rw [hsl] at hlen1 hlenM hv
    have hht : h < t := by omega
    have hA : (Lsb0.storeLe W MW h t [e] v).bind (Lsb0.loadLe W MW h t) = some v := by
      rw [storeLe_enclave W MW h t e v hht htW hlenM]
      simp only [Option.bind_eq_bind, Option.some_bind]
      rw [loadLe_enclave W MW h t (updMid W h t e v) hht htW hlenM]
      rw [updMid_window W h t e v (le_of_lt hht), Nat.mod_eq_of_lt hv]
    have hD : (Msb0.storeLe W MW h t [e] v).bind (Msb0.loadLe W MW h t) = some v := by
      rw [storeLe_enclaveD W MW h t e v hht htW hlenM]
      simp only [Option.bind_eq_bind, Option.some_bind]
      rw [loadLe_enclaveD W MW h t (updMid W (W - t) (W - h) e v) hht htW hlenM]
      have h1 := updMid_window W (W - t) (W - h) e v (by omega)
      have h2 : W - h - (W - t) = t - h := by omega
      rw [h2] at h1
      rw [h1, Nat.mod_eq_of_lt hv]
    refine ⟨hA, ?_, hD, ?_⟩
    · rw [storeBe_single_eq]
      rw [storeLe_enclave W MW h t e v hht htW hlenM]
      simp only [Option.bind_eq_bind, Option.some_bind]
      rw [loadBe_single_eq]
      rw [storeLe_enclave W MW h t e v hht htW hlenM] at hA
      simp only [Option.bind_eq_bind, Option.some_bind] at hA
      exact hA
    · rw [storeBe_single_eqD]
      rw [storeLe_enclaveD W MW h t e v hht htW hlenM]
      simp only [Option.bind_eq_bind, Option.some_bind]
      rw [loadBe_single_eqD]
      rw [storeLe_enclaveD W MW h t e v hht htW hlenM] at hD
      simp only [Option.bind_eq_bind, Option.some_bind] at hD
      exact hD
  · have hk : (e :: (mid ++ [lst])).length = mid.length + 2 := by simp
    rw [hk] at hlen1 hlenM hv
    have hslice : sliceLen W h t (mid.length + 2) = W * (mid.length + 1) + t - h := by
      unfold sliceLen
      simp
    rw [hslice] at hlen1 hlenM hv
    exact ⟨roundLeA W MW h t e lst mid v hh ht1 htW hlenM hv,
      roundBeA W MW h t e lst mid v hh ht1 htW hlenM hv hm2,
      roundLeD W MW h t e lst mid v hh ht1 htW hlenM hv,
      roundBeD W MW h t e lst mid v hh ht1 htW hlenM hv⟩

/-- Witness for C1: a boundary-spanning byte range and an enclave range. -/
theorem claim_C1_witness :
    ((4:ℕ) < 8 ∧ (1:ℕ) ≤ 4 ∧ (4:ℕ) ≤ 8 ∧ 1 ≤ sliceLen 8 4 4 [0, 0].length ∧
      sliceLen 8 4 4 [0, 0].length ≤ 8 ∧ (0xAB:ℕ) < 2 ^ sliceLen 8 4 4 [0, 0].length ∧
      (∃ i, (8:ℕ) = 2 ^ i)) ∧
    (Lsb0.storeLe 8 8 4 4 [0, 0] 0xAB).bind (Lsb0.loadLe 8 8 4 4) = some 0xAB ∧
    (Lsb0.storeBe 8 8 4 4 [0, 0] 0xAB).bind (Lsb0.loadBe 8 8 4 4) = some 0xAB ∧
    (Msb0.storeLe 8 8 4 4 [0, 0] 0xAB).bind (Msb0.loadLe 8 8 4 4) = some 0xAB ∧
    (Msb0.storeBe 8 8 4 4 [0, 0] 0xAB).bind (Msb0.loadBe 8 8 4 4) = some 0xAB := by
  refine ⟨⟨by norm_num, by norm_num, by norm_num, by decide, by decide, by decide,
    ⟨3, by norm_num⟩⟩, ?_⟩
  exact claim_C1 8 8 4 4 [0, 0] 0xAB (by norm_num) (by norm_num) (by norm_num)
    (by decide) (by decide) (by decide) ⟨3, by norm_num⟩

/-- C5: the shift clamp `tail.value() & M::MASK` in the ascending-ordering
big-endian region paths: on every reachable region with a trailing partial
chunk the clamped amount equals the tail chunk's live width (so it could
differ only if that width were exactly the register width, which cannot occur
here), every shift performed stays strictly below the register width, and the
observable result equals the specified one, a shift by the live width. -/
theorem claim_C5 (W MW h t e lst : ℕ) (mid : List ℕ) (v : ℕ)
    (hh : h < W) (ht1 : 1 ≤ t) (htW : t ≤ W) (htw : t ≠ W)
    (hlen : W * (mid.length + 1) + t - h ≤ MW) (hm2 : ∃ i, MW = 2 ^ i) :
    t &&& (MW - 1) = t ∧ t < MW ∧ (t &&& (MW - 1) ≠ t → t = MW) ∧
    (Lsb0.loadBe W MW h t (e :: (mid ++ [lst]))).isSome ∧
    (Lsb0.storeBe W MW h t (e :: (mid ++ [lst])) v).isSome ∧
    Lsb0.loadBe W MW h t (e :: (mid ++ [lst])) =
      some (tailChunkA W t lst + 2 ^ t *
        (valLE W (regionBody W h t e mid lst).reverse +
          2 ^ (W * (regionBody W h t e mid lst).length) * headChunkA W h e)) := by
  have hmulW : W ≤ W * (mid.length + 1) := Nat.le_mul_of_pos_right _ (by omega)
  have htM : t < MW := by omega
  have hclamp : t &&& (MW - 1) = t := and_mask_of_lt t MW hm2 htM
  have hload := loadBe_region W MW h t e lst mid hh ht1 htW hlen hm2
  have htw2 : tailW W t = t := by
    unfold tailW
    rw [if_neg htw]
  rw [htw2] at hload
  refine ⟨hclamp, htM, fun hc => absurd hclamp hc, ?_, ?_, hload⟩
  · rw [hload]
    rfl
  · exact storeBe_region_isSome W MW h t e lst mid v hh ht1 htW hlen

/-- Witness for C5 on a two-byte straddling range. -/
theorem claim_C5_witness :
    ((4:ℕ) < 8 ∧ (1:ℕ) ≤ 4 ∧ (4:ℕ) ≤ 8 ∧ (4:ℕ) ≠ 8 ∧
      8 * (List.length ([] : List ℕ) + 1) + 4 - 4 ≤ 8 ∧ (∃ i, (8:ℕ) = 2 ^ i)) ∧
    ((4:ℕ) &&& (8 - 1) = 4 ∧ (4:ℕ) < 8 ∧ ((4:ℕ) &&& (8 - 1) ≠ 4 → (4:ℕ) = 8) ∧
      (Lsb0.loadBe 8 8 4 4 [0xF0, 0x0A]).isSome ∧
      (Lsb0.storeBe 8 8 4 4 [0xF0, 0x0A] 0xAB).isSome ∧
      Lsb0.loadBe 8 8 4 4 [0xF0, 0x0A] =
        some (tailChunkA 8 4 0x0A + 2 ^ 4 *
          (valLE 8 (regionBody 8 4 4 0xF0 [] 0x0A).reverse +
            2 ^ (8 * (regionBody 8 4 4 0xF0 [] 0x0A).length) * headChunkA 8 4 0xF0))) := by
  refine ⟨⟨by norm_num, by norm_num, by norm_num, by norm_num, by norm_num,
    ⟨3, by norm_num⟩⟩, ?_⟩
  exact claim_C5 8 8 4 4 0xF0 0x0A [] 0xAB (by norm_num) (by norm_num) (by norm_num)
    (by norm_num) (by norm_num) ⟨3, by norm_num⟩

/-- Truncation windows are monotone. -/
theorem mod_congr_of_le (x y m n : ℕ) (hxy : x % 2 ^ n = y % 2 ^ n) (hmn : m ≤ n) :
    x % 2 ^ m = y % 2 ^ m := by
  have h1 : x % 2 ^ n % 2 ^ m = y % 2 ^ n % 2 ^ m := by rw [hxy]
  rwa [Nat.mod_mod_of_dvd _ (pow_dvd_pow 2 hmn),
    Nat.mod_mod_of_dvd _ (pow_dvd_pow 2 hmn)] at h1

/-- Shifted truncation windows respect agreement of the enclosing window. -/
theorem div_mod_congr (x y a b : ℕ) (hxy : x % 2 ^ (a + b) = y % 2 ^ (a + b)) :
    x / 2 ^ a % 2 ^ b = y / 2 ^ a % 2 ^ b := by
  rw [← mod_pow_div, ← mod_pow_div, hxy]

/-- The written element depends only on the window of the written value. -/
theorem updMid_congr (W a b e c1 c2 : ℕ)
    (hc : c1 % 2 ^ (b - a) = c2 % 2 ^ (b - a)) :
    updMid W a b e c1 = updMid W a b e c2 := by
  unfold updMid
  rw [hc]

/-- C7: stores consume only the low `len` bits of the value — two values that
agree on their `len` least significant bits produce identical memory under
`store_le` and `store_be`, for both ordering policies. -/
theorem claim_C7 (W MW h t : ℕ) (mem : List ℕ) (v1 v2 : ℕ)
    (hh : h < W) (ht1 : 1 ≤ t) (htW : t ≤ W)
    (hagree : v1 % 2 ^ sliceLen W h t mem.length = v2 % 2 ^ sliceLen W h t mem.length)
    (hm2 : ∃ i, MW = 2 ^ i) :
    Lsb0.storeLe W MW h t mem v1 = Lsb0.storeLe W MW h t mem v2 ∧
    Lsb0.storeBe W MW h t mem v1 = Lsb0.storeBe W MW h t mem v2 ∧
    Msb0.storeLe W MW h t mem v1 = Msb0.storeLe W MW h t mem v2 ∧
    Msb0.storeBe W MW h t mem v1 = Msb0.storeBe W MW h t mem v2 := by
  by_cases hok : 1 ≤ sliceLen W h t mem.length ∧ sliceLen W h t mem.length ≤ MW
  · rcases mem_shape mem with rfl | ⟨e, rfl⟩ | ⟨e, mid, lst, rfl⟩
    · unfold sliceLen at hok
      simp at hok
    · have hsl : sliceLen W h t [e].length = t - h := by
        unfold sliceLen
        simp
      rw [hsl] at hok hagree
      have hht : h < t := by omega
      have hA : Lsb0.storeLe W MW h t [e] v1 = Lsb0.storeLe W MW h t [e] v2 := by
        rw [storeLe_enclave W MW h t e v1 hht htW hok.2,
          storeLe_enclave W MW h t e v2 hht htW hok.2,
          updMid_congr W h t e v1 v2 hagree]
      have hD : Msb0.storeLe W MW h t [e] v1 = Msb0.storeLe W MW h t [e] v2 := by
        have hw9 : W - h - (W - t) = t - h := by omega
        rw [storeLe_enclaveD W MW h t e v1 hht htW hok.2,
          storeLe_enclaveD W MW h t e v2 hht htW hok.2,
          updMid_congr W (W - t) (W - h) e v1 v2 (by rw [hw9]; exact hagree)]
      refine ⟨hA, ?_, hD, ?_⟩
      · rw [storeBe_single_eq, storeBe_single_eq]
        exact hA
      · rw [storeBe_single_eqD, storeBe_single_eqD]
        exact hD
    · have hk : (e :: (mid ++ [lst])).length = mid.length + 2 := by simp
      rw [hk] at hok hagree
      have hslice : sliceLen W h t (mid.length + 2) = W * (mid.length + 1) + t - h := by
        unfold sliceLen
        simp
      rw [hslice] at hok hagree
      have hlenM : W * (mid.length + 1) + t - h ≤ MW := hok.2
      have hdec := len_decomp W h t e lst mid hh ht1 htW
      rw [hslice] at hdec
      have hWle : (regionBody W h t e mid lst).length = 0 ∨ W ≤ MW := by
        rcases Nat.eq_zero_or_pos (regionBody W h t e mid lst).length with h9 | h9
        · exact Or.inl h9
        · right
          have h10 : W ≤ W * (regionBody W h t e mid lst).length :=
            Nat.le_mul_of_pos_right _ h9
          omega
      have hhw0 : h = 0 → headW W h = 0 := by
        intro h0
        unfold headW
        rw [if_pos h0]
      have hhw1 : ¬ h = 0 → headW W h = W - h := by
        intro h0
        unfold headW
        rw [if_neg h0]
      have htw0 : t = W → tailW W t = 0 := by
        intro h0
        unfold tailW
        rw [if_pos h0]
      have htw1 : ¬ t = W → tailW W t = t := by
        intro h0
        unfold tailW
        rw [if_neg h0]
      -- ascending little-endian store
      have hA : Lsb0.storeLe W MW h t (e :: (mid ++ [lst])) v1 =
          Lsb0.storeLe W MW h t (e :: (mid ++ [lst])) v2 := by
        rw [storeLe_region W MW h t e lst mid v1 hh ht1 htW hlenM,
          storeLe_region W MW h t e lst mid v2 hh ht1 htW hlenM]
        have hu : (if h = 0 then v1 else v1 / 2 ^ (W - h)) %
            2 ^ (W * (regionBody W h t e mid lst).length + tailW W t) =
            (if h = 0 then v2 else v2 / 2 ^ (W - h)) %
            2 ^ (W * (regionBody W h t e mid lst).length + tailW W t) := by
          by_cases h0 : h = 0
          · simp only [if_pos h0]
            exact mod_congr_of_le _ _ _ _ hagree (by have := hhw0 h0; omega)
          · simp only [if_neg h0]
            exact div_mod_congr _ _ _ _
              (mod_congr_of_le _ _ _ _ hagree (by have := hhw1 h0; omega))
        have hHead : (if h = 0 then ([] : List ℕ) else [updMid W h W e v1]) =
            (if h = 0 then [] else [updMid W h W e v2]) := by
          by_cases h0 : h = 0
          · simp [h0]
          · simp only [if_neg h0]
            rw [updMid_congr W h W e v1 v2
              (mod_congr_of_le _ _ _ _ hagree (by have := hhw1 h0; omega))]
        have hBody : bodyVals W MW (if h = 0 then v1 else v1 / 2 ^ (W - h))
            (regionBody W h t e mid lst).length =
            bodyVals W MW (if h = 0 then v2 else v2 / 2 ^ (W - h))
            (regionBody W h t e mid lst).length := by
          rcases hWle with h9 | h9
          · rw [h9]
            rfl
          · exact bodyVals_mod W MW h9 _ _ _ (mod_congr_of_le _ _ _ _ hu (by omega))
        have hTail : (if t = W then ([] : List ℕ) else [updMid W 0 t lst
            ((if h = 0 then v1 else v1 / 2 ^ (W - h)) /
              2 ^ (W * (regionBody W h t e mid lst).length))]) =
            (if t = W then [] else [updMid W 0 t lst
            ((if h = 0 then v2 else v2 / 2 ^ (W - h)) /
              2 ^ (W * (regionBody W h t e mid lst).length))]) := by
          by_cases htw : t = W
          · simp [htw]
          · simp only [if_neg htw]
            have hu2 := hu
            rw [htw1 htw] at hu2
            have h9 := div_mod_congr (if h = 0 then v1 else v1 / 2 ^ (W - h))
              (if h = 0 then v2 else v2 / 2 ^ (W - h))
              (W * (regionBody W h t e mid lst).length) t hu2
            rw [updMid_congr W 0 t lst
              ((if h = 0 then v1 else v1 / 2 ^ (W - h)) /
                2 ^ (W * (regionBody W h t e mid lst).length))
              ((if h = 0 then v2 else v2 / 2 ^ (W - h)) /
                2 ^ (W * (regionBody W h t e mid lst).length))
              (by simpa using h9)]
        rw [hHead, hBody, hTail]
      -- ascending big-endian store
      have hB : Lsb0.storeBe W MW h t (e :: (mid ++ [lst])) v1 =
          Lsb0.storeBe W MW h t (e :: (mid ++ [lst])) v2 := by
        rw [storeBe_region W MW h t e lst mid v1 hh ht1 htW hlenM hm2,
          storeBe_region W MW h t e lst mid v2 hh ht1 htW hlenM hm2]
        have hu : (if t = W then v1 else v1 / 2 ^ t) %
            2 ^ (W * (regionBody W h t e mid lst).length + headW W h) =
            (if t = W then v2 else v2 / 2 ^ t) %
            2 ^ (W * (regionBody W h t e mid lst).length + headW W h) := by
          by_cases htw : t = W
          · simp only [if_pos htw]
            exact mod_congr_of_le _ _ _ _ hagree (by have := htw0 htw; omega)
          · simp only [if_neg htw]
            exact div_mod_congr _ _ _ _
              (mod_congr_of_le _ _ _ _ hagree (by have := htw1 htw; omega))
        have hTail : (if t = W then ([] : List ℕ) else [updMid W 0 t lst v1]) =
            (if t = W then [] else [updMid W 0 t lst v2]) := by
          by_cases htw : t = W
          · simp [htw]
          · simp only [if_neg htw]
            rw [updMid_congr W 0 t lst v1 v2 (by
              have h9 := mod_congr_of_le _ _ t _ hagree (by have := htw1 htw; omega)
              simpa using h9)]
        have hBody : bodyVals W MW (if t = W then v1 else v1 / 2 ^ t)
            (regionBody W h t e mid lst).length =
            bodyVals W MW (if t = W then v2 else v2 / 2 ^ t)
            (regionBody W h t e mid lst).length := by
          rcases hWle with h9 | h9
          · rw [h9]
            rfl
          · exact bodyVals_mod W MW h9 _ _ _ (mod_congr_of_le _ _ _ _ hu (by omega))
        have hHead : (if h = 0 then ([] : List ℕ) else [updMid W h W e
            ((if t = W then v1 else v1 / 2 ^ t) /
              2 ^ (W * (regionBody W h t e mid lst).length))]) =
            (if h = 0 then [] else [updMid W h W e
            ((if t = W then v2 else v2 / 2 ^ t) /
              2 ^ (W * (regionBody W h t e mid lst).length))]) := by
          by_cases h0 : h = 0
          · simp [h0]
          · simp only [if_neg h0]
            have hu2 := hu
            rw [hhw1 h0] at hu2
            rw [updMid_congr W h W e
              ((if t = W then v1 else v1 / 2 ^ t) /
                2 ^ (W * (regionBody W h t e mid lst).length))
              ((if t = W then v2 else v2 / 2 ^ t) /
                2 ^ (W * (regionBody W h t e mid lst).length))
              (div_mod_congr (if t = W then v1 else v1 / 2 ^ t)
                (if t = W then v2 else v2 / 2 ^ t)
                (W * (regionBody W h t e mid lst).length) (W - h) hu2)]
        rw [hHead, hBody, hTail]
      -- descending little-endian store
      have hC : Msb0.storeLe W MW h t (e :: (mid ++ [lst])) v1 =
          Msb0.storeLe W MW h t (e :: (mid ++ [lst])) v2 := by
        rw [storeLe_regionD W MW h t e lst mid v1 hh ht1 htW hlenM,
          storeLe_regionD W MW h t e lst mid v2 hh ht1 htW hlenM]
        have hu : (if h = 0 then v1 else v1 / 2 ^ (W - h)) %
            2 ^ (W * (regionBody W h t e mid lst).length + tailW W t) =
            (if h = 0 then v2 else v2 / 2 ^ (W - h)) %
            2 ^ (W * (regionBody W h t e mid lst).length + tailW W t) := by
          by_cases h0 : h = 0
          · simp only [if_pos h0]
            exact mod_congr_of_le _ _ _ _ hagree (by have := hhw0 h0; omega)
          · simp only [if_neg h0]
            exact div_mod_congr _ _ _ _
              (mod_congr_of_le _ _ _ _ hagree (by have := hhw1 h0; omega))
        have hHead : (if h = 0 then ([] : List ℕ) else [updMid W 0 (W - h) e v1]) =
            (if h = 0 then [] else [updMid W 0 (W - h) e v2]) := by
          by_cases h0 : h = 0
          · simp [h0]
          · simp only [if_neg h0]
            rw [updMid_congr W 0 (W - h) e v1 v2 (by
              have h9 := mod_congr_of_le _ _ (W - h) _ hagree (by have := hhw1 h0; omega)
              simpa using h9)]
        have hBody : bodyVals W MW (if h = 0 then v1 else v1 / 2 ^ (W - h))
            (regionBody W h t e mid lst).length =
            bodyVals W MW (if h = 0 then v2 else v2 / 2 ^ (W - h))
            (regionBody W h t e mid lst).length := by
          rcases hWle with h9 | h9
          · rw [h9]
            rfl
          · exact bodyVals_mod W MW h9 _ _ _ (mod_congr_of_le _ _ _ _ hu (by omega))
        have hTail : (if t = W then ([] : List ℕ) else [updMid W (W - t) W lst
            ((if h = 0 then v1 else v1 / 2 ^ (W - h)) /
              2 ^ (W * (regionBody W h t e mid lst).length))]) =
            (if t = W then [] else [updMid W (W - t) W lst
            ((if h = 0 then v2 else v2 / 2 ^ (W - h)) /
              2 ^ (W * (regionBody W h t e mid lst).length))]) := by
          by_cases htw : t = W
          · simp [htw]
          · simp only [if_neg htw]
            have hu2 := hu
            rw [htw1 htw] at hu2
            have h9 := div_mod_congr (if h = 0 then v1 else v1 / 2 ^ (W - h))
              (if h = 0 then v2 else v2 / 2 ^ (W - h))
              (W * (regionBody W h t e mid lst).length) t hu2
            have h10 : W - (W - t) = t := by omega
            rw [updMid_congr W (W - t) W lst
              ((if h = 0 then v1 else v1 / 2 ^ (W - h)) /
                2 ^ (W * (regionBody W h t e mid lst).length))
              ((if h = 0 then v2 else v2 / 2 ^ (W - h)) /
                2 ^ (W * (regionBody W h t e mid lst).length))
              (by rw [h10]; exact h9)]
        rw [hHead, hBody, hTail]
      -- descending big-endian store
      have hE : Msb0.storeBe W MW h t (e :: (mid ++ [lst])) v1 =
          Msb0.storeBe W MW h t (e :: (mid ++ [lst])) v2 := by
        rw [storeBe_regionD W MW h t e lst mid v1 hh ht1 htW hlenM,
          storeBe_regionD W MW h t e lst mid v2 hh ht1 htW hlenM]
        have hu : (if t = W then v1 else v1 / 2 ^ t) %
            2 ^ (W * (regionBody W h t e mid lst).length + headW W h) =
            (if t = W then v2 else v2 / 2 ^ t) %
            2 ^ (W * (regionBody W h t e mid lst).length + headW W h) := by
          by_cases htw : t = W
          · simp only [if_pos htw]
            exact mod_congr_of_le _ _ _ _ hagree (by have := htw0 htw; omega)
          · simp only [if_neg htw]
            exact div_mod_congr _ _ _ _
              (mod_congr_of_le _ _ _ _ hagree (by have := htw1 htw; omega))
        have hTail : (if t = W then ([] : List ℕ) else [updMid W (W - t) W lst v1]) =
            (if t = W then [] else [updMid W (W - t) W lst v2]) := by
          by_cases htw : t = W
          · simp [htw]
          · simp only [if_neg htw]
            rw [updMid_congr W (W - t) W lst v1 v2 (by
              have h9 := mod_congr_of_le _ _ t _ hagree (by have := htw1 htw; omega)
              have h10 : W - (W - t) = t := by omega
              rw [h10]
              exact h9)]
        have hBody : bodyVals W MW (if t = W then v1 else v1 / 2 ^ t)
            (regionBody W h t e mid lst).length =
            bodyVals W MW (if t = W then v2 else v2 / 2 ^ t)
            (regionBody W h t e mid lst).length := by
          rcases hWle with h9 | h9
          · rw [h9]
            rfl
          · exact bodyVals_mod W MW h9 _ _ _ (mod_congr_of_le _ _ _ _ hu (by omega))
        have hHead : (if h = 0 then ([] : List ℕ) else [updMid W 0 (W - h) e
            ((if t = W then v1 else v1 / 2 ^ t) /
              2 ^ (W * (regionBody W h t e mid lst).length))]) =
            (if h = 0 then [] else [updMid W 0 (W - h) e
            ((if t = W then v2 else v2 / 2 ^ t) /
              2 ^ (W * (regionBody W h t e mid lst).length))]) := by
          by_cases h0 : h = 0
          · simp [h0]
          · simp only [if_neg h0]
            have hu2 := hu
            rw [hhw1 h0] at hu2
            have h9 := div_mod_congr (if t = W then v1 else v1 / 2 ^ t)
              (if t = W then v2 else v2 / 2 ^ t)
              (W * (regionBody W h t e mid lst).length) (W - h) hu2
            rw [updMid_congr W 0 (W - h) e
              ((if t = W then v1 else v1 / 2 ^ t) /
                2 ^ (W * (regionBody W h t e mid lst).length))
              ((if t = W then v2 else v2 / 2 ^ t) /
                2 ^ (W * (regionBody W h t e mid lst).length))
              (by simpa using h9)]
        rw [hHead, hBody, hTail]
      exact ⟨hA, hB, hC, hE⟩
  · refine ⟨?_, ?_, ?_, ?_⟩
    · rw [storeLe_none W MW h t mem v1 hok, storeLe_none W MW h t mem v2 hok]
    · rw [storeBe_none W MW h t mem v1 hok, storeBe_none W MW h t mem v2 hok]
    · rw [storeLe_noneD W MW h t mem v1 hok, storeLe_noneD W MW h t mem v2 hok]
    · rw [storeBe_noneD W MW h t mem v1 hok, storeBe_noneD W MW h t mem v2 hok]

/-- Witness for C7: two values agreeing on the low eight bits stored over a
straddling two-byte range. -/
theorem claim_C7_witness :
    ((4:ℕ) < 8 ∧ (1:ℕ) ≤ 4 ∧ (4:ℕ) ≤ 8 ∧
      (0xAB:ℕ) % 2 ^ sliceLen 8 4 4 [0, 0].length =
        (0x5AB:ℕ) % 2 ^ sliceLen 8 4 4 [0, 0].length ∧ (∃ i, (8:ℕ) = 2 ^ i)) ∧
    Lsb0.storeLe 8 8 4 4 [0, 0] 0xAB = Lsb0.storeLe 8 8 4 4 [0, 0] 0x5AB := by
  refine ⟨⟨by norm_num, by norm_num, by norm_num, by decide, ⟨3, by norm_num⟩⟩, ?_⟩
  exact (claim_C7 8 8 4 4 [0, 0] 0xAB 0x5AB (by norm_num) (by norm_num) (by norm_num)
    (by decide) ⟨3, by norm_num⟩).1

/-- The last element of a one-element extension is read back by `getD`. -/
theorem getD_concat_length (l : List ℕ) (y d : ℕ) : (l ++ [y]).getD l.length d = y := by
  induction l with
  | nil => rfl
  | cons a as ih => simpa using ih

/-- `getD` at the combined length of two prefixes reads the appended element. -/
theorem getD_append_concat (A B : List ℕ) (y d n : ℕ) (hn : n = A.length + B.length) :
    ((A ++ B) ++ [y]).getD n d = y := by
  subst hn
  rw [← List.length_append]
  exact getD_concat_length _ _ _

/-- Frame property of the ascending little-endian store: bits outside the
range keep their prior value. -/
theorem frameLeA (W MW h t : ℕ) (mem : List ℕ) (v : ℕ) (mem2 : List ℕ)
    (hh : h < W) (ht1 : 1 ≤ t) (htW : t ≤ W)
    (he : ∀ x ∈ mem, x < 2 ^ W)
    (hst : Lsb0.storeLe W MW h t mem v = some mem2) :
    mem2.length = mem.length ∧
    ∀ i p, i < mem.length → p < W → ¬ liveA W h t mem.length i p →
      (mem2.getD i 0).testBit p = (mem.getD i 0).testBit p := by
  rcases mem_shape mem with rfl | ⟨e, rfl⟩ | ⟨e, mid, lst, rfl⟩
  · have hq : ¬ (1 ≤ sliceLen W h t ([] : List ℕ).length ∧
        sliceLen W h t ([] : List ℕ).length ≤ MW) := by
      unfold sliceLen
      simp
    rw [storeLe_none W MW h t [] v hq] at hst
    exact Option.noConfusion hst
  · have hok : 1 ≤ sliceLen W h t [e].length ∧ sliceLen W h t [e].length ≤ MW := by
      by_contra hq
      rw [storeLe_none W MW h t [e] v hq] at hst
      exact Option.noConfusion hst
    have hsl : sliceLen W h t [e].length = t - h := by
      unfold sliceLen
      simp
    rw [hsl] at hok
    have hht : h < t := by omega
    rw [storeLe_enclave W MW h t e v hht htW hok.2] at hst
    have hm := Option.some.inj hst
    subst hm
    refine ⟨rfl, ?_⟩
    intro i p hi hp hnl
    simp only [List.length_cons, List.length_nil] at hi
    have hi0 : i = 0 := by omega
    subst hi0
    simp only [liveA] at hnl
    have hcase : p < h ∨ t ≤ p := by
      by_contra hq
      push_neg at hq
      exact hnl ⟨hp, fun _ => hq.1, fun _ => hq.2⟩
    simp only [List.getD_cons_zero]
    exact testBit_updMid_frame W h t e v p (by omega) htW (he e (by simp)) hcase
  · have hok : 1 ≤ sliceLen W h t (e :: (mid ++ [lst])).length ∧
        sliceLen W h t (e :: (mid ++ [lst])).length ≤ MW := by
      by_contra hq
      rw [storeLe_none W MW h t _ v hq] at hst
      exact Option.noConfusion hst
    have hk : (e :: (mid ++ [lst])).length = mid.length + 2 := by simp
    have hsl : sliceLen W h t (mid.length + 2) = W * (mid.length + 1) + t - h := by
      unfold sliceLen
      simp
    rw [hk, hsl] at hok
    have hnb := regionBody_length W h t e mid lst
    rw [storeLe_region W MW h t e lst mid v hh ht1 htW hok.2] at hst
    have hm := Option.some.inj hst
    subst hm
    constructor
    · simp only [List.length_append, List.length_cons, bodyVals_length, hnb]
      by_cases h0 : h = 0 <;> by_cases htw : t = W <;> simp [h0, htw] <;> omega
    · intro i p hi hp hnl
      rw [hk] at hi
      simp only [liveA] at hnl
      by_cases hi0 : i = 0
      · subst hi0
        by_cases h0 : h = 0
        · exact absurd ⟨hp, fun _ => by omega, fun hq => by rw [hk] at hq; omega⟩ hnl
        · have hph : p < h := by
            by_contra hq
            push_neg at hq
            exact hnl ⟨hp, fun _ => hq, fun hq2 => by rw [hk] at hq2; omega⟩
          simp only [if_neg h0, List.cons_append, List.nil_append, List.getD_cons_zero]
          exact testBit_updMid_frame W h W e v p (by omega) (le_refl W)
            (he e (by simp)) (Or.inl hph)
      · by_cases hil : i = mid.length + 1
        · subst hil
          by_cases htw : t = W
          · exact absurd ⟨hp, fun hq => by omega, fun _ => by omega⟩ hnl
          · have hpt : t ≤ p := by
              by_contra hq
              push_neg at hq
              exact hnl ⟨hp, fun hq2 => by omega, fun _ => hq⟩
            rw [if_neg htw, getD_append_concat _ _ _ _ _ (by
                simp only [List.length_append, bodyVals_length, hnb]
                by_cases h0 : h = 0 <;> simp [h0, htw] <;> omega),
              List.getD_cons_succ, getD_concat_length]
            exact testBit_updMid_frame W 0 t lst _ p (Nat.zero_le t) htW
              (he lst (by simp)) (Or.inr hpt)
        · exact absurd ⟨hp, fun hq => by omega, fun hq => by rw [hk] at hq; omega⟩ hnl

/-- Frame property of the ascending big-endian store. -/
theorem frameBeA (W MW h t : ℕ) (mem : List ℕ) (v : ℕ) (mem2 : List ℕ)
    (hh : h < W) (ht1 : 1 ≤ t) (htW : t ≤ W)
    (he : ∀ x ∈ mem, x < 2 ^ W) (hm2 : ∃ i, MW = 2 ^ i)
    (hst : Lsb0.storeBe W MW h t mem v = some mem2) :
    mem2.length = mem.length ∧
    ∀ i p, i < mem.length → p < W → ¬ liveA W h t mem.length i p →
      (mem2.getD i 0).testBit p = (mem.getD i 0).testBit p := by
  rcases mem_shape mem with rfl | ⟨e, rfl⟩ | ⟨e, mid, lst, rfl⟩
  · have hq : ¬ (1 ≤ sliceLen W h t ([] : List ℕ).length ∧
        sliceLen W h t ([] : List ℕ).length ≤ MW) := by
      unfold sliceLen
      simp
    rw [storeBe_none W MW h t [] v hq] at hst
    exact Option.noConfusion hst
  · rw [storeBe_single_eq] at hst
    exact frameLeA W MW h t [e] v mem2 hh ht1 htW he hst
  · have hok : 1 ≤ sliceLen W h t (e :: (mid ++ [lst])).length ∧
        sliceLen W h t (e :: (mid ++ [lst])).length ≤ MW := by
      by_contra hq
      rw [storeBe_none W MW h t _ v hq] at hst
      exact Option.noConfusion hst
    have hk : (e :: (mid ++ [lst])).length = mid.length + 2 := by simp
    have hsl : sliceLen W h t (mid.length + 2) = W * (mid.length + 1) + t - h := by
      unfold sliceLen
      simp
    rw [hk, hsl] at hok
    have hnb := regionBody_length W h t e mid lst
    rw [storeBe_region W MW h t e lst mid v hh ht1 htW hok.2 hm2] at hst
    have hm := Option.some.inj hst
    subst hm
    constructor
    · simp only [List.length_append, List.length_cons, List.length_reverse,
        bodyVals_length, hnb]
      by_cases h0 : h = 0 <;> by_cases htw : t = W <;> simp [h0, htw] <;> omega
    · intro i p hi hp hnl
      rw [hk] at hi
      simp only [liveA] at hnl
      by_cases hi0 : i = 0
      · subst hi0
        by_cases h0 : h = 0
        · exact absurd ⟨hp, fun _ => by omega, fun hq => by rw [hk] at hq; omega⟩ hnl
        · have hph : p < h := by
            by_contra hq
            push_neg at hq
            exact hnl ⟨hp, fun _ => hq, fun hq2 => by rw [hk] at hq2; omega⟩
          simp only [if_neg h0, List.cons_append, List.nil_append, List.getD_cons_zero]
          exact testBit_updMid_frame W h W e _ p (by omega) (le_refl W)
            (he e (by simp)) (Or.inl hph)
      · by_cases hil : i = mid.length + 1
        · subst hil
          by_cases htw : t = W
          · exact absurd ⟨hp, fun hq => by omega, fun _ => by omega⟩ hnl
          · have hpt : t ≤ p := by
              by_contra hq
              push_neg at hq
              exact hnl ⟨hp, fun hq2 => by omega, fun _ => hq⟩
            rw [if_neg htw, if_neg htw, getD_append_concat _ _ _ _ _ (by
                simp only [List.length_append, List.length_reverse, bodyVals_length, hnb]
                by_cases h0 : h = 0 <;> simp [h0, htw] <;> omega),
              List.getD_cons_succ, getD_concat_length]
            exact testBit_updMid_frame W 0 t lst _ p (Nat.zero_le t) htW
              (he lst (by simp)) (Or.inr hpt)
        · exact absurd ⟨hp, fun hq => by omega, fun hq => by rw [hk] at hq; omega⟩ hnl

/-- Frame property of the descending little-endian store. -/
theorem frameLeD (W MW h t : ℕ) (mem : List ℕ) (v : ℕ) (mem2 : List ℕ)
    (hh : h < W) (ht1 : 1 ≤ t) (htW : t ≤ W)
    (he : ∀ x ∈ mem, x < 2 ^ W)
    (hst : Msb0.storeLe W MW h t mem v = some mem2) :
    mem2.length = mem.length ∧
    ∀ i p, i < mem.length → p < W → ¬ liveD W h t mem.length i p →
      (mem2.getD i 0).testBit p = (mem.getD i 0).testBit p := by
  rcases mem_shape mem with rfl | ⟨e, rfl⟩ | ⟨e, mid, lst, rfl⟩
  · have hq : ¬ (1 ≤ sliceLen W h t ([] : List ℕ).length ∧
        sliceLen W h t ([] : List ℕ).length ≤ MW) := by
      unfold sliceLen
      simp
    rw [storeLe_noneD W MW h t [] v hq] at hst
    exact Option.noConfusion hst
  · have hok : 1 ≤ sliceLen W h t [e].length ∧ sliceLen W h t [e].length ≤ MW := by
      by_contra hq
      rw [storeLe_noneD W MW h t [e] v hq] at hst
      exact Option.noConfusion hst
    have hsl : sliceLen W h t [e].length = t - h := by
      unfold sliceLen
      simp
    rw [hsl] at hok
    have hht : h < t := by omega
    rw [storeLe_enclaveD W MW h t e v hht htW hok.2] at hst
    have hm := Option.some.inj hst
    subst hm
    refine ⟨rfl, ?_⟩
    intro i p hi hp hnl
    simp only [List.length_cons, List.length_nil] at hi
    have hi0 : i = 0 := by omega
    subst hi0
    simp only [liveD] at hnl
    have hcase : p < W - t ∨ W - h ≤ p := by
      by_contra hq
      push_neg at hq
      exact hnl ⟨hp, fun _ => hq.2, fun _ => hq.1⟩
    simp only [List.getD_cons_zero]
    exact testBit_updMid_frame W (W - t) (W - h) e v p (by omega) (by omega)
      (he e (by simp)) hcase
  · have hok : 1 ≤ sliceLen W h t (e :: (mid ++ [lst])).length ∧
        sliceLen W h t (e :: (mid ++ [lst])).length ≤ MW := by
      by_contra hq
      rw [storeLe_noneD W MW h t _ v hq] at hst
      exact Option.noConfusion hst
    have hk : (e :: (mid ++ [lst])).length = mid.length + 2 := by simp
    have hsl : sliceLen W h t (mid.length + 2) = W * (mid.length + 1) + t - h := by
      unfold sliceLen
      simp
    rw [hk, hsl] at hok
    have hnb := regionBody_length W h t e mid lst
    rw [storeLe_regionD W MW h t e lst mid v hh ht1 htW hok.2] at hst
    have hm := Option.some.inj hst
    subst hm
    constructor
    · simp only [List.length_append, List.length_cons, bodyVals_length, hnb]
      by_cases h0 : h = 0 <;> by_cases htw : t = W <;> simp [h0, htw] <;> omega
    · intro i p hi hp hnl
      rw [hk] at hi
      simp only [liveD] at hnl
      by_cases hi0 : i = 0
      · subst hi0
        by_cases h0 : h = 0
        · exact absurd ⟨hp, fun _ => by omega, fun hq => by rw [hk] at hq; omega⟩ hnl
        · have hph : W - h ≤ p := by
            by_contra hq
            push_neg at hq
            exact hnl ⟨hp, fun _ => hq, fun hq2 => by rw [hk] at hq2; omega⟩
          simp only [if_neg h0, List.cons_append, List.nil_append, List.getD_cons_zero]
          exact testBit_updMid_frame W 0 (W - h) e v p (Nat.zero_le _) (by omega)
            (he e (by simp)) (Or.inr hph)
      · by_cases hil : i = mid.length + 1
        · subst hil
          by_cases htw : t = W
          · exact absurd ⟨hp, fun hq => by omega, fun _ => by omega⟩ hnl
          · have hpt : p < W - t := by
              by_contra hq
              push_neg at hq
              exact hnl ⟨hp, fun hq2 => by omega, fun _ => hq⟩
            rw [if_neg htw, getD_append_concat _ _ _ _ _ (by
                simp only [List.length_append, bodyVals_length, hnb]
                by_cases h0 : h = 0 <;> simp [h0, htw] <;> omega),
              List.getD_cons_succ, getD_concat_length]
            exact testBit_updMid_frame W (W - t) W lst _ p (by omega) (le_refl W)
              (he lst (by simp)) (Or.inl hpt)
        · exact absurd ⟨hp, fun hq => by omega, fun hq => by rw [hk] at hq; omega⟩ hnl

/-- Frame property of the descending big-endian store. -/
theorem frameBeD (W MW h t : ℕ) (mem : List ℕ) (v : ℕ) (mem2 : List ℕ)
    (hh : h < W) (ht1 : 1 ≤ t) (htW : t ≤ W)
    (he : ∀ x ∈ mem, x < 2 ^ W)
    (hst : Msb0.storeBe W MW h t mem v = some mem2) :
    mem2.length = mem.length ∧
    ∀ i p, i < mem.length → p < W → ¬ liveD W h t mem.length i p →
      (mem2.getD i 0).testBit p = (mem.getD i 0).testBit p := by
  rcases mem_shape mem with rfl | ⟨e, rfl⟩ | ⟨e, mid, lst, rfl⟩
  · have hq : ¬ (1 ≤ sliceLen W h t ([] : List ℕ).length ∧
        sliceLen W h t ([] : List ℕ).length ≤ MW) := by
      unfold sliceLen
      simp
    rw [storeBe_noneD W MW h t [] v hq] at hst
    exact Option.noConfusion hst
  · rw [storeBe_single_eqD] at hst
    exact frameLeD W MW h t [e] v mem2 hh ht1 htW he hst
  · have hok : 1 ≤ sliceLen W h t (e :: (mid ++ [lst])).length ∧
        sliceLen W h t (e :: (mid ++ [lst])).length ≤ MW := by
      by_contra hq
      rw [storeBe_noneD W MW h t _ v hq] at hst
      exact Option.noConfusion hst
    have hk : (e :: (mid ++ [lst])).length = mid.length + 2 := by simp
    have hsl : sliceLen W h t (mid.length + 2) = W * (mid.length + 1) + t - h := by
      unfold sliceLen
      simp
    rw [hk, hsl] at hok
    have hnb := regionBody_length W h t e mid lst
    rw [storeBe_regionD W MW h t e lst mid v hh ht1 htW hok.2] at hst
    have hm := Option.some.inj hst
    subst hm
    constructor
    · simp only [List.length_append, List.length_cons, List.length_reverse,
        bodyVals_length, hnb]
      by_cases h0 : h = 0 <;> by_cases htw : t = W <;> simp [h0, htw] <;> omega
    · intro i p hi hp hnl
      rw [hk] at hi
      simp only [liveD] at hnl
      by_cases hi0 : i = 0
      · subst hi0
        by_cases h0 : h = 0
        · exact absurd ⟨hp, fun _ => by omega, fun hq => by rw [hk] at hq; omega⟩ hnl
        · have hph : W - h ≤ p := by
            by_contra hq
            push_neg at hq
            exact hnl ⟨hp, fun _ => hq, fun hq2 => by rw [hk] at hq2; omega⟩
          simp only [if_neg h0, List.cons_append, List.nil_append, List.getD_cons_zero]
          exact testBit_updMid_frame W 0 (W - h) e _ p (Nat.zero_le _) (by omega)
            (he e (by simp)) (Or.inr hph)
      · by_cases hil : i = mid.length + 1
        · subst hil
          by_cases htw : t = W
          · exact absurd ⟨hp, fun hq => by omega, fun _ => by omega⟩ hnl
          · have hpt : p < W - t := by
              by_contra hq
              push_neg at hq
              exact hnl ⟨hp, fun hq2 => by omega, fun _ => hq⟩
            rw [if_neg htw, if_neg htw, getD_append_concat _ _ _ _ _ (by
                simp only [List.length_append, List.length_reverse, bodyVals_length, hnb]
                by_cases h0 : h = 0 <;> simp [h0, htw] <;> omega),
              List.getD_cons_succ, getD_concat_length]
            exact testBit_updMid_frame W (W - t) W lst _ p (by omega) (le_refl W)
              (he lst (by simp)) (Or.inl hpt)
        · exact absurd ⟨hp, fun hq => by omega, fun hq => by rw [hk] at hq; omega⟩ hnl

/-- C8: frame property of store — a successful `store_le`/`store_be` under
either ordering preserves memory length and leaves every non-live physical
bit (head bits below the start marker, tail bits at or beyond the end marker,
in the respective ordering's geometry) unchanged. -/
theorem claim_C8 (W MW h t : ℕ) (mem : List ℕ) (v : ℕ)
    (hh : h < W) (ht1 : 1 ≤ t) (htW : t ≤ W)
    (he : ∀ x ∈ mem, x < 2 ^ W) (hm2 : ∃ i, MW = 2 ^ i) :
    (∀ mem2, Lsb0.storeLe W MW h t mem v = some mem2 →
      mem2.length = mem.length ∧
      ∀ i p, i < mem.length → p < W → ¬ liveA W h t mem.length i p →
        (mem2.getD i 0).testBit p = (mem.getD i 0).testBit p) ∧
    (∀ mem2, Lsb0.storeBe W MW h t mem v = some mem2 →
      mem2.length = mem.length ∧
      ∀ i p, i < mem.length → p < W → ¬ liveA W h t mem.length i p →
        (mem2.getD i 0).testBit p = (mem.getD i 0).testBit p) ∧
    (∀ mem2, Msb0.storeLe W MW h t mem v = some mem2 →
      mem2.length = mem.length ∧
      ∀ i p, i < mem.length → p < W → ¬ liveD W h t mem.length i p →
        (mem2.getD i 0).testBit p = (mem.getD i 0).testBit p) ∧
    (∀ mem2, Msb0.storeBe W MW h t mem v = some mem2 →
      mem2.length = mem.length ∧
      ∀ i p, i < mem.length → p < W → ¬ liveD W h t mem.length i p →
        (mem2.getD i 0).testBit p = (mem.getD i 0).testBit p) :=
  ⟨fun mem2 hst => frameLeA W MW h t mem v mem2 hh ht1 htW he hst,
   fun mem2 hst => frameBeA W MW h t mem v mem2 hh ht1 htW he hm2 hst,
   fun mem2 hst => frameLeD W MW h t mem v mem2 hh ht1 htW he hst,
   fun mem2 hst => frameBeD W MW h t mem v mem2 hh ht1 htW he hst⟩

/-- Witness for C8: storing zero into the upper nibble of the first byte and
lower nibble of the second leaves the other nibbles of `[0xFF, 0xFF]` intact. -/
theorem claim_C8_witness :
    ((4:ℕ) < 8 ∧ (1:ℕ) ≤ 4 ∧ (4:ℕ) ≤ 8 ∧ (∀ x ∈ ([255, 255] : List ℕ), x < 2 ^ 8) ∧
      (∃ i, (8:ℕ) = 2 ^ i) ∧
      Lsb0.storeLe 8 8 4 4 [255, 255] 0 = some [15, 240] ∧
      (0:ℕ) < ([255, 255] : List ℕ).length ∧ (0:ℕ) < 8 ∧
      ¬ liveA 8 4 4 ([255, 255] : List ℕ).length 0 0) ∧
    (([15, 240] : List ℕ).getD 0 0).testBit 0 =
      (([255, 255] : List ℕ).getD 0 0).testBit 0 := by
  refine ⟨⟨by norm_num, by norm_num, by norm_num, by decide, ⟨3, by norm_num⟩,
    by decide, by decide, by norm_num, by unfold liveA; decide⟩, ?_⟩
  exact ((claim_C8 8 8 4 4 [255, 255] 0 (by norm_num) (by norm_num) (by norm_num)
    (by decide) ⟨3, by norm_num⟩).1 [15, 240] (by decide)).2 0 0 (by decide)
    (by norm_num) (by unfold liveA; decide)

end BitvecField
